import Mathlib

/-!
# EA data grabber: date parsing, listing-page parsing, paginated discovery, range filter,
query interpreter, file extension

A shallow embedding of `DateUtilsWrap.cpp`, `XMLUtils.cpp`, the discovery, filtering and
query parts of `EADataGrabber.cpp`, and `toLowercase` / `getFileExtension` of
`WinUtilsWrap.cpp`.

Conventions of the embedding.

* A `std::string` is the list of its `char`s (`List Char`); `length()` is `List.length`.
* `std::optional<T>` is `Option T`; `std::nullopt` is `none`.
* `std::chrono::year_month_day` is a record of a `short` year and two `unsigned char`
  fields; the narrowing done by the `year`, `month` and `day` constructors is explicit.
* Each `std::regex` of the source is embedded as an anchored matcher (what the
  ECMAScript backtracking matcher does when started at one position) together with
  `regex_search` (leftmost start position) or `sregex_iterator` (successive
  non-overlapping matches).
* The anchors and classes follow the ECMAScript grammar that `std::regex` uses by
  default: `^` and `$` hold at the two ends of the searched string, `.` matches every
  char but a line terminator, `\b` separates a word char from a non-word char or a string
  end, and `icase` compares chars after ASCII case folding.
* `GetDateFromUrl` has a path that reaches the end of the function without a `return`
  statement, which is undefined behaviour.  The model of that function returns `none`
  there, and so do its callers `ParseEAXML` and `RunGetContainers` from that point on: a
  run that meets that path has no result.
* A `size_t` is a `Nat` below `2^64`; sums and differences are taken modulo `2^64`
  (`sizeAdd`, `sizeSub`), `std::string::npos` is `2^64 - 1`, and a call that may throw
  (`substr`) returns an `Option`.
* Writes to `std::cout` / `std::cerr` and screen clearing have no effect on the values
  computed and are not part of the embedding.
-/

namespace EADataGrabber

/-! ## Characters and strings -/

/-- Model of `std::string`: the sequence of its chars. -/
abbrev Str := List Char

/-- Class `\d` of `std::regex` and the digits accepted by `std::from_chars`. -/
def isDigit (c : Char) : Bool := decide (48 ≤ c.toNat) && decide (c.toNat ≤ 57)

/-- ASCII letters. -/
def isAlpha (c : Char) : Bool :=
  (decide (65 ≤ c.toNat) && decide (c.toNat ≤ 90)) ||
  (decide (97 ≤ c.toNat) && decide (c.toNat ≤ 122))

/-- Class `\w` of `std::regex`: letters, digits and the underscore. -/
def isWordChar (c : Char) : Bool := isAlpha c || isDigit c || c == '_'

/-- Line terminators, the chars the regex atom `.` does not match. -/
def isLineTerminator (c : Char) : Bool := c == '\n' || c == '\r'

/-- Case folding used by `std::regex::icase` (and by `toLowercase`): ASCII upper case
letters are mapped to lower case, every other char is unchanged. -/
def toLower (c : Char) : Char :=
  if decide (65 ≤ c.toNat) && decide (c.toNat ≤ 90) then Char.ofNat (c.toNat + 32) else c

/-- Numeric value of a decimal digit char. -/
def digitVal (c : Char) : Nat := c.toNat - 48

/-- Decimal value of a run of digit chars, most significant first. -/
def decVal (ds : List Char) : Nat := ds.foldl (fun acc c => 10 * acc + digitVal c) 0

/-- Model of `std::from_chars(first, last, int&)` in base 10 on the chars `[first, last)`:
an optional minus sign, then the longest run of digits.  With no digit the call fails
(`invalid_argument`), a value outside `int` fails (`result_out_of_range`); otherwise it
succeeds with the value of the run, also when chars are left unread after it. -/
def from_chars (s : Str) : Option Int :=
  let neg : Bool := s.head? == some '-'
  let body : Str := if neg then s.drop 1 else s
  let ds : Str := body.takeWhile isDigit
  if ds.isEmpty then none
  else
    let v : Int := if neg then -(decVal ds : Int) else (decVal ds : Int)
    if decide (v < -2147483648) || decide (2147483647 < v) then none else some v

/-- The chars `[i, j)` of a string, as in `data() + i, data() + j`. -/
def slice (s : Str) (i j : Nat) : Str := (s.drop i).take (j - i)

/-! ## Calendar dates -/

/-- Model of `std::chrono::year_month_day`. -/
structure year_month_day where
  year : Int
  month : Nat
  day : Nat
deriving DecidableEq, Repr

/-- Narrowing `static_cast<short>` done by `std::chrono::year(int)`. -/
def toShort (n : Int) : Int := (n + 32768) % 65536 - 32768

/-- Narrowing to `unsigned char` done by `std::chrono::month(unsigned)` and
`std::chrono::day(unsigned)`. -/
def toUChar (n : Int) : Nat := (n % 256).toNat

/-- The expression `year_month_day(year(y), month(m), day(d))` on `int` arguments. -/
def makeDate (yearNum monthNum dayNum : Int) : year_month_day :=
  { year := toShort yearNum, month := toUChar monthNum, day := toUChar dayNum }

/-- Gregorian leap year rule, `std::chrono::year::is_leap`. -/
def is_leap (y : Int) : Bool := y % 4 == 0 && (y % 100 != 0 || y % 400 == 0)

/-- Length of month `m` in year `y`. -/
def last_day (y : Int) (m : Nat) : Nat :=
  if m = 2 then (if is_leap y then 29 else 28)
  else if m = 4 ∨ m = 6 ∨ m = 9 ∨ m = 11 then 30
  else 31

/-- Model of `year_month_day::ok()`: the year is in range, the month is 1..12 and the day
lies between 1 and the length of that month in that year. -/
def year_month_day.ok (d : year_month_day) : Bool :=
  decide (-32767 ≤ d.year) && decide (d.year ≤ 32767) &&
  decide (1 ≤ d.month) && decide (d.month ≤ 12) &&
  decide (1 ≤ d.day) && decide (d.day ≤ last_day d.year d.month)

/-- Ordering `a < b` of `year_month_day`: by year, then month, then day. -/
def year_month_day.lt (a b : year_month_day) : Bool :=
  decide (a.year < b.year) ||
  (decide (a.year = b.year) &&
    (decide (a.month < b.month) || (decide (a.month = b.month) && decide (a.day < b.day))))

/-- Constant `CONSTANTS::DefaultDate`, the value `std::chrono::year_month_day{}`. -/
def DefaultDate : year_month_day := { year := 0, month := 0, day := 0 }

/-- Constant `CONSTANTS::MonthDays`. -/
def MonthDays : List Nat := [31, 28, 31, 30, 31, 30, 31, 31, 30, 31, 30, 31]

/-! ## `DateUtilsWrap.cpp` -/

/-- Model of `StringToDateCLIArg`. -/
def StringToDateCLIArg (dateStr : Str) : Option year_month_day :=
  if dateStr.length ≠ 10 then none
  else
    match from_chars (slice dateStr 0 4) with
    | none => none
    | some yearNum =>
      match from_chars (slice dateStr 5 7) with
      | none => none
      | some monthNum =>
        match from_chars (slice dateStr 8 10) with
        | none => none
        | some dayNum =>
          let ymd := makeDate yearNum monthNum dayNum
          if ymd.ok then some ymd else none

/-- Model of `StringToDateEAFileName`. -/
def StringToDateEAFileName (dateStr : Str) : Option year_month_day :=
  if dateStr.length < 6 ∨ dateStr.length > 8 then none
  else
    match from_chars (slice dateStr 0 4) with
    | none => none
    | some yearNum =>
      match from_chars (slice dateStr 4 6) with
      | none => none
      | some monthNum =>
        if dateStr.length = 8 then
          match from_chars (slice dateStr 6 8) with
          | none => none
          | some dayNum =>
            let ymd := makeDate yearNum monthNum dayNum
            if ymd.ok then some ymd else none
        else
          let dayNum : Int :=
            if 1 ≤ monthNum ∧ monthNum ≤ 12 then (MonthDays.getD (monthNum - 1).toNat 0 : Nat)
            else 0
          let ymd := makeDate yearNum monthNum dayNum
          if ymd.ok then some ymd else none

/-- Model of `std::regex_search`: the anchored matcher `m` is tried at every start
position from left to right and the first success is the result.  `prev` is the char
just before the current position, `none` at the start of the string. -/
def regex_search {α : Type} (m : Option Char → Str → Option α) : Option Char → Str → Option α
  | prev, [] => m prev []
  | prev, c :: s =>
    match m prev (c :: s) with
    | some r => some r
    | none => regex_search m (some c) s

/-- The assertion `\b` between the previous char and the remaining input: exactly one
of the two sides is a word char. -/
def atWordBoundary (prev : Option Char) (s : Str) : Bool :=
  xor (match prev with | some p => isWordChar p | none => false)
      (match s with | c :: _ => isWordChar c | [] => false)

/-- Exactly `n` digits followed by `\b` (the tail of the patterns `\b\d{1,2}\b` and
`\b\d{4}\b`); the result is the matched text. -/
def digitsThenBoundary (n : Nat) (s : Str) : Option Str :=
  let ds := s.take n
  if ds.length = n ∧ ds.all isDigit = true ∧ atWordBoundary ds.getLast? (s.drop n) = true
  then some ds else none

/-- Anchored matcher of `dayPattern`, the regex `\b\d{1,2}\b`: the quantifier is greedy,
so two digits are tried before one. -/
def dayPattern (prev : Option Char) (s : Str) : Option Str :=
  if atWordBoundary prev s then
    match digitsThenBoundary 2 s with
    | some m => some m
    | none => digitsThenBoundary 1 s
  else none

/-- Month abbreviations of `monthPattern`, in the order of its alternation. -/
def monthNames : List Str :=
  ["Jan".toList, "Feb".toList, "Mar".toList, "Apr".toList, "May".toList, "Jun".toList,
   "Jul".toList, "Aug".toList, "Sep".toList, "Oct".toList, "Nov".toList, "Dec".toList]

/-- Anchored matcher of `monthPattern`, the regex
`\b(Jan|Feb|Mar|Apr|May|Jun|Jul|Aug|Sep|Oct|Nov|Dec)\b`: the alternatives are tried in
order, each must be followed by `\b`. -/
def monthPattern (prev : Option Char) (s : Str) : Option Str :=
  if atWordBoundary prev s then
    monthNames.find? (fun nm => nm.isPrefixOf s && atWordBoundary nm.getLast? (s.drop nm.length))
  else none

/-- Anchored matcher of `yearPattern`, the regex `\b\d{4}\b`. -/
def yearPattern (prev : Option Char) (s : Str) : Option Str :=
  if atWordBoundary prev s then digitsThenBoundary 4 s else none

/-- The map `monthToNum` of `StringToDateEAXml`. -/
def monthToNum : List (Str × Nat) :=
  [("Jan".toList, 1), ("Feb".toList, 2), ("Mar".toList, 3), ("Apr".toList, 4),
   ("May".toList, 5), ("Jun".toList, 6), ("Jul".toList, 7), ("Aug".toList, 8),
   ("Sep".toList, 9), ("Oct".toList, 10), ("Nov".toList, 11), ("Dec".toList, 12)]

/-- Model of `StringToDateEAXml`.  Each of the three searches that finds nothing leaves its
variable at its initial value (`0`, `month{}`, `0`). -/
def StringToDateEAXml (dateStr : Str) : Option year_month_day :=
  let dayRes : Option Int :=
    match regex_search dayPattern none dateStr with
    | some matchedStr => from_chars matchedStr
    | none => some 0
  match dayRes with
  | none => none
  | some dayNum =>
    let monthRes : Option Nat :=
      match regex_search monthPattern none dateStr with
      | some matchedStr => monthToNum.lookup matchedStr
      | none => some 0
    match monthRes with
    | none => none
    | some monthNum =>
      let yearRes : Option Int :=
        match regex_search yearPattern none dateStr with
        | some matchedStr => from_chars matchedStr
        | none => some 0
      match yearRes with
      | none => none
      | some yearNum =>
        if dayNum > 0 ∧ yearNum > 0 ∧ monthNum ≠ 0 then
          let ymd : year_month_day :=
            { year := toShort yearNum, month := monthNum, day := toUChar dayNum }
          if ymd.ok then some ymd else none
        else none

/-- Model of `ParseDate`: the three forms in the order CLI argument, file name, XML.  The
warning written to `std::cerr` when all three fail is not modelled. -/
def ParseDate (dateStr : Str) : Option year_month_day :=
  if dateStr.isEmpty then none
  else
    match StringToDateCLIArg dateStr with
    | some ymd => some ymd
    | none =>
      match StringToDateEAFileName dateStr with
      | some ymd => some ymd
      | none =>
        match StringToDateEAXml dateStr with
        | some ymd => some ymd
        | none => none

/-! ## `XMLUtils.cpp` -/

/-- Model of `struct BlobContainer` (`CurlUtilsWrap.hpp`). -/
structure BlobContainer where
  URL : Str
  LastModified : year_month_day
  FileNameDate : year_month_day
deriving DecidableEq, Repr

/-- A literal of a regex compiled with `std::regex::icase`, matched at the front of the
input: chars are compared after case folding.  The result is the input left after it. -/
def matchLiteralI : Str → Str → Option Str
  | [], s => some s
  | _ :: _, [] => none
  | a :: lit, c :: s => if toLower a = toLower c then matchLiteralI lit s else none

/-- The lazy group `(.*?)` followed by the literal `close` (under `icase`): the shortest
run of chars other than line terminators after which `close` matches.  The result is the
captured run, the text matched by `close`, and the input left after it. -/
def lazyDotUntil (close : Str) : Str → Option (Str × Str × Str)
  | [] =>
    match matchLiteralI close [] with
    | some rest => some ([], [], rest)
    | none => none
  | c :: s =>
    match matchLiteralI close (c :: s) with
    | some rest => some ([], (c :: s).take close.length, rest)
    | none =>
      if isLineTerminator c then none
      else
        match lazyDotUntil close s with
        | some (inner, closing, rest) => some (c :: inner, closing, rest)
        | none => none

/-- Anchored matcher of the regex `<TAG>(.*?)</TAG>` compiled with `icase`, for a tag name
without regex metacharacters.  The result is `str(0)` (the matched text), `str(1)` (the
captured inner text) and the input left after the match. -/
def tagPattern (tag : Str) (s : Str) : Option (Str × Str × Str) :=
  let opening : Str := '<' :: (tag ++ ['>'])
  let closing : Str := '<' :: '/' :: (tag ++ ['>'])
  match matchLiteralI opening s with
  | none => none
  | some afterOpen =>
    match lazyDotUntil closing afterOpen with
    | none => none
    | some (inner, closeText, rest) =>
      some (s.take opening.length ++ inner ++ closeText, inner, rest)

/-- Model of `std::sregex_iterator`: the successive non-overlapping matches, each search
starting where the previous match ended.  `m` is the anchored matcher, returning the
match and the input left after it; `fuel` bounds the number of search steps and
`sregex_iterator` supplies enough of it. -/
def sregex_iterator.go {μ : Type} (m : Str → Option (μ × Str)) : Nat → Str → List μ
  | 0, _ => []
  | fuel + 1, s =>
    match m s with
    | some (r, rest) => r :: sregex_iterator.go m fuel rest
    | none =>
      match s with
      | [] => []
      | _ :: s' => sregex_iterator.go m fuel s'

/-- All matches of a pattern in `s`, in order (the range `begin .. end` of the source). -/
def sregex_iterator {μ : Type} (m : Str → Option (μ × Str)) (s : Str) : List μ :=
  sregex_iterator.go m (s.length + 1) s

/-- Model of the overload of `_ExtractValueFromXMLTag` that fills a vector: the value is
the sequence of strings pushed to `outputVector`. -/
def _ExtractValueFromXMLTag_all (tagToMatch xmlString : Str) : List Str :=
  sregex_iterator
    (fun s => match tagPattern tagToMatch s with
      | some (_, inner, rest) => some (inner, rest)
      | none => none)
    xmlString

/-- Model of the overload of `_ExtractValueFromXMLTag` that returns a string: `str(1)` of
the first match, or the empty string. -/
def _ExtractValueFromXMLTag (tagToMatch xmlString : Str) : Str :=
  match _ExtractValueFromXMLTag_all tagToMatch xmlString with
  | fullString :: _ => fullString
  | [] => []

/-- The class `[/_-]` of the pattern of `_ExtractStrDateFromUrl`. -/
def isDateDelimiter (c : Char) : Bool := c == '/' || c == '_' || c == '-'

/-- The alternative `(?:[/_-]|$)`: a delimiter char or the end of the input. -/
def delimiterOrEnd : Str → Bool
  | [] => true
  | c :: _ => isDateDelimiter c

/-- The part `(\d{6}(?:\d{2})?)(?:[/_-]|$)` of the pattern, anchored: six digits, then
greedily two more, then a delimiter or the end; the result is the captured digits. -/
def dateTokenAt (s : Str) : Option Str :=
  let six := s.take 6
  if six.length = 6 ∧ six.all isDigit = true then
    let two := (s.drop 6).take 2
    if two.length = 2 ∧ two.all isDigit = true ∧ delimiterOrEnd (s.drop 8) = true then
      some (six ++ two)
    else if delimiterOrEnd (s.drop 6) = true then some six
    else none
  else none

/-- Anchored matcher of the regex `(?:^|[/_-])(\d{6}(?:\d{2})?)(?:[/_-]|$)`: the
alternative `^` holds only at the start of the string, the other one reads a delimiter. -/
def urlDatePattern (prev : Option Char) (s : Str) : Option Str :=
  let viaStart : Option Str := if prev.isNone then dateTokenAt s else none
  match viaStart with
  | some tok => some tok
  | none =>
    match s with
    | c :: s' => if isDateDelimiter c then dateTokenAt s' else none
    | [] => none

/-- Model of `_ExtractStrDateFromUrl`: `str(1)` of the first match of the pattern. -/
def _ExtractStrDateFromUrl (urlString : Str) : Option Str :=
  regex_search urlDatePattern none urlString

/-- Model of `GetDateFromUrl`.  When no date token is found the source function reaches
its end without a `return` statement: it yields no value, which is `none` here. -/
def GetDateFromUrl (urlString : Str) : Option year_month_day :=
  match _ExtractStrDateFromUrl urlString with
  | some strDate =>
    match ParseDate strDate with
    | some parsedDate => some parsedDate
    | none => some DefaultDate
  | none => none

/-- Model of `std::string::find(needle) != std::string::npos`. -/
def strContains (needle : Str) : Str → Bool
  | [] => needle.isEmpty
  | c :: s => needle.isPrefixOf (c :: s) || strContains needle s

/-- The sub-matches of one match of the pattern of `ParseEAXML`. -/
structure smatch where
  str0 : Str
  str1 : Str
  str2 : Str
  str3 : Str
deriving DecidableEq, Repr

/-- Anchored matcher of the regex `(<Blob>(.*?)</Blob>|<NextMarker>(.*?)</NextMarker>)`
compiled with `icase` (the source writes the two slashes as `\/` in an ordinary string
literal, which denotes `/`): the first alternative is tried first.  Group 1 encloses the
whole alternation, so `str(1)` equals `str(0)`; the group of the alternative not taken is
empty. -/
def blobOrMarkerPattern (s : Str) : Option (smatch × Str) :=
  match tagPattern "Blob".toList s with
  | some (full, inner, rest) =>
    some ({ str0 := full, str1 := full, str2 := inner, str3 := [] }, rest)
  | none =>
    match tagPattern "NextMarker".toList s with
    | some (full, inner, rest) =>
      some ({ str0 := full, str1 := full, str2 := [], str3 := inner }, rest)
    | none => none

/-- Body of the `for` loop of `ParseEAXML` for one match; the state is `outputVector` and
`*nextMarker`.  In the Blob branch `GetDateFromUrl(url)` is called; when that call reaches
the end of the function without a `return` statement the behaviour of the program is
undefined from there on, and the step has no result (`none`). -/
def ParseEAXML.step (state : List BlobContainer × Str) (m : smatch) :
    Option (List BlobContainer × Str) :=
  let innerTagString := m.str1
  let fullString := m.str0
  if strContains "/Blob".toList fullString then
    let strDate := _ExtractValueFromXMLTag "Last-Modified".toList innerTagString
    let url := _ExtractValueFromXMLTag "Url".toList innerTagString
    match GetDateFromUrl url with
    | none => none
    | some fileNameDate =>
      let lastModified : year_month_day :=
        match ParseDate strDate with
        | some d => d
        | none => DefaultDate
      some (state.1 ++ [{ URL := url, LastModified := lastModified,
                          FileNameDate := fileNameDate }],
            state.2)
  else if strContains "<NextMarker>".toList fullString then
    some (state.1, m.str3)
  else some state

/-- The `for` loop of `ParseEAXML` over the matches of the pattern, in order; no result as
soon as one step has none. -/
def ParseEAXML.loop : List smatch → List BlobContainer × Str → Option (List BlobContainer × Str)
  | [], state => some state
  | m :: later, state =>
    match ParseEAXML.step state m with
    | none => none
    | some next => ParseEAXML.loop later next

/-- Model of `ParseEAXML`: the final `outputVector` and `*nextMarker`, or `none` when the
run meets the undefined behaviour of `GetDateFromUrl` (a Blob block whose URL holds no
date token). -/
def ParseEAXML (outputVector : List BlobContainer) (xmlString : Str)
    (nextMarker : Str) : Option (List BlobContainer × Str) :=
  ParseEAXML.loop (sregex_iterator blobOrMarkerPattern xmlString) (outputVector, nextMarker)

/-! ## `EADataGrabber.cpp` -/

/-- Constant `CONSTANTS::AllContainersURL`. -/
def AllContainersURL : Str :=
  "https://emidatasets.blob.core.windows.net/publicdata?restype=container&comp=list&prefix=".toList

/-- Outcome of one `PerformCurlRequest(curl)` of the listing loop: the transfer succeeds
and `WriteCallback` has stored `body` in the emptied `responseData`, or it fails. -/
inductive Response where
  | ok (body : Str)
  | failed
deriving DecidableEq, Repr

/-- What a run of `RunGetContainers` leaves behind: the output vector, the URLs of the
requests performed (in order), and the responses of the transport not consumed. -/
structure Discovery where
  outputArray : List BlobContainer
  requests : List Str
  unread : List Response
deriving DecidableEq, Repr

/-- The `while (1)` loop of `RunGetContainers`, entered with the body of the last
successful request in `responseData`.  The transport is the list of the outcomes of the
requests still to come.  The value is `none` when `ParseEAXML` has no result for the page
(undefined behaviour), and when the loop asks for a request beyond the end of the
transport. -/
def RunGetContainers.loop (queryPath : Str) :
    List Response → Str → List BlobContainer → List Str → Option Discovery
  | transport, responseData, outputArray, requests =>
    match ParseEAXML outputArray responseData [] with
    | none => none
    | some parsed =>
      if parsed.2.isEmpty then
        some { outputArray := parsed.1, requests := requests, unread := transport }
      else
        let updatedUrl := AllContainersURL ++ queryPath ++ "&marker=".toList ++ parsed.2
        match transport with
        | [] => none
        | Response.failed :: later =>
          some { outputArray := parsed.1, requests := requests ++ [updatedUrl], unread := later }
        | Response.ok body :: later =>
          RunGetContainers.loop queryPath later body parsed.1 (requests ++ [updatedUrl])

/-- Model of `RunGetContainers`, started with the given content of `outputArray`. -/
def RunGetContainers (transport : List Response)
    (outputArray : List BlobContainer) (queryPath : Str) : Option Discovery :=
  match transport with
  | [] => none
  | Response.failed :: later =>
    some { outputArray := outputArray, requests := [AllContainersURL ++ queryPath], unread := later }
  | Response.ok body :: later =>
    RunGetContainers.loop queryPath later body outputArray [AllContainersURL ++ queryPath]

/-- Model of `struct SearchDateParameters` (`CurlUtilsWrap.hpp`). -/
structure SearchDateParameters where
  StartDate : year_month_day
  EndDate : year_month_day
deriving DecidableEq, Repr

/-- Body of the `for` loop of `FuzzyFindContainers` for one item; the state is
`selectedContainers`. -/
def FuzzyFindContainers.step (searchDate : SearchDateParameters)
    (selectedContainers : List BlobContainer) (Item : BlobContainer) : List BlobContainer :=
  if searchDate.StartDate ≠ DefaultDate ∧ searchDate.EndDate = DefaultDate then
    if searchDate.StartDate.lt Item.FileNameDate then selectedContainers ++ [Item]
    else selectedContainers
  else if searchDate.StartDate = DefaultDate ∧ searchDate.EndDate ≠ DefaultDate then
    if Item.FileNameDate.lt searchDate.EndDate then selectedContainers ++ [Item]
    else selectedContainers
  else
    if searchDate.StartDate.lt Item.FileNameDate ∧ Item.FileNameDate.lt searchDate.EndDate then
      selectedContainers ++ [Item]
    else selectedContainers

/-- The range filter of `FuzzyFindContainers`: the value returned for the containers found
by `RunGetContainers` and the dates found by `ExtractSearchDatesCLI`. -/
def FuzzyFindContainers.select (searchDate : SearchDateParameters)
    (allContainers : List BlobContainer) : List BlobContainer :=
  if searchDate.StartDate = DefaultDate ∧ searchDate.EndDate = DefaultDate then allContainers
  else allContainers.foldl (FuzzyFindContainers.step searchDate) []

/-- Value `std::string::npos`, also `UINT64_MAX`: the largest `size_t`. -/
def npos : Nat := 18446744073709551615

/-- Sum of two `size_t` values, modulo `2^64`. -/
def sizeAdd (a b : Nat) : Nat := (a + b) % 18446744073709551616

/-- Difference of two `size_t` values, modulo `2^64`. -/
def sizeSub (a b : Nat) : Nat :=
  (a % 18446744073709551616 + 18446744073709551616 - b % 18446744073709551616)
    % 18446744073709551616

/-- Index of the first occurrence of `needle` in `s`, if any. -/
def indexOfSub (needle : Str) : Str → Option Nat
  | [] => if needle.isEmpty then some 0 else none
  | c :: s =>
    if needle.isPrefixOf (c :: s) then some 0
    else
      match indexOfSub needle s with
      | some i => some (i + 1)
      | none => none

/-- Model of `std::string::find(needle, pos)`: the index of the first occurrence that
starts at or after `pos`, or `npos`. -/
def find (s needle : Str) (pos : Nat) : Nat :=
  if pos > s.length then npos
  else
    match indexOfSub needle (s.drop pos) with
    | some i => pos + i
    | none => npos

/-- Model of `std::string::substr(pos, count)`: the chars `[pos, pos + count)` cut at the
end of the string; `none` stands for the `std::out_of_range` thrown when `pos` is past the
end. -/
def substr (s : Str) (pos count : Nat) : Option Str :=
  if pos > s.length then none else some ((s.drop pos).take count)

/-- Model of `toLowercase` (`WinUtilsWrap.cpp`): `std::tolower` on every char. -/
def toLowercase (str : Str) : Str := str.map toLower

/-- Constant `CONSTANTS::StartDateStrArg`. -/
def StartDateStrArg : Str := "-sd".toList

/-- Constant `CONSTANTS::EndDateStrArg`. -/
def EndDateStrArg : Str := "-ed".toList

/-- Constant `CONSTANTS::ExpectedDateArgumentLengthShort`. -/
def ExpectedDateArgumentLengthShort : Nat := 10

/-- Constant `CONSTANTS::ExpectedDateArgumentLengthLong`. -/
def ExpectedDateArgumentLengthLong : Nat := 11

/-- Model of `ExtractInputArguments`, with `size_t` arithmetic modulo `2^64`.  The outer
`none` stands for an exception leaving the function (the one `substr` may throw); the value
`some none` is the returned `std::nullopt`. -/
def ExtractInputArguments (argument input : Str) : Option (Option Str) :=
  let argPos := find input argument 0
  if argPos ≠ npos then
    let startPos := sizeAdd (sizeAdd argPos argument.length) 1
    let endPos0 := find input [' '] startPos
    let endPos1 := if endPos0 = npos ∧ startPos ≠ npos then input.length else endPos0
    if ¬ (sizeSub endPos1 startPos = ExpectedDateArgumentLengthShort ∨
          sizeSub endPos1 startPos = ExpectedDateArgumentLengthLong) then some none
    else
      let endPos2 := if endPos1 = npos then input.length else endPos1
      match substr input startPos (sizeSub endPos2 startPos) with
      | some value => some (some value)
      | none => none
  else some none

/-- The date a bound takes from what `ExtractInputArguments` found: the value parsed by
`StringToDateCLIArg`, or the default date when nothing was found or the value does not
parse. -/
def boundOfArgument (dateStr : Option Str) : year_month_day :=
  match dateStr with
  | some value =>
    match StringToDateCLIArg value with
    | some date => date
    | none => DefaultDate
  | none => DefaultDate

/-- Model of `ExtractSearchDatesCLI`; `none` stands for an exception leaving the function. -/
def ExtractSearchDatesCLI (input : Str) : Option SearchDateParameters :=
  match ExtractInputArguments StartDateStrArg (toLowercase input) with
  | none => none
  | some startDateStr =>
    match ExtractInputArguments EndDateStrArg (toLowercase input) with
    | none => none
    | some endDateStr =>
      some { StartDate := boundOfArgument startDateStr, EndDate := boundOfArgument endDateStr }

/-- Class `\s` of `std::regex`: space, tab, line feed, vertical tab, form feed, carriage
return. -/
def isSpace (c : Char) : Bool := c == ' ' || (decide (9 ≤ c.toNat) && decide (c.toNat ≤ 13))

/-- The class `[^-\s]` of the pattern of `FuzzyFindContainers`. -/
def isPathChar (c : Char) : Bool := !(c == '-' || isSpace c)

/-- Anchored matcher of the regex `^\s*[^-\s]+` of `FuzzyFindContainers`.  The assertion
`^` holds only at the start of the string.  Both quantifiers are greedy: `\s*` takes the
whole leading whitespace and `[^-\s]+` the longest run that follows; when that run is
empty, giving back whitespace does not help, since a whitespace char is not in the class.
The result is the matched text. -/
def queryPathPattern (prev : Option Char) (s : Str) : Option Str :=
  if prev.isNone then
    let run := (s.dropWhile isSpace).takeWhile isPathChar
    if run.isEmpty then none else some (s.takeWhile isSpace ++ run)
  else none

/-- The query path computed by `FuzzyFindContainers`: the text of the first match of the
pattern in `fuzzyUserInput`, or the empty string. -/
def FuzzyFindContainers.queryPath (fuzzyUserInput : Str) : Str :=
  match regex_search queryPathPattern none fuzzyUserInput with
  | some queryPathMatch => queryPathMatch
  | none => []

/-- The arguments `(startPos, endPos)` with which `ExtractInputArguments` reaches its call
`input.substr(startPos, endPos - startPos)`; `none` when the function returns before that
call. -/
def ExtractInputArguments.substrCall (argument input : Str) : Option (Nat × Nat) :=
  let argPos := find input argument 0
  if argPos ≠ npos then
    let startPos := sizeAdd (sizeAdd argPos argument.length) 1
    let endPos0 := find input [' '] startPos
    let endPos1 := if endPos0 = npos ∧ startPos ≠ npos then input.length else endPos0
    if ¬ (sizeSub endPos1 startPos = ExpectedDateArgumentLengthShort ∨
          sizeSub endPos1 startPos = ExpectedDateArgumentLengthLong) then none
    else
      let endPos2 := if endPos1 = npos then input.length else endPos1
      some (startPos, endPos2)
  else none

/-! ## `WinUtilsWrap.cpp` -/

/-- Index of the last occurrence of the char `c` in a string, if any. -/
def rfindChar (c : Char) : Str → Option Nat
  | [] => none
  | a :: s =>
    match rfindChar c s with
    | some i => some (i + 1)
    | none => if a == c then some 0 else none

/-- Model of `std::string::rfind(char)`: the index of the last occurrence, or `npos`. -/
def rfind (s : Str) (c : Char) : Nat :=
  match rfindChar c s with
  | some i => i
  | none => npos

/-- Model of `getFileExtension`.  The call `Url.substr(dotPos + 1)` is `substr` with the
default count `npos`; `none` stands for the exception it may throw. -/
def getFileExtension (Url : Str) : Option Str :=
  let dotPos := rfind Url '.'
  if dotPos = npos ∨ rfind Url '/' > dotPos then some []
  else substr Url (sizeAdd dotPos 1) npos

/-! ## Vocabulary of the specification -/

/-- Policy table of the range filter as the specification words it: a bound is unset
when it is the default date; with no bound set everything is kept, with a start bound the
embedded date must be strictly after it, with an end bound strictly before it. -/
def keepWhen (startDate endDate embeddedDate : year_month_day) : Bool :=
  if startDate = DefaultDate ∧ endDate = DefaultDate then true
  else if startDate ≠ DefaultDate ∧ endDate = DefaultDate then startDate.lt embeddedDate
  else if startDate = DefaultDate ∧ endDate ≠ DefaultDate then embeddedDate.lt endDate
  else startDate.lt embeddedDate && embeddedDate.lt endDate

/-- The specification's notion of a real calendar date: month 1..12 and day between 1 and
the length of that month in that year, leap years accounted for. -/
def realDate (y m d : Nat) : Prop := 1 ≤ m ∧ m ≤ 12 ∧ 1 ≤ d ∧ d ≤ last_day (y : Int) m

instance (y m d : Nat) : Decidable (realDate y m d) := by
  unfold realDate
  infer_instance

/-- The char of a decimal digit `k < 10`. -/
def digitChar (k : Nat) : Char := Char.ofNat (48 + k % 10)

/-- A number written with exactly two decimal digits. -/
def pad2 (n : Nat) : Str := [digitChar (n / 10), digitChar n]

/-- A number written with exactly four decimal digits. -/
def pad4 (n : Nat) : Str :=
  [digitChar (n / 1000), digitChar (n / 100), digitChar (n / 10), digitChar n]

/-- The parse of one listing page by `ParseEAXML`, started as `RunGetContainers` starts
it: empty output, empty token. -/
def pageParse (page : Str) : Option (List BlobContainer × Str) := ParseEAXML [] page []

/-- The records that `ParseEAXML` appends for one listing page (none when the parse of
the page has no result). -/
def pageRecords (page : Str) : List BlobContainer :=
  match pageParse page with
  | some parsed => parsed.1
  | none => []

/-- The continuation token that `ParseEAXML` leaves for one listing page, starting from
the empty token as `RunGetContainers` does (empty when the parse has no result). -/
def pageMarker (page : Str) : Str :=
  match pageParse page with
  | some parsed => parsed.2
  | none => []

/-- The parse of the page has a result: no Blob block of the page leads `GetDateFromUrl`
to its end without a `return`. -/
def pageDefined (page : Str) : Prop := (pageParse page).isSome = true

instance (page : Str) : Decidable (pageDefined page) := by
  unfold pageDefined
  infer_instance

/-- The URL requested to continue a listing after `page`. -/
def continuationUrl (queryPath page : Str) : Str :=
  AllContainersURL ++ queryPath ++ "&marker=".toList ++ pageMarker page

/-- The number of the month whose abbreviation is `W`: `W` must be, letter for letter,
the `m`-th entry of Jan, Feb, ..., Dec. -/
def monthOfAbbreviation (W : Str) : Option Nat :=
  if W ∈ monthNames then some (monthNames.indexOf W + 1) else none


/-- Leap years of the Gregorian calendar: divisible by 4 and not by 100, or divisible by
400. -/
def leapYear (y : Int) : Bool :=
  (decide (y % 4 = 0) && !decide (y % 100 = 0)) || decide (y % 400 = 0)

/-- The true length of month `m` of year `y`; 0 when `m` is not a month. -/
def trueMonthLength (y : Int) : Nat → Nat
  | 1 => 31
  | 2 => if leapYear y then 29 else 28
  | 3 => 31
  | 4 => 30
  | 5 => 31
  | 6 => 30
  | 7 => 31
  | 8 => 31
  | 9 => 30
  | 10 => 31
  | 11 => 30
  | 12 => 31
  | _ => 0

/-- A date value that is a real calendar date: month 1..12 and day between 1 and the true
length of that month in that year. -/
def year_month_day.isRealDate (d : year_month_day) : Prop :=
  1 ≤ d.month ∧ d.month ≤ 12 ∧ 1 ≤ d.day ∧ d.day ≤ trueMonthLength d.year d.month

instance (d : year_month_day) : Decidable d.isRealDate := by
  unfold year_month_day.isRealDate
  infer_instance

/-- The text `<tag>x</tag>`. -/
def tagBlock (tag x : Str) : Str :=
  ('<' :: (tag ++ ['>'])) ++ x ++ ('<' :: '/' :: (tag ++ ['>']))

/-- The document `s0 <tag>x1</tag> s1 ... <tag>xn</tag> sn`, given `s0` and the pairs
`(xi, si)`. -/
def taggedDocument (tag s0 : Str) (blocks : List (Str × Str)) : Str :=
  s0 ++ blocks.flatMap (fun b => tagBlock tag b.1 ++ b.2)

/-- Text with no `<` and no line break. -/
def plainText (s : Str) : Prop := '<' ∉ s ∧ ∀ c ∈ s, isLineTerminator c = false

instance (s : Str) : Decidable (plainText s) := by
  unfold plainText
  infer_instance

/-- The specification's date token of a URL: in `pre ++ tok ++ post`, the text `tok` is a
run of exactly 6 or exactly 8 digits bounded on the left by `/`, `-`, `_` or the start of
the string and on the right by one of these chars or the end of the string. -/
def DelimitedRun (pre tok post : Str) : Prop :=
  (tok.length = 6 ∨ tok.length = 8) ∧ (∀ c ∈ tok, isDigit c = true) ∧
    pre.getLast?.all isDateDelimiter = true ∧ post.head?.all isDateDelimiter = true

instance (pre tok post : Str) : Decidable (DelimitedRun pre tok post) := by
  unfold DelimitedRun
  infer_instance

/-- A delimited run of 6 or of 8 digits starts at index `i` of `url`. -/
def runStartsAt (url : Str) (i : Nat) : Prop :=
  DelimitedRun (url.take i) ((url.drop i).take 6) (url.drop (i + 6)) ∨
    DelimitedRun (url.take i) ((url.drop i).take 8) (url.drop (i + 8))

instance (url : Str) (i : Nat) : Decidable (runStartsAt url i) := by
  unfold runStartsAt
  infer_instance

/-- One block of a listing page: a Blob block with its inner text, or a NextMarker block
with its token. -/
inductive PageBlock where
  | blob (inner : Str)
  | marker (token : Str)
deriving DecidableEq, Repr

/-- The text of a Blob block, in the casing of the listing format. -/
def blobBlock (inner : Str) : Str := "<Blob>".toList ++ inner ++ "</Blob>".toList

/-- The text of a NextMarker block, in the casing of the listing format. -/
def markerBlock (token : Str) : Str :=
  "<NextMarker>".toList ++ token ++ "</NextMarker>".toList

/-- The text of one block. -/
def PageBlock.render : PageBlock → Str
  | PageBlock.blob inner => blobBlock inner
  | PageBlock.marker token => markerBlock token

/-- The listing page `s0 B1 s1 ... Bn sn`, given the text `s0` and the pairs `(Bi, si)` of
a block and the text that follows it. -/
def renderPage (s0 : Str) (blocks : List (PageBlock × Str)) : Str :=
  s0 ++ blocks.flatMap (fun b => b.1.render ++ b.2)

/-- Text between the blocks of a page: it holds no opening tag `<Blob>` or `<NextMarker>`,
in any casing.  Other markup (`<Blobs>`, `</EnumerationResults>`, ...) and line breaks are
allowed. -/
def betweenBlocks (s : Str) : Prop :=
  ¬ ("<blob>".toList <:+: s.map toLower) ∧ ¬ ("<nextmarker>".toList <:+: s.map toLower)

instance (s : Str) : Decidable (betweenBlocks s) := by
  unfold betweenBlocks
  infer_instance

/-- Shape of the blocks of a listing page: the inner text of a Blob block has no line
break and no closing Blob tag in any casing; the token of a NextMarker block has no line
break, no `<` and does not contain `/Blob`. -/
def PageBlock.flat : PageBlock → Prop
  | PageBlock.blob inner =>
    (∀ c ∈ inner, isLineTerminator c = false) ∧ ¬ ("</blob>".toList <:+: inner.map toLower)
  | PageBlock.marker token =>
    (∀ c ∈ token, isLineTerminator c = false) ∧ '<' ∉ token ∧ ¬ ("/Blob".toList <:+: token)

instance (b : PageBlock) : Decidable b.flat := by
  cases b <;> (unfold PageBlock.flat; infer_instance)

/-- The URL holds a date token in the sense of the specification: a delimited run of
exactly 6 or exactly 8 digits starts at some index. -/
def hasDateToken (url : Str) : Prop := ∃ i, i < url.length ∧ runStartsAt url i

instance (url : Str) : Decidable (hasDateToken url) := by
  unfold hasDateToken
  infer_instance

/-- The URL of a Blob block: the inner text of its first `Url` tag. -/
def urlOfBlock (block : Str) : Str := _ExtractValueFromXMLTag "Url".toList block

/-- The URL of a Blob block holds a date token; nothing is asked of a NextMarker block. -/
def PageBlock.dated : PageBlock → Prop
  | PageBlock.blob inner => hasDateToken (urlOfBlock (blobBlock inner))
  | PageBlock.marker _ => True

instance (b : PageBlock) : Decidable b.dated := by
  cases b <;> (unfold PageBlock.dated; infer_instance)

/-- The record the specification describes for one Blob block whose URL holds a date
token: the URL is the inner text of the first `Url` tag of the block, the embedded date is
the one `GetDateFromUrl` extracts from that URL, the modification date is the parse of the
inner text of the first `Last-Modified` tag, or the unset sentinel. -/
def recordOfBlock (block : Str) : BlobContainer :=
  { URL := urlOfBlock block,
    LastModified :=
      (ParseDate (_ExtractValueFromXMLTag "Last-Modified".toList block)).getD DefaultDate,
    FileNameDate := (GetDateFromUrl (urlOfBlock block)).getD DefaultDate }

/-- The records of the Blob blocks of a page, in document order. -/
def recordsOfBlocks : List (PageBlock × Str) → List BlobContainer
  | [] => []
  | (PageBlock.blob inner, _) :: rest => recordOfBlock (blobBlock inner) :: recordsOfBlocks rest
  | (PageBlock.marker _, _) :: rest => recordsOfBlocks rest

/-- The token of the last NextMarker block of a page, or `token` when there is none. -/
def markerOfBlocks (token : Str) : List (PageBlock × Str) → Str
  | [] => token
  | (PageBlock.marker t, _) :: rest => markerOfBlocks t rest
  | (PageBlock.blob _, _) :: rest => markerOfBlocks token rest

/-- Tokens joined by single spaces: the query `t1 t2 ... tn`. -/
def spaced : List Str → Str
  | [] => []
  | [t] => t
  | t :: t2 :: ts => t ++ ' ' :: spaced (t2 :: ts)

/-- A date written `YYYY-MM-DD`. -/
def isoDate (y m d : Nat) : Str := pad4 y ++ '-' :: (pad2 m ++ '-' :: pad2 d)

/-- The text `needle` occurs in `s` when letter case is ignored (`needle` in lower case). -/
def occursIgnoringCase (needle s : Str) : Prop := needle <:+: toLowercase s

instance (needle s : Str) : Decidable (occursIgnoringCase needle s) := by
  unfold occursIgnoringCase
  infer_instance

/-! ## Range filter -/

theorem foldl_step_eq_filter (searchDate : SearchDateParameters)
    (h : ¬ (searchDate.StartDate = DefaultDate ∧ searchDate.EndDate = DefaultDate))
    (items acc : List BlobContainer) :
    items.foldl (FuzzyFindContainers.step searchDate) acc =
      acc ++ items.filter
        (fun r => keepWhen searchDate.StartDate searchDate.EndDate r.FileNameDate) := by
  induction items generalizing acc with
  | nil => simp
  | cons r rest ih =>
    rw [List.foldl_cons, ih]
    by_cases hs : searchDate.StartDate = DefaultDate
    · have he : searchDate.EndDate ≠ DefaultDate := fun he => h ⟨hs, he⟩
      cases hk : r.FileNameDate.lt searchDate.EndDate <;>
        simp [FuzzyFindContainers.step, keepWhen, hs, he, hk, List.filter_cons]
    · by_cases he : searchDate.EndDate = DefaultDate
      · cases hk : searchDate.StartDate.lt r.FileNameDate <;>
          simp [FuzzyFindContainers.step, keepWhen, hs, he, hk, List.filter_cons]
      · cases hk : searchDate.StartDate.lt r.FileNameDate <;>
          cases hk2 : r.FileNameDate.lt searchDate.EndDate <;>
          simp [FuzzyFindContainers.step, keepWhen, hs, he, hk, hk2, List.filter_cons]

theorem lt_irrefl_date (d : year_month_day) : d.lt d = false := by
  simp [year_month_day.lt]

/-- C1: for every sequence of records and every pair of bounds, the range filter of
`FuzzyFindContainers` returns exactly the records that satisfy the policy table on their
`FileNameDate`, in input order; with both bounds unset the input is returned unchanged,
and a record dated exactly on a bound is not strictly after or before it. -/
theorem C1_range_filter_policy (searchDate : SearchDateParameters)
    (allContainers : List BlobContainer) :
    FuzzyFindContainers.select searchDate allContainers =
        allContainers.filter
          (fun r => keepWhen searchDate.StartDate searchDate.EndDate r.FileNameDate)
      ∧ FuzzyFindContainers.select ⟨DefaultDate, DefaultDate⟩ allContainers = allContainers
      ∧ (∀ d : year_month_day, d.lt d = false) := by
  refine ⟨?_, ?_, lt_irrefl_date⟩
  · by_cases h : searchDate.StartDate = DefaultDate ∧ searchDate.EndDate = DefaultDate
    · simp [FuzzyFindContainers.select, h, keepWhen]
    · simp only [FuzzyFindContainers.select, h, if_false]
      rw [foldl_step_eq_filter searchDate h]
      simp
  · simp [FuzzyFindContainers.select]

theorem select_mem_iff (searchDate : SearchDateParameters) (allContainers : List BlobContainer)
    (x : BlobContainer) :
    x ∈ FuzzyFindContainers.select searchDate allContainers ↔
      x ∈ allContainers ∧
        keepWhen searchDate.StartDate searchDate.EndDate x.FileNameDate = true := by
  by_cases h : searchDate.StartDate = DefaultDate ∧ searchDate.EndDate = DefaultDate
  · simp [FuzzyFindContainers.select, h, keepWhen]
  · simp only [FuzzyFindContainers.select, h, if_false]
    rw [foldl_step_eq_filter searchDate h]
    simp [List.mem_filter]

theorem lt_default_of_nonneg (d : year_month_day) (h : 0 ≤ d.year) :
    d.lt DefaultDate = false := by
  simp only [year_month_day.lt, DefaultDate]
  have h1 : ¬ d.year < 0 := by omega
  simp [h1]

/-- C2 (as stated, refuted): with only the end bound set to 2023-12-31, a record whose
`FileNameDate` is the unset sentinel is kept by the range filter.  The record is the one
obtained for a URL whose date token is not a date, the bound is the one parsed from the
argument `2023-12-31`. -/
theorem C2_unset_kept_with_end_bound :
    GetDateFromUrl "Datasets/Foo/NoDate_999999".toList = some DefaultDate
    ∧ StringToDateCLIArg "2023-12-31".toList = some { year := 2023, month := 12, day := 31 }
    ∧ FuzzyFindContainers.select
        { StartDate := DefaultDate, EndDate := { year := 2023, month := 12, day := 31 } }
        [{ URL := "Datasets/Foo/NoDate_999999".toList, LastModified := DefaultDate,
           FileNameDate := DefaultDate }]
      = [{ URL := "Datasets/Foo/NoDate_999999".toList, LastModified := DefaultDate,
           FileNameDate := DefaultDate }] := by
  decide

/-- C2 (amended): a record whose `FileNameDate` is the unset sentinel is dropped by the
range filter whenever the start bound is set to a date of non-negative year (the end bound
set or not); with only the end bound set it is compared as the date 0000-00-00 and is kept
exactly when that date is before the end bound. -/
theorem C2_unset_record_filtering (searchDate : SearchDateParameters)
    (allContainers : List BlobContainer) (x : BlobContainer)
    (hx : x.FileNameDate = DefaultDate) :
    (searchDate.StartDate ≠ DefaultDate → 0 ≤ searchDate.StartDate.year →
        x ∉ FuzzyFindContainers.select searchDate allContainers)
    ∧ (searchDate.StartDate = DefaultDate → searchDate.EndDate ≠ DefaultDate →
        (x ∈ FuzzyFindContainers.select searchDate allContainers ↔
          x ∈ allContainers ∧ DefaultDate.lt searchDate.EndDate = true)) := by
  constructor
  · intro hs hy hmem
    rw [select_mem_iff] at hmem
    have hlt := lt_default_of_nonneg searchDate.StartDate hy
    have hk := hmem.2
    rw [hx] at hk
    by_cases he : searchDate.EndDate = DefaultDate
    · simp [keepWhen, hs, he, hlt] at hk
    · simp [keepWhen, hs, he, hlt] at hk
  · intro hs he
    rw [select_mem_iff, hx]
    simp [keepWhen, hs, he]

/-- Witness of C2 (amended): one unset record, first with the start bound 2023-01-01, then
with only the end bound 2023-12-31. -/
theorem C2_unset_record_filtering_witness :
    ({ URL := [], LastModified := DefaultDate, FileNameDate := DefaultDate } : BlobContainer)
        ∉ FuzzyFindContainers.select
            { StartDate := { year := 2023, month := 1, day := 1 }, EndDate := DefaultDate }
            [{ URL := [], LastModified := DefaultDate, FileNameDate := DefaultDate }]
    ∧ ({ URL := [], LastModified := DefaultDate, FileNameDate := DefaultDate } : BlobContainer)
        ∈ FuzzyFindContainers.select
            { StartDate := DefaultDate, EndDate := { year := 2023, month := 12, day := 31 } }
            [{ URL := [], LastModified := DefaultDate, FileNameDate := DefaultDate }] :=
  ⟨(C2_unset_record_filtering
      { StartDate := { year := 2023, month := 1, day := 1 }, EndDate := DefaultDate }
      [{ URL := [], LastModified := DefaultDate, FileNameDate := DefaultDate }]
      { URL := [], LastModified := DefaultDate, FileNameDate := DefaultDate } rfl).1
      (by decide) (by decide),
   ((C2_unset_record_filtering
      { StartDate := DefaultDate, EndDate := { year := 2023, month := 12, day := 31 } }
      [{ URL := [], LastModified := DefaultDate, FileNameDate := DefaultDate }]
      { URL := [], LastModified := DefaultDate, FileNameDate := DefaultDate } rfl).2
      rfl (by decide)).2 ⟨by simp, by decide⟩⟩

/-! ## Date parsing: digit strings -/

theorem isDigit_digitChar (k : Nat) : isDigit (digitChar k) = true := by
  have h : k % 10 < 10 := Nat.mod_lt _ (by decide)
  unfold digitChar
  generalize k % 10 = j at h
  interval_cases j <;> decide

theorem digitVal_digitChar (k : Nat) : digitVal (digitChar k) = k % 10 := by
  have h : k % 10 < 10 := Nat.mod_lt _ (by decide)
  unfold digitChar
  generalize k % 10 = j at h
  interval_cases j <;> decide

theorem digitChar_ne_minus (k : Nat) : (digitChar k == '-') = false := by
  have h : k % 10 < 10 := Nat.mod_lt _ (by decide)
  unfold digitChar
  generalize k % 10 = j at h
  interval_cases j <;> decide

theorem from_chars_pad4 (y : Nat) (h : y < 10000) : from_chars (pad4 y) = some (y : Int) := by
  have hv : 10 * (10 * (10 * (y / 1000 % 10) + y / 100 % 10) + y / 10 % 10) + y % 10 = y := by
    omega
  simp [from_chars, pad4, digitChar_ne_minus, List.takeWhile, isDigit_digitChar, decVal,
    digitVal_digitChar, hv]
  omega

theorem from_chars_pad2 (n : Nat) (h : n < 100) : from_chars (pad2 n) = some (n : Int) := by
  have hv : 10 * (n / 10 % 10) + n % 10 = n := by omega
  simp [from_chars, pad2, digitChar_ne_minus, List.takeWhile, isDigit_digitChar, decVal,
    digitVal_digitChar, hv]
  omega

theorem last_day_le (y : Int) (m : Nat) : last_day y m ≤ 31 := by
  unfold last_day
  split_ifs <;> omega

theorem makeDate_ok (y m d : Nat) (hy : y ≤ 9999) (h : realDate y m d) :
    makeDate y m d = { year := y, month := m, day := d } ∧
      (makeDate y m d).ok = true := by
  obtain ⟨h1, h2, h3, h4⟩ := h
  have hd : d ≤ 31 := le_trans h4 (last_day_le _ _)
  have e : makeDate y m d = { year := y, month := m, day := d } := by
    simp only [makeDate, toShort, toUChar, year_month_day.mk.injEq]
    omega
  refine ⟨e, ?_⟩
  rw [e]
  simp only [year_month_day.ok, Bool.and_eq_true, decide_eq_true_eq]
  omega

theorem StringToDateCLIArg_format (y m d : Nat) (c1 c2 : Char) (hy : y ≤ 9999)
    (h : realDate y m d) :
    StringToDateCLIArg (pad4 y ++ c1 :: (pad2 m ++ c2 :: pad2 d)) =
      some { year := y, month := m, day := d } := by
  have hm : m < 100 := by have := h.2.1; omega
  have hd : d < 100 := by have := le_trans h.2.2.2 (last_day_le _ _); omega
  have e1 : slice (pad4 y ++ c1 :: (pad2 m ++ c2 :: pad2 d)) 0 4 = pad4 y := rfl
  have e2 : slice (pad4 y ++ c1 :: (pad2 m ++ c2 :: pad2 d)) 5 7 = pad2 m := rfl
  have e3 : slice (pad4 y ++ c1 :: (pad2 m ++ c2 :: pad2 d)) 8 10 = pad2 d := rfl
  have el : (pad4 y ++ c1 :: (pad2 m ++ c2 :: pad2 d)).length = 10 := rfl
  obtain ⟨hmk, hok⟩ := makeDate_ok y m d hy h
  rw [hmk] at hok
  simp only [StringToDateCLIArg, el, e1, e2, e3, from_chars_pad4 y (by omega),
    from_chars_pad2 m hm, from_chars_pad2 d hd, hok, hmk]
  simp

/-- C8: for every real calendar date `(y, m, d)` with `0 ≤ y ≤ 9999` and every two
separator chars, `ParseDate` applied to the ten chars made of the four digits of `y`, a
separator, the two digits of `m`, a separator and the two digits of `d` returns exactly
`(y, m, d)`. -/
theorem C8_cli_form_round_trip (y m d : Nat) (c1 c2 : Char) (hy : y ≤ 9999)
    (h : realDate y m d) :
    ParseDate (pad4 y ++ c1 :: (pad2 m ++ c2 :: pad2 d)) =
      some { year := y, month := m, day := d } := by
  have hne : (pad4 y ++ c1 :: (pad2 m ++ c2 :: pad2 d)).isEmpty = false := rfl
  simp only [ParseDate, hne, StringToDateCLIArg_format y m d c1 c2 hy h]
  simp

/-- Witness of C8: the date 2024-02-29 written with the separators `-` and `/`. -/
theorem C8_cli_form_round_trip_witness :
    ParseDate "2024-02-29".toList = some { year := 2024, month := 2, day := 29 }
    ∧ ParseDate "2024/02/29".toList = some { year := 2024, month := 2, day := 29 } :=
  ⟨C8_cli_form_round_trip 2024 2 29 '-' '-' (by decide) (by decide),
   C8_cli_form_round_trip 2024 2 29 '/' '/' (by decide) (by decide)⟩


theorem digit_eq_digitChar (c : Char) (h : isDigit c = true) :
    c = digitChar (digitVal c) ∧ digitVal c < 10 := by
  simp only [isDigit, Bool.and_eq_true, decide_eq_true_eq] at h
  have e : 48 + (c.toNat - 48) % 10 = c.toNat := by omega
  refine ⟨?_, ?_⟩
  · simp only [digitChar, digitVal, e, Char.ofNat_toNat]
  · simp only [digitVal]
    omega

theorem digits4_eq_pad4 (a b c d : Char) (ha : isDigit a = true) (hb : isDigit b = true)
    (hc : isDigit c = true) (hd : isDigit d = true) :
    [a, b, c, d] = pad4 (decVal [a, b, c, d]) ∧ decVal [a, b, c, d] ≤ 9999 := by
  obtain ⟨ea, la⟩ := digit_eq_digitChar a ha
  obtain ⟨eb, lb⟩ := digit_eq_digitChar b hb
  obtain ⟨ec, lc⟩ := digit_eq_digitChar c hc
  obtain ⟨ed, ld⟩ := digit_eq_digitChar d hd
  have hv : decVal [a, b, c, d]
      = 10 * (10 * (10 * digitVal a + digitVal b) + digitVal c) + digitVal d := by
    simp [decVal]
  refine ⟨?_, by rw [hv]; omega⟩
  rw [hv]
  simp only [pad4, digitChar]
  have h1 : (10 * (10 * (10 * digitVal a + digitVal b) + digitVal c) + digitVal d) / 1000 % 10
      = digitVal a % 10 := by omega
  have h2 : (10 * (10 * (10 * digitVal a + digitVal b) + digitVal c) + digitVal d) / 100 % 10
      = digitVal b % 10 := by omega
  have h3 : (10 * (10 * (10 * digitVal a + digitVal b) + digitVal c) + digitVal d) / 10 % 10
      = digitVal c % 10 := by omega
  have h4 : (10 * (10 * (10 * digitVal a + digitVal b) + digitVal c) + digitVal d) % 10
      = digitVal d % 10 := by omega
  rw [h1, h2, h3, h4]
  simp only [digitChar] at ea eb ec ed
  rw [← ea, ← eb, ← ec, ← ed]

theorem digits2_eq_pad2 (a b : Char) (ha : isDigit a = true) (hb : isDigit b = true) :
    [a, b] = pad2 (decVal [a, b]) ∧ decVal [a, b] ≤ 99 := by
  obtain ⟨ea, la⟩ := digit_eq_digitChar a ha
  obtain ⟨eb, lb⟩ := digit_eq_digitChar b hb
  have hv : decVal [a, b] = 10 * digitVal a + digitVal b := by
    simp [decVal]
  refine ⟨?_, by rw [hv]; omega⟩
  rw [hv]
  simp only [pad2, digitChar]
  have h1 : (10 * digitVal a + digitVal b) / 10 % 10 = digitVal a % 10 := by omega
  have h2 : (10 * digitVal a + digitVal b) % 10 = digitVal b % 10 := by omega
  rw [h1, h2]
  simp only [digitChar] at ea eb
  rw [← ea, ← eb]

theorem StringToDateEAFileName_eight (y m d : Nat) (hy : y ≤ 9999) (h : realDate y m d) :
    StringToDateEAFileName (pad4 y ++ (pad2 m ++ pad2 d)) =
      some { year := y, month := m, day := d } := by
  have hm : m < 100 := by have := h.2.1; omega
  have hd : d < 100 := by have := le_trans h.2.2.2 (last_day_le _ _); omega
  have e1 : slice (pad4 y ++ (pad2 m ++ pad2 d)) 0 4 = pad4 y := rfl
  have e2 : slice (pad4 y ++ (pad2 m ++ pad2 d)) 4 6 = pad2 m := rfl
  have e3 : slice (pad4 y ++ (pad2 m ++ pad2 d)) 6 8 = pad2 d := rfl
  have el : (pad4 y ++ (pad2 m ++ pad2 d)).length = 8 := rfl
  obtain ⟨hmk, hok⟩ := makeDate_ok y m d hy h
  rw [hmk] at hok
  simp only [StringToDateEAFileName, el, e1, e2, e3, from_chars_pad4 y (by omega),
    from_chars_pad2 m hm, from_chars_pad2 d hd, hok, hmk]
  simp

theorem MonthDays_real (y m : Nat) (h1 : 1 ≤ m) (h2 : m ≤ 12) :
    realDate y m (MonthDays.getD (m - 1) 0) := by
  unfold realDate last_day
  interval_cases m <;> simp [MonthDays]
  split_ifs <;> omega

theorem StringToDateEAFileName_six (y m : Nat) (hy : y ≤ 9999) (h1 : 1 ≤ m) (h2 : m ≤ 12) :
    StringToDateEAFileName (pad4 y ++ pad2 m) =
      some { year := y, month := m, day := MonthDays.getD (m - 1) 0 } := by
  have e1 : slice (pad4 y ++ pad2 m) 0 4 = pad4 y := rfl
  have e2 : slice (pad4 y ++ pad2 m) 4 6 = pad2 m := rfl
  have el : (pad4 y ++ pad2 m).length = 6 := rfl
  obtain ⟨hmk, hok⟩ := makeDate_ok y m _ hy (MonthDays_real y m h1 h2)
  rw [hmk] at hok
  have hidx : ((m : Int) - 1).toNat = m - 1 := by omega
  have hcond : (1 : Int) ≤ (m : Int) ∧ (m : Int) ≤ 12 := by omega
  simp only [StringToDateEAFileName, el, e1, e2, from_chars_pad4 y (by omega),
    from_chars_pad2 m (by omega), hidx, hcond, and_self, if_true, hmk, hok]
  simp

theorem StringToDateCLIArg_length (s : Str) (h : s.length ≠ 10) :
    StringToDateCLIArg s = none := by
  simp [StringToDateCLIArg, h]

/-- C9: for every string of eight digits `YYYYMMDD` that names a real calendar date,
`ParseDate` returns `(YYYY, MM, DD)`; for every string of six digits `YYYYMM` with
`1 ≤ MM ≤ 12`, `ParseDate` returns `(YYYY, MM, L)` where `L` is the entry of `MM` in the
table `MonthDays`, whose entry for February is 28 whatever the year. -/
theorem C9_filename_form (s : Str) (hdig : ∀ c ∈ s, isDigit c = true) :
    (s.length = 8 →
      realDate (decVal (slice s 0 4)) (decVal (slice s 4 6)) (decVal (slice s 6 8)) →
      ParseDate s = some { year := decVal (slice s 0 4), month := decVal (slice s 4 6),
                           day := decVal (slice s 6 8) })
    ∧ (s.length = 6 → 1 ≤ decVal (slice s 4 6) → decVal (slice s 4 6) ≤ 12 →
      ParseDate s = some { year := decVal (slice s 0 4), month := decVal (slice s 4 6),
                           day := MonthDays.getD (decVal (slice s 4 6) - 1) 0 })
    ∧ MonthDays = [31, 28, 31, 30, 31, 30, 31, 31, 30, 31, 30, 31] := by
  refine ⟨?_, ?_, rfl⟩
  · intro hlen hreal
    match s, hlen, hdig with
    | [a, b, c, d, e, f, g, h], _, hdig =>
      obtain ⟨e4, l4⟩ := digits4_eq_pad4 a b c d (hdig a (by simp)) (hdig b (by simp))
        (hdig c (by simp)) (hdig d (by simp))
      obtain ⟨e2, _⟩ := digits2_eq_pad2 e f (hdig e (by simp)) (hdig f (by simp))
      obtain ⟨e2', _⟩ := digits2_eq_pad2 g h (hdig g (by simp)) (hdig h (by simp))
      have hs : [a, b, c, d, e, f, g, h]
          = pad4 (decVal [a, b, c, d]) ++ (pad2 (decVal [e, f]) ++ pad2 (decVal [g, h])) := by
        rw [← e4, ← e2, ← e2']
        rfl
      have s1 : slice [a, b, c, d, e, f, g, h] 0 4 = [a, b, c, d] := rfl
      have s2 : slice [a, b, c, d, e, f, g, h] 4 6 = [e, f] := rfl
      have s3 : slice [a, b, c, d, e, f, g, h] 6 8 = [g, h] := rfl
      simp only [s1, s2, s3] at hreal ⊢
      have hcli : StringToDateCLIArg [a, b, c, d, e, f, g, h] = none :=
        StringToDateCLIArg_length _ (by simp)
      have hfile := StringToDateEAFileName_eight _ _ _ l4 hreal
      rw [← hs] at hfile
      simp only [ParseDate, hcli, hfile]
      simp
  · intro hlen h1 h2
    match s, hlen, hdig with
    | [a, b, c, d, e, f], _, hdig =>
      obtain ⟨e4, l4⟩ := digits4_eq_pad4 a b c d (hdig a (by simp)) (hdig b (by simp))
        (hdig c (by simp)) (hdig d (by simp))
      obtain ⟨e2, _⟩ := digits2_eq_pad2 e f (hdig e (by simp)) (hdig f (by simp))
      have hs : [a, b, c, d, e, f] = pad4 (decVal [a, b, c, d]) ++ pad2 (decVal [e, f]) := by
        rw [← e4, ← e2]
        rfl
      have s1 : slice [a, b, c, d, e, f] 0 4 = [a, b, c, d] := rfl
      have s2 : slice [a, b, c, d, e, f] 4 6 = [e, f] := rfl
      simp only [s1, s2] at h1 h2 ⊢
      have hcli : StringToDateCLIArg [a, b, c, d, e, f] = none :=
        StringToDateCLIArg_length _ (by simp)
      have hfile := StringToDateEAFileName_six _ _ l4 h1 h2
      rw [← hs] at hfile
      simp only [ParseDate, hcli, hfile]
      simp

/-- Witness of C9: the strings `20230112`, `202302` and `202402`. -/
theorem C9_filename_form_witness :
    ParseDate "20230112".toList = some { year := 2023, month := 1, day := 12 }
    ∧ ParseDate "202302".toList = some { year := 2023, month := 2, day := 28 }
    ∧ ParseDate "202402".toList = some { year := 2024, month := 2, day := 28 } :=
  ⟨(C9_filename_form "20230112".toList (by decide)).1 (by decide) (by decide),
   (C9_filename_form "202302".toList (by decide)).2.1 (by decide) (by decide) (by decide),
   (C9_filename_form "202402".toList (by decide)).2.1 (by decide) (by decide) (by decide)⟩


/-! ## Paginated discovery -/

theorem step_shift (st : List BlobContainer × Str) (m : smatch) :
    ParseEAXML.step st m =
      (ParseEAXML.step ([], st.2) m).map (fun r => (st.1 ++ r.1, r.2)) := by
  simp only [ParseEAXML.step]
  split_ifs
  · cases GetDateFromUrl (_ExtractValueFromXMLTag "Url".toList m.str1) <;> simp
  · simp
  · simp

theorem loop_shift (ms : List smatch) :
    ∀ st : List BlobContainer × Str,
      ParseEAXML.loop ms st =
        (ParseEAXML.loop ms ([], st.2)).map (fun r => (st.1 ++ r.1, r.2)) := by
  induction ms with
  | nil => intro st; simp [ParseEAXML.loop]
  | cons m ms ih =>
    intro st
    simp only [ParseEAXML.loop]
    rw [step_shift st m]
    cases h : ParseEAXML.step ([], st.2) m with
    | none => rfl
    | some r =>
      simp only [Option.map_some']
      rw [ih (st.1 ++ r.1, r.2), ih r]
      cases ParseEAXML.loop ms ([], r.2) <;> simp

theorem ParseEAXML_shift (out : List BlobContainer) (page : Str) :
    ParseEAXML out page [] = (pageParse page).map (fun r => (out ++ r.1, r.2)) := by
  unfold pageParse ParseEAXML
  exact loop_shift _ (out, [])

theorem pageParse_of_defined (page : Str) (h : pageDefined page) :
    pageParse page = some (pageRecords page, pageMarker page) := by
  unfold pageDefined at h
  unfold pageRecords pageMarker
  cases hp : pageParse page with
  | none => rw [hp] at h; cases h
  | some r => rfl

theorem ParseEAXML_of_defined (out : List BlobContainer) (page : Str) (h : pageDefined page) :
    ParseEAXML out page [] = some (out ++ pageRecords page, pageMarker page) := by
  rw [ParseEAXML_shift, pageParse_of_defined page h]
  rfl

theorem ParseEAXML_of_undefined (out : List BlobContainer) (page : Str)
    (h : pageParse page = none) : ParseEAXML out page [] = none := by
  rw [ParseEAXML_shift, h]
  rfl

theorem loop_undefined (queryPath cur : Str) (transport : List Response)
    (out : List BlobContainer) (reqs : List Str) (h : ParseEAXML out cur [] = none) :
    RunGetContainers.loop queryPath transport cur out reqs = none := by
  cases transport with
  | nil =>
    delta RunGetContainers.loop
    simp only [h]
  | cons r later =>
    delta RunGetContainers.loop
    simp only [h]

theorem loop_done (queryPath cur : Str) (transport : List Response)
    (out : List BlobContainer) (reqs : List Str) (parsed : List BlobContainer × Str)
    (hp : ParseEAXML out cur [] = some parsed) (h : parsed.2.isEmpty = true) :
    RunGetContainers.loop queryPath transport cur out reqs =
      some { outputArray := parsed.1, requests := reqs, unread := transport } := by
  cases transport with
  | nil =>
    delta RunGetContainers.loop
    simp only [hp, h, if_true]
  | cons r later =>
    delta RunGetContainers.loop
    simp only [hp, h, if_true]

theorem loop_failed (queryPath cur : Str) (later : List Response)
    (out : List BlobContainer) (reqs : List Str) (parsed : List BlobContainer × Str)
    (hp : ParseEAXML out cur [] = some parsed) (h : parsed.2.isEmpty = false) :
    RunGetContainers.loop queryPath (Response.failed :: later) cur out reqs =
      some { outputArray := parsed.1,
             requests := reqs ++ [AllContainersURL ++ queryPath ++ "&marker=".toList
               ++ parsed.2],
             unread := later } := by
  delta RunGetContainers.loop
  simp only [hp, h, Bool.false_eq_true, if_false]

theorem loop_ok (queryPath cur body : Str) (later : List Response)
    (out : List BlobContainer) (reqs : List Str) (parsed : List BlobContainer × Str)
    (hp : ParseEAXML out cur [] = some parsed) (h : parsed.2.isEmpty = false) :
    RunGetContainers.loop queryPath (Response.ok body :: later) cur out reqs =
      RunGetContainers.loop queryPath later body parsed.1
        (reqs ++ [AllContainersURL ++ queryPath ++ "&marker=".toList ++ parsed.2]) := by
  delta RunGetContainers.loop
  simp only [hp, h, Bool.false_eq_true, if_false]

theorem isEmpty_false_of_ne {α : Type} (l : List α) (h : l ≠ []) : l.isEmpty = false := by
  cases l with
  | nil => exact absurd rfl h
  | cons _ _ => rfl

theorem loop_last (queryPath last : Str) (rest : List Response)
    (out : List BlobContainer) (reqs : List Str) (hdef : pageDefined last)
    (hlast : pageMarker last = []) :
    RunGetContainers.loop queryPath rest last out reqs =
      some { outputArray := out ++ pageRecords last, requests := reqs, unread := rest } := by
  rw [loop_done queryPath last rest out reqs _ (ParseEAXML_of_defined out last hdef)
    (by rw [hlast]; rfl)]

theorem loop_pages (queryPath last : Str) (rest : List Response)
    (hdef : pageDefined last) (hlast : pageMarker last = []) (ps : List Str) :
    ∀ (p : Str) (out : List BlobContainer) (reqs : List Str),
      pageDefined p → pageMarker p ≠ [] →
      (∀ p' ∈ ps, pageDefined p' ∧ pageMarker p' ≠ []) →
      RunGetContainers.loop queryPath ((ps ++ [last]).map Response.ok ++ rest) p out reqs =
        some { outputArray := out ++ ((p :: ps) ++ [last]).flatMap pageRecords,
               requests := reqs ++ (p :: ps).map (continuationUrl queryPath),
               unread := rest } := by
  induction ps with
  | nil =>
    intro p out reqs hd hp _
    simp only [List.nil_append, List.map_cons, List.map_nil, List.cons_append]
    rw [loop_ok queryPath p last rest out reqs _ (ParseEAXML_of_defined out p hd)
      (isEmpty_false_of_ne _ hp), loop_last queryPath last rest _ _ hdef hlast]
    simp [continuationUrl, List.flatMap]
  | cons q ps ih =>
    intro p out reqs hd hp hps
    simp only [List.cons_append, List.map_cons]
    rw [loop_ok queryPath p q _ out reqs _ (ParseEAXML_of_defined out p hd)
      (isEmpty_false_of_ne _ hp),
      ih q _ _ (hps q (by simp)).1 (hps q (by simp)).2 (fun p' hp' => hps p' (by simp [hp']))]
    simp [continuationUrl, List.flatMap]

theorem loop_then_failure (queryPath : Str) (rest : List Response) (ps : List Str) :
    ∀ (p : Str) (out : List BlobContainer) (reqs : List Str),
      pageDefined p → pageMarker p ≠ [] →
      (∀ p' ∈ ps, pageDefined p' ∧ pageMarker p' ≠ []) →
      RunGetContainers.loop queryPath (ps.map Response.ok ++ Response.failed :: rest)
          p out reqs =
        some { outputArray := out ++ (p :: ps).flatMap pageRecords,
               requests := reqs ++ (p :: ps).map (continuationUrl queryPath),
               unread := rest } := by
  induction ps with
  | nil =>
    intro p out reqs hd hp _
    simp only [List.nil_append, List.map_nil]
    rw [loop_failed queryPath p rest out reqs _ (ParseEAXML_of_defined out p hd)
      (isEmpty_false_of_ne _ hp)]
    simp [continuationUrl, List.flatMap]
  | cons q ps ih =>
    intro p out reqs hd hp hps
    simp only [List.cons_append, List.map_cons]
    rw [loop_ok queryPath p q _ out reqs _ (ParseEAXML_of_defined out p hd)
      (isEmpty_false_of_ne _ hp),
      ih q _ _ (hps q (by simp)).1 (hps q (by simp)).2 (fun p' hp' => hps p' (by simp [hp']))]
    simp [continuationUrl, List.flatMap]

/-- Discovery on pages whose parse has a result: if the pages `p1 .. pn` are fetched
successfully, each page before the last leaves a non-empty continuation token and the last
one an empty one, then `RunGetContainers` returns `records(p1) ++ ... ++ records(pn)` after
exactly `n` requests, leaving the rest of the transport unread. -/
theorem discovery_concatenates_pages (queryPath : Str)
    (pages : List Str) (last : Str) (rest : List Response)
    (hmore : ∀ p ∈ pages, pageDefined p ∧ pageMarker p ≠ [])
    (hdef : pageDefined last) (hlast : pageMarker last = []) :
    RunGetContainers ((pages ++ [last]).map Response.ok ++ rest) [] queryPath =
        some { outputArray := (pages ++ [last]).flatMap pageRecords,
               requests := (AllContainersURL ++ queryPath) ::
                 pages.map (continuationUrl queryPath),
               unread := rest }
      ∧ ((AllContainersURL ++ queryPath) ::
          pages.map (continuationUrl queryPath)).length = (pages ++ [last]).length := by
  refine ⟨?_, by simp⟩
  cases pages with
  | nil =>
    simp only [List.nil_append, List.map_cons, List.map_nil, List.cons_append, RunGetContainers]
    rw [loop_last queryPath last rest _ _ hdef hlast]
    simp [List.flatMap]
  | cons p ps =>
    simp only [List.cons_append, List.map_cons, RunGetContainers]
    rw [loop_pages queryPath last rest hdef hlast ps p _ _ (hmore p (by simp)).1
      (hmore p (by simp)).2 (fun p' hp' => hmore p' (by simp [hp']))]
    simp

/-- Discovery on pages whose parse has a result: if the `k`-th listing request fails after
`k - 1` successful pages that each left a non-empty continuation token, then
`RunGetContainers` returns exactly the records of those `k - 1` pages after exactly `k`
requests and reads nothing of the transport after the failure. -/
theorem discovery_stops_on_failure (queryPath : Str)
    (pages : List Str) (rest : List Response)
    (hmore : ∀ p ∈ pages, pageDefined p ∧ pageMarker p ≠ []) :
    RunGetContainers (pages.map Response.ok ++ Response.failed :: rest) [] queryPath =
        some { outputArray := pages.flatMap pageRecords,
               requests := (AllContainersURL ++ queryPath) ::
                 pages.map (continuationUrl queryPath),
               unread := rest }
      ∧ ((AllContainersURL ++ queryPath) ::
          pages.map (continuationUrl queryPath)).length = pages.length + 1 := by
  refine ⟨?_, by simp⟩
  cases pages with
  | nil => simp [RunGetContainers]
  | cons p ps =>
    simp only [List.cons_append, List.map_cons, RunGetContainers]
    rw [loop_then_failure queryPath rest ps p _ _ (hmore p (by simp)).1
      (hmore p (by simp)).2 (fun p' hp' => hmore p' (by simp [hp']))]
    simp

theorem discovery_two_pages :
    RunGetContainers
        [Response.ok "<Blob><Url>a_20230112</Url></Blob><NextMarker>m1</NextMarker>".toList,
         Response.ok "<Blob><Url>b_202302</Url></Blob><NextMarker />".toList,
         Response.failed] [] "Datasets".toList
      = some { outputArray :=
                 [{ URL := "a_20230112".toList, LastModified := DefaultDate,
                    FileNameDate := { year := 2023, month := 1, day := 12 } },
                  { URL := "b_202302".toList, LastModified := DefaultDate,
                    FileNameDate := { year := 2023, month := 2, day := 28 } }],
               requests := [AllContainersURL ++ "Datasets".toList,
                 AllContainersURL ++ "Datasets".toList ++ "&marker=m1".toList],
               unread := [Response.failed] } :=
  (discovery_concatenates_pages "Datasets".toList
      ["<Blob><Url>a_20230112</Url></Blob><NextMarker>m1</NextMarker>".toList]
      "<Blob><Url>b_202302</Url></Blob><NextMarker />".toList [Response.failed]
      (by decide) (by decide) (by decide)).1

theorem discovery_failure_after_one_page :
    RunGetContainers
        [Response.ok "<Blob><Url>a_20230112</Url></Blob><NextMarker>m1</NextMarker>".toList,
         Response.failed,
         Response.ok "<Blob><Url>b_202302</Url></Blob>".toList] [] "Datasets".toList
      = some { outputArray :=
                 [{ URL := "a_20230112".toList, LastModified := DefaultDate,
                    FileNameDate := { year := 2023, month := 1, day := 12 } }],
               requests := [AllContainersURL ++ "Datasets".toList,
                 AllContainersURL ++ "Datasets".toList ++ "&marker=m1".toList],
               unread := [Response.ok "<Blob><Url>b_202302</Url></Blob>".toList] } :=
  (discovery_stops_on_failure "Datasets".toList
      ["<Blob><Url>a_20230112</Url></Blob><NextMarker>m1</NextMarker>".toList]
      [Response.ok "<Blob><Url>b_202302</Url></Blob>".toList] (by decide)).1

/-- C6 (code at the failing input): the listing page holds one Blob block whose URL
`Datasets/readme.pdf` has no date token.  `GetDateFromUrl` ends without a return value for
that URL, `ParseEAXML` has no result for the page, and `RunGetContainers` has none either,
whatever the transport holds after the page: alone as the only page (`n = 1`), and as the
second page after a page that leaves the token `m1` (`n = 2`). -/
theorem C6_page_with_undated_url_gives_no_output :
    GetDateFromUrl "Datasets/readme.pdf".toList = none
    ∧ ParseEAXML [] "<Blob><Url>Datasets/readme.pdf</Url></Blob>".toList [] = none
    ∧ (∀ rest : List Response,
        RunGetContainers
          (Response.ok "<Blob><Url>Datasets/readme.pdf</Url></Blob>".toList :: rest)
          [] "Datasets".toList = none)
    ∧ (∀ rest : List Response,
        RunGetContainers
          (Response.ok "<Blob><Url>a_20230112</Url></Blob><NextMarker>m1</NextMarker>".toList ::
           Response.ok "<Blob><Url>Datasets/readme.pdf</Url></Blob>".toList :: rest)
          [] "Datasets".toList = none) := by
  have h1 : ParseEAXML [] "<Blob><Url>Datasets/readme.pdf</Url></Blob>".toList [] = none := by
    decide
  refine ⟨by decide, h1, fun rest => ?_, fun rest => ?_⟩
  · exact loop_undefined _ _ rest [] _ h1
  · have hp : ParseEAXML []
        "<Blob><Url>a_20230112</Url></Blob><NextMarker>m1</NextMarker>".toList [] =
        some ([{ URL := "a_20230112".toList, LastModified := DefaultDate,
                 FileNameDate := { year := 2023, month := 1, day := 12 } }], "m1".toList) := by
      decide
    show RunGetContainers.loop _ _ _ _ _ = none
    rw [loop_ok _ _ _ rest [] _ _ hp (by decide)]
    exact loop_undefined _ _ rest _ _ (ParseEAXML_of_undefined _ _ h1)

/-- C7 (code at the failing input): the first page holds a Blob block whose URL
`Datasets/readme.pdf` has no date token and the token `m1`; the second request fails.
`ParseEAXML` has no result for the page, so `RunGetContainers` has none: it does not
return the records of the first page. -/
theorem C7_failure_after_page_with_undated_url :
    ParseEAXML []
        "<Blob><Url>Datasets/readme.pdf</Url></Blob><NextMarker>m1</NextMarker>".toList []
      = none
    ∧ (∀ rest : List Response,
        RunGetContainers
          (Response.ok
              "<Blob><Url>Datasets/readme.pdf</Url></Blob><NextMarker>m1</NextMarker>".toList ::
            Response.failed :: rest)
          [] "Datasets".toList = none) := by
  have h1 : ParseEAXML []
      "<Blob><Url>Datasets/readme.pdf</Url></Blob><NextMarker>m1</NextMarker>".toList []
      = none := by
    decide
  exact ⟨h1, fun rest => loop_undefined _ _ _ [] _ h1⟩

/-! ## Date parsing: the long textual form -/

theorem isAlpha_of_isDigit (c : Char) (h : isDigit c = true) : isAlpha c = false := by
  simp only [isDigit, Bool.and_eq_true, decide_eq_true_eq] at h
  simp only [isAlpha, Bool.or_eq_false_iff, Bool.and_eq_false_iff, decide_eq_false_iff_not]
  omega

theorem isDigit_of_isAlpha (c : Char) (h : isAlpha c = true) : isDigit c = false := by
  simp only [isAlpha, Bool.or_eq_true, Bool.and_eq_true, decide_eq_true_eq] at h
  simp only [isDigit, Bool.and_eq_false_iff, decide_eq_false_iff_not]
  omega

theorem isWordChar_of_isDigit (c : Char) (h : isDigit c = true) : isWordChar c = true := by
  simp [isWordChar, h]

theorem isWordChar_of_isAlpha (c : Char) (h : isAlpha c = true) : isWordChar c = true := by
  simp [isWordChar, h]

theorem monthNames_head_alpha :
    ∀ nm ∈ monthNames, (nm.head?.map isAlpha) = some true := by decide

theorem monthPattern_nil (prev : Option Char) : monthPattern prev [] = none := by
  unfold monthPattern
  split_ifs
  · rw [List.find?_eq_none]
    intro nm hnm
    have := monthNames_head_alpha nm hnm
    cases nm with
    | nil => simp at this
    | cons a r => simp [List.isPrefixOf]
  · rfl

theorem monthPattern_not_alpha (prev : Option Char) (c : Char) (t : Str)
    (h : isAlpha c = false) : monthPattern prev (c :: t) = none := by
  unfold monthPattern
  split_ifs
  · rw [List.find?_eq_none]
    intro nm hnm
    have hh := monthNames_head_alpha nm hnm
    cases nm with
    | nil => simp at hh
    | cons a r =>
      simp only [List.head?_cons, Option.map_some', Option.some.injEq] at hh
      have hne : (a == c) = false := by
        rw [beq_eq_false_iff_ne]
        rintro rfl
        rw [h] at hh
        exact Bool.noConfusion hh
      simp [List.isPrefixOf, hne]
  · rfl

theorem monthPattern_no_boundary (prev : Option Char) (s : Str)
    (h : atWordBoundary prev s = false) : monthPattern prev s = none := by
  simp [monthPattern, h]

theorem find?_beq_eq (l : List Str) (W : Str) (p : Str → Bool)
    (hp : ∀ nm ∈ l, p nm = (nm == W)) :
    l.find? p = if W ∈ l then some W else none := by
  induction l with
  | nil => simp
  | cons a l ih =>
    have ha := hp a (by simp)
    have ih' := ih (fun nm hnm => hp nm (by simp [hnm]))
    by_cases hW : a = W
    · subst hW
      simp [List.find?_cons, ha]
    · have hb : (a == W) = false := by simpa using hW
      have hW' : ¬ W = a := fun e => hW e.symm
      simp [List.find?_cons, ha, hb, ih', hW']

theorem monthNames_shape :
    ∀ nm ∈ monthNames, nm.length = 3 ∧ (nm.getLast?.map isWordChar) = some true := by decide

theorem monthPattern_word (w1 w2 w3 : Char) (t : Str) (h1 : isAlpha w1 = true) :
    monthPattern (some ' ') (w1 :: w2 :: w3 :: ' ' :: t) =
      if [w1, w2, w3] ∈ monthNames then some [w1, w2, w3] else none := by
  have hb : atWordBoundary (some ' ') (w1 :: w2 :: w3 :: ' ' :: t) = true := by
    simp [atWordBoundary, isWordChar_of_isAlpha w1 h1]
    decide
  simp only [monthPattern, hb, if_true]
  apply find?_beq_eq
  intro nm hnm
  obtain ⟨hl, hlast⟩ := monthNames_shape nm hnm
  match nm, hl with
  | [a, b, c], _ =>
    simp only [List.getLast?_cons_cons, List.getLast?_singleton, Option.map_some',
      Option.some.injEq] at hlast
    have hsp : isWordChar ' ' = false := by decide
    simp [List.isPrefixOf, atWordBoundary, hlast, hsp]

theorem space_not_digit : isDigit ' ' = false := by decide

theorem space_not_word : isWordChar ' ' = false := by decide

theorem search_day_one (d1 : Char) (t : Str) (h1 : isDigit d1 = true) :
    regex_search dayPattern none (d1 :: ' ' :: t) = some [d1] := by
  simp [regex_search, dayPattern, digitsThenBoundary, atWordBoundary, h1,
    isWordChar_of_isDigit d1 h1, space_not_digit, space_not_word]

theorem search_day_two (d1 d2 : Char) (t : Str) (h1 : isDigit d1 = true)
    (h2 : isDigit d2 = true) :
    regex_search dayPattern none (d1 :: d2 :: ' ' :: t) = some [d1, d2] := by
  simp [regex_search, dayPattern, digitsThenBoundary, atWordBoundary, h1, h2,
    isWordChar_of_isDigit d1 h1, isWordChar_of_isDigit d2 h2, space_not_digit, space_not_word]

theorem search_year_tail (w1 w2 w3 a b c d : Char)
    (hw1 : isAlpha w1 = true) (hw2 : isAlpha w2 = true) (hw3 : isAlpha w3 = true)
    (ha : isDigit a = true) (hb : isDigit b = true) (hc : isDigit c = true)
    (hd : isDigit d = true) :
    regex_search yearPattern (some ' ') [w1, w2, w3, ' ', a, b, c, d] = some [a, b, c, d] := by
  simp [regex_search, yearPattern, digitsThenBoundary, atWordBoundary, ha, hb, hc, hd,
    isWordChar_of_isDigit a ha, isWordChar_of_isDigit d hd,
    isWordChar_of_isAlpha w1 hw1, isWordChar_of_isAlpha w2 hw2, isWordChar_of_isAlpha w3 hw3,
    isDigit_of_isAlpha w1 hw1, space_not_digit, space_not_word]

theorem search_year_one (d1 w1 w2 w3 a b c d : Char) (h1 : isDigit d1 = true)
    (hw1 : isAlpha w1 = true) (hw2 : isAlpha w2 = true) (hw3 : isAlpha w3 = true)
    (ha : isDigit a = true) (hb : isDigit b = true) (hc : isDigit c = true)
    (hd : isDigit d = true) :
    regex_search yearPattern none [d1, ' ', w1, w2, w3, ' ', a, b, c, d] = some [a, b, c, d] := by
  have e : regex_search yearPattern none [d1, ' ', w1, w2, w3, ' ', a, b, c, d] =
      regex_search yearPattern (some ' ') [w1, w2, w3, ' ', a, b, c, d] := by
    simp [regex_search, yearPattern, digitsThenBoundary, atWordBoundary, h1,
      isWordChar_of_isDigit d1 h1, space_not_digit, space_not_word]
  rw [e, search_year_tail w1 w2 w3 a b c d hw1 hw2 hw3 ha hb hc hd]

theorem search_year_two (d1 d2 w1 w2 w3 a b c d : Char) (h1 : isDigit d1 = true)
    (h2 : isDigit d2 = true)
    (hw1 : isAlpha w1 = true) (hw2 : isAlpha w2 = true) (hw3 : isAlpha w3 = true)
    (ha : isDigit a = true) (hb : isDigit b = true) (hc : isDigit c = true)
    (hd : isDigit d = true) :
    regex_search yearPattern none [d1, d2, ' ', w1, w2, w3, ' ', a, b, c, d]
      = some [a, b, c, d] := by
  have e : regex_search yearPattern none [d1, d2, ' ', w1, w2, w3, ' ', a, b, c, d] =
      regex_search yearPattern (some ' ') [w1, w2, w3, ' ', a, b, c, d] := by
    simp [regex_search, yearPattern, digitsThenBoundary, atWordBoundary, h1, h2,
      isWordChar_of_isDigit d1 h1, isWordChar_of_isDigit d2 h2, space_not_digit,
      space_not_word]
  rw [e, search_year_tail w1 w2 w3 a b c d hw1 hw2 hw3 ha hb hc hd]

theorem search_month_tail (w1 w2 w3 a b c d : Char)
    (hw1 : isAlpha w1 = true) (hw2 : isAlpha w2 = true) (hw3 : isAlpha w3 = true)
    (ha : isDigit a = true) (hb : isDigit b = true) (hc : isDigit c = true)
    (hd : isDigit d = true) :
    regex_search monthPattern (some ' ') [w1, w2, w3, ' ', a, b, c, d] =
      if [w1, w2, w3] ∈ monthNames then some [w1, w2, w3] else none := by
  have hsp : isAlpha ' ' = false := by decide
  have n1 : monthPattern (some w1) [w2, w3, ' ', a, b, c, d] = none :=
    monthPattern_no_boundary _ _ (by
      simp [atWordBoundary, isWordChar_of_isAlpha w1 hw1, isWordChar_of_isAlpha w2 hw2])
  have n2 : monthPattern (some w2) [w3, ' ', a, b, c, d] = none :=
    monthPattern_no_boundary _ _ (by
      simp [atWordBoundary, isWordChar_of_isAlpha w2 hw2, isWordChar_of_isAlpha w3 hw3])
  have n3 : monthPattern (some w3) [' ', a, b, c, d] = none :=
    monthPattern_not_alpha _ _ _ hsp
  have n4 : monthPattern (some ' ') [a, b, c, d] = none :=
    monthPattern_not_alpha _ _ _ (isAlpha_of_isDigit a ha)
  have n5 : monthPattern (some a) [b, c, d] = none :=
    monthPattern_not_alpha _ _ _ (isAlpha_of_isDigit b hb)
  have n6 : monthPattern (some b) [c, d] = none :=
    monthPattern_not_alpha _ _ _ (isAlpha_of_isDigit c hc)
  have n7 : monthPattern (some c) [d] = none :=
    monthPattern_not_alpha _ _ _ (isAlpha_of_isDigit d hd)
  simp only [regex_search, monthPattern_word w1 w2 w3 _ hw1, n1, n2, n3, n4, n5, n6, n7,
    monthPattern_nil]
  split_ifs <;> rfl

theorem search_month_one (d1 w1 w2 w3 a b c d : Char) (h1 : isDigit d1 = true)
    (hw1 : isAlpha w1 = true) (hw2 : isAlpha w2 = true) (hw3 : isAlpha w3 = true)
    (ha : isDigit a = true) (hb : isDigit b = true) (hc : isDigit c = true)
    (hd : isDigit d = true) :
    regex_search monthPattern none [d1, ' ', w1, w2, w3, ' ', a, b, c, d] =
      if [w1, w2, w3] ∈ monthNames then some [w1, w2, w3] else none := by
  have hsp : isAlpha ' ' = false := by decide
  have n1 : monthPattern none [d1, ' ', w1, w2, w3, ' ', a, b, c, d] = none :=
    monthPattern_not_alpha _ _ _ (isAlpha_of_isDigit d1 h1)
  have n2 : monthPattern (some d1) [' ', w1, w2, w3, ' ', a, b, c, d] = none :=
    monthPattern_not_alpha _ _ _ hsp
  rw [← search_month_tail w1 w2 w3 a b c d hw1 hw2 hw3 ha hb hc hd]
  simp only [regex_search, n1, n2]

theorem search_month_two (d1 d2 w1 w2 w3 a b c d : Char) (h1 : isDigit d1 = true)
    (h2 : isDigit d2 = true)
    (hw1 : isAlpha w1 = true) (hw2 : isAlpha w2 = true) (hw3 : isAlpha w3 = true)
    (ha : isDigit a = true) (hb : isDigit b = true) (hc : isDigit c = true)
    (hd : isDigit d = true) :
    regex_search monthPattern none [d1, d2, ' ', w1, w2, w3, ' ', a, b, c, d] =
      if [w1, w2, w3] ∈ monthNames then some [w1, w2, w3] else none := by
  have hsp : isAlpha ' ' = false := by decide
  have n1 : monthPattern none [d1, d2, ' ', w1, w2, w3, ' ', a, b, c, d] = none :=
    monthPattern_not_alpha _ _ _ (isAlpha_of_isDigit d1 h1)
  have n2 : monthPattern (some d1) [d2, ' ', w1, w2, w3, ' ', a, b, c, d] = none :=
    monthPattern_not_alpha _ _ _ (isAlpha_of_isDigit d2 h2)
  have n3 : monthPattern (some d2) [' ', w1, w2, w3, ' ', a, b, c, d] = none :=
    monthPattern_not_alpha _ _ _ hsp
  rw [← search_month_tail w1 w2 w3 a b c d hw1 hw2 hw3 ha hb hc hd]
  simp only [regex_search, n1, n2, n3]

theorem digit_ne_minus (c : Char) (h : isDigit c = true) : c ≠ '-' := by
  rintro rfl
  exact absurd h (by decide)

theorem from_chars_one (d1 : Char) (h1 : isDigit d1 = true) :
    from_chars [d1] = some (decVal [d1] : Int) ∧ decVal [d1] ≤ 99 := by
  have hv : decVal [d1] = digitVal d1 := by simp [decVal]
  have hlt := (digit_eq_digitChar d1 h1).2
  refine ⟨?_, by omega⟩
  simp [from_chars, digit_ne_minus d1 h1, List.takeWhile, h1]
  omega

theorem from_chars_two (d1 d2 : Char) (h1 : isDigit d1 = true) (h2 : isDigit d2 = true) :
    from_chars [d1, d2] = some (decVal [d1, d2] : Int) ∧ decVal [d1, d2] ≤ 99 := by
  have hv : decVal [d1, d2] = 10 * digitVal d1 + digitVal d2 := by simp [decVal]
  have hlt1 := (digit_eq_digitChar d1 h1).2
  have hlt2 := (digit_eq_digitChar d2 h2).2
  refine ⟨?_, by omega⟩
  simp [from_chars, digit_ne_minus d1 h1, List.takeWhile, h1, h2]
  omega

theorem from_chars_space (t : Str) : from_chars (' ' :: t) = none := by
  simp [from_chars, List.takeWhile, space_not_digit]

theorem StringToDateEAFileName_long (s : Str) (h : 8 < s.length) :
    StringToDateEAFileName s = none := by
  simp [StringToDateEAFileName, h]

theorem StringToDateCLIArg_text_one (d1 w1 w2 w3 a b c d : Char) :
    StringToDateCLIArg [d1, ' ', w1, w2, w3, ' ', a, b, c, d] = none := by
  have e2 : slice [d1, ' ', w1, w2, w3, ' ', a, b, c, d] 5 7 = [' ', a] := rfl
  simp only [StringToDateCLIArg, e2, from_chars_space]
  cases from_chars (slice [d1, ' ', w1, w2, w3, ' ', a, b, c, d] 0 4) <;> simp

theorem lookup_month :
    ∀ nm ∈ monthNames, monthToNum.lookup nm = some (monthNames.indexOf nm + 1)
      ∧ monthNames.indexOf nm + 1 ≤ 12 := by decide

theorem ok_iff_realDate (y m d : Nat) (hy : y ≤ 9999) :
    (year_month_day.ok { year := y, month := m, day := d } = true) ↔ realDate y m d := by
  simp only [year_month_day.ok, realDate, Bool.and_eq_true, decide_eq_true_eq]
  constructor
  · intro h
    omega
  · intro h
    omega

theorem StringToDateEAXml_of_searches (s ds W : Str) (y : Nat)
    (hday : regex_search dayPattern none s = some ds)
    (hmonth : regex_search monthPattern none s = if W ∈ monthNames then some W else none)
    (hyear : regex_search yearPattern none s = some (pad4 y))
    (hfd : from_chars ds = some (decVal ds : Int)) (hD : decVal ds ≤ 99)
    (hy1 : 1 ≤ y) (hy2 : y ≤ 9999) :
    StringToDateEAXml s =
      match monthOfAbbreviation W with
      | some m =>
        if realDate y m (decVal ds) then some { year := y, month := m, day := decVal ds }
        else none
      | none => none := by
  have e1 : toShort (y : Int) = y := by
    simp only [toShort]
    omega
  have e2 : toUChar (decVal ds : Int) = decVal ds := by
    simp only [toUChar]
    omega
  by_cases hW : W ∈ monthNames
  · obtain ⟨hl, hle⟩ := lookup_month W hW
    simp only [StringToDateEAXml, hday, hmonth, hyear, hfd, from_chars_pad4 y (by omega), hW,
      if_true, hl, monthOfAbbreviation, e1, e2]
    by_cases hr : realDate y (monthNames.indexOf W + 1) (decVal ds)
    · have hok := (ok_iff_realDate y _ _ hy2).2 hr
      have hpos : (decVal ds : Int) > 0 := by
        have := hr.2.2.1
        omega
      have hypos : (y : Int) > 0 := by omega
      simp [hr, hok, hpos, hypos]
    · have hok : year_month_day.ok
          { year := y, month := monthNames.indexOf W + 1, day := decVal ds } = false := by
        cases h : year_month_day.ok
          { year := y, month := monthNames.indexOf W + 1, day := decVal ds } with
        | false => rfl
        | true => exact absurd ((ok_iff_realDate y _ _ hy2).1 h) hr
      simp [hr, hok]
  · simp only [StringToDateEAXml, hday, hmonth, hyear, hfd, from_chars_pad4 y (by omega), hW,
      if_false, monthOfAbbreviation]
    simp

theorem match_some_id (o : Option year_month_day) :
    (if false = true then none
      else match o with
        | some ymd => some ymd
        | none => none) = o := by
  cases o <;> rfl

/-- C10: for every day number written with one or two digits, every word `W` of three
letters and every year `1 ≤ Y ≤ 9999` written with four digits, `ParseDate` applied to
the day, a space, `W`, a space and the year returns `(Y, m, D)` when `W` is, letter for
letter, the `m`-th entry of Jan .. Dec and `(Y, m, D)` is a real calendar date, and returns
no date otherwise. -/
theorem C10_long_textual_form (ds W : Str) (y : Nat)
    (hlen : ds.length = 1 ∨ ds.length = 2) (hdig : ∀ c ∈ ds, isDigit c = true)
    (hW : W.length = 3) (hWa : ∀ c ∈ W, isAlpha c = true) (hy1 : 1 ≤ y) (hy2 : y ≤ 9999) :
    ParseDate (ds ++ ' ' :: (W ++ ' ' :: pad4 y)) =
      match monthOfAbbreviation W with
      | some m =>
        if realDate y m (decVal ds) then some { year := y, month := m, day := decVal ds }
        else none
      | none => none := by
  match W, hW, hWa with
  | [w1, w2, w3], _, hWa =>
    have hw1 := hWa w1 (by simp)
    have hw2 := hWa w2 (by simp)
    have hw3 := hWa w3 (by simp)
    have ha := isDigit_digitChar (y / 1000)
    have hb := isDigit_digitChar (y / 100)
    have hc := isDigit_digitChar (y / 10)
    have hd := isDigit_digitChar y
    rcases hlen with hlen | hlen
    · match ds, hlen, hdig with
      | [d1], _, hdig =>
        have h1 := hdig d1 (by simp)
        obtain ⟨hfd, hD⟩ := from_chars_one d1 h1
        have hxml := StringToDateEAXml_of_searches
          ([d1] ++ ' ' :: ([w1, w2, w3] ++ ' ' :: pad4 y)) [d1] [w1, w2, w3] y
          (search_day_one d1 _ h1)
          (search_month_one d1 w1 w2 w3 _ _ _ _ h1 hw1 hw2 hw3 ha hb hc hd)
          (search_year_one d1 w1 w2 w3 _ _ _ _ h1 hw1 hw2 hw3 ha hb hc hd)
          hfd hD hy1 hy2
        have hcli : StringToDateCLIArg ([d1] ++ ' ' :: ([w1, w2, w3] ++ ' ' :: pad4 y)) = none :=
          StringToDateCLIArg_text_one d1 w1 w2 w3 _ _ _ _
        have hfile : StringToDateEAFileName
            ([d1] ++ ' ' :: ([w1, w2, w3] ++ ' ' :: pad4 y)) = none :=
          StringToDateEAFileName_long _ (by simp [pad4])
        have hne : ([d1] ++ ' ' :: ([w1, w2, w3] ++ ' ' :: pad4 y)).isEmpty = false := rfl
        simp only [ParseDate, hne, hcli, hfile, hxml]
        exact match_some_id _
    · match ds, hlen, hdig with
      | [d1, d2], _, hdig =>
        have h1 := hdig d1 (by simp)
        have h2 := hdig d2 (by simp)
        obtain ⟨hfd, hD⟩ := from_chars_two d1 d2 h1 h2
        have hxml := StringToDateEAXml_of_searches
          ([d1, d2] ++ ' ' :: ([w1, w2, w3] ++ ' ' :: pad4 y)) [d1, d2] [w1, w2, w3] y
          (search_day_two d1 d2 _ h1 h2)
          (search_month_two d1 d2 w1 w2 w3 _ _ _ _ h1 h2 hw1 hw2 hw3 ha hb hc hd)
          (search_year_two d1 d2 w1 w2 w3 _ _ _ _ h1 h2 hw1 hw2 hw3 ha hb hc hd)
          hfd hD hy1 hy2
        have hcli : StringToDateCLIArg
            ([d1, d2] ++ ' ' :: ([w1, w2, w3] ++ ' ' :: pad4 y)) = none :=
          StringToDateCLIArg_length _ (by simp [pad4])
        have hfile : StringToDateEAFileName
            ([d1, d2] ++ ' ' :: ([w1, w2, w3] ++ ' ' :: pad4 y)) = none :=
          StringToDateEAFileName_long _ (by simp [pad4])
        have hne : ([d1, d2] ++ ' ' :: ([w1, w2, w3] ++ ' ' :: pad4 y)).isEmpty = false := rfl
        simp only [ParseDate, hne, hcli, hfile, hxml]
        exact match_some_id _

/-- Witness of C10: the strings `12 Jan 2023`, `12 Xyz 2023`, `12 jan 2023` and
`30 Feb 2024`. -/
theorem C10_long_textual_form_witness :
    ParseDate "12 Jan 2023".toList = some { year := 2023, month := 1, day := 12 }
    ∧ ParseDate "12 Xyz 2023".toList = none
    ∧ ParseDate "12 jan 2023".toList = none
    ∧ ParseDate "30 Feb 2024".toList = none :=
  ⟨C10_long_textual_form "12".toList "Jan".toList 2023 (by decide) (by decide) (by decide)
      (by decide) (by decide) (by decide),
   C10_long_textual_form "12".toList "Xyz".toList 2023 (by decide) (by decide) (by decide)
      (by decide) (by decide) (by decide),
   C10_long_textual_form "12".toList "jan".toList 2023 (by decide) (by decide) (by decide)
      (by decide) (by decide) (by decide),
   C10_long_textual_form "30".toList "Feb".toList 2024 (by decide) (by decide) (by decide)
      (by decide) (by decide) (by decide)⟩


/-! ## Listing page parser -/

theorem toLower_ne_lt (c : Char) (h : c ≠ '<') : toLower c ≠ '<' := by
  unfold toLower
  split_ifs with hu
  · simp only [Bool.and_eq_true, decide_eq_true_eq] at hu
    obtain ⟨h1, h2⟩ := hu
    generalize c.toNat = n at h1 h2
    interval_cases n <;> decide
  · exact h

theorem matchLiteralI_self (lit r : Str) : matchLiteralI lit (lit ++ r) = some r := by
  induction lit with
  | nil => cases r <;> rfl
  | cons a lit ih => simp [matchLiteralI, ih]

theorem matchLiteralI_map (lit : Str) :
    ∀ (s r : Str), matchLiteralI lit s = some r →
      s.map toLower = lit.map toLower ++ r.map toLower := by
  induction lit with
  | nil =>
    intro s r h
    cases s with
    | nil => simp [matchLiteralI] at h; subst h; rfl
    | cons c s => simp [matchLiteralI] at h; subst h; rfl
  | cons a lit ih =>
    intro s r h
    cases s with
    | nil => simp [matchLiteralI] at h
    | cons c s =>
      simp only [matchLiteralI] at h
      split_ifs at h with hac
      simp [hac, ih s r h]

theorem matchLiteralI_length (lit : Str) :
    ∀ (s r : Str), matchLiteralI lit s = some r → s.length = lit.length + r.length := by
  intro s r h
  have := congrArg List.length (matchLiteralI_map lit s r h)
  simpa using this

theorem prefix_of_prefix_append {α : Type} (a : α) (V : List α) :
    ∀ (L U : List α), a ∉ L → L <+: U ++ a :: V → L <+: U := by
  intro L
  induction L with
  | nil => intro U _ _; exact List.nil_prefix
  | cons x L ih =>
    intro U hx hp
    cases U with
    | nil =>
      simp only [List.nil_append, List.cons_prefix_cons] at hp
      exact absurd (hp.1 ▸ List.mem_cons_self x L) hx
    | cons u U =>
      simp only [List.cons_append, List.cons_prefix_cons] at hp ⊢
      exact ⟨hp.1, ih U (fun hm => hx (List.mem_cons_of_mem _ hm)) hp.2⟩

theorem lazyDotUntil_spec (close rest : Str) (hc : close ≠ []) :
    ∀ inner : Str, (∀ c ∈ inner, isLineTerminator c = false) →
      (∀ u : Str, u ≠ [] → u <:+ inner → matchLiteralI close (u ++ (close ++ rest)) = none) →
      lazyDotUntil close (inner ++ (close ++ rest)) = some (inner, close, rest) := by
  intro inner
  induction inner with
  | nil =>
    intro _ _
    cases close with
    | nil => exact absurd rfl hc
    | cons a cl =>
      have hm := matchLiteralI_self (a :: cl) rest
      simp only [List.nil_append, List.cons_append] at hm ⊢
      simp only [lazyDotUntil, hm]
      simp
  | cons c inner ih =>
    intro hlt hno
    have hm := hno (c :: inner) (by simp) (List.suffix_refl _)
    have hc' := hlt c (by simp)
    have ih' := ih (fun x hx => hlt x (by simp [hx]))
      (fun u hu hsuf => hno u hu (hsuf.trans (List.suffix_cons c inner)))
    simp only [List.cons_append] at hm ⊢
    simp only [lazyDotUntil, hm, hc', ih']
    simp

theorem no_close_in_blob (inner rest : Str)
    (h : ¬ ("</blob>".toList <:+: inner.map toLower)) :
    ∀ u : Str, u ≠ [] → u <:+ inner →
      matchLiteralI "</Blob>".toList (u ++ ("</Blob>".toList ++ rest)) = none := by
  intro u hu hsuf
  cases hm : matchLiteralI "</Blob>".toList (u ++ ("</Blob>".toList ++ rest)) with
  | none => rfl
  | some r =>
    exfalso
    apply h
    have hmap := matchLiteralI_map _ _ _ hm
    cases u with
    | nil => exact absurd rfl hu
    | cons x u' =>
      have hpre : "</Blob>".toList.map toLower <+:
          (x :: u' ++ ("</Blob>".toList ++ rest)).map toLower := ⟨_, hmap.symm⟩
      have e1 : "</Blob>".toList.map toLower = '<' :: "/blob>".toList := by decide
      have e2 : (x :: u' ++ ("</Blob>".toList ++ rest)).map toLower =
          toLower x :: (u'.map toLower ++ '<' :: ("/Blob>".toList ++ rest).map toLower) := by
        simp
        decide
      rw [e1, e2, List.cons_prefix_cons] at hpre
      have hin : "/blob>".toList <+: u'.map toLower :=
        prefix_of_prefix_append '<' _ _ _ (by decide) hpre.2
      have hfull : "</blob>".toList <+: (x :: u').map toLower := by
        have e3 : "</blob>".toList = '<' :: "/blob>".toList := rfl
        rw [e3, List.map_cons, List.cons_prefix_cons]
        exact ⟨hpre.1, hin⟩
      exact hfull.isInfix.trans (hsuf.map toLower).isInfix

theorem no_close_in_token (token rest : Str) (h : '<' ∉ token) :
    ∀ u : Str, u ≠ [] → u <:+ token →
      matchLiteralI "</NextMarker>".toList (u ++ ("</NextMarker>".toList ++ rest)) = none := by
  intro u hu hsuf
  cases u with
  | nil => exact absurd rfl hu
  | cons x u' =>
    have hx : x ≠ '<' := by
      rintro rfl
      exact h (hsuf.subset (by simp))
    have hne : ¬ toLower '<' = toLower x := by
      have : toLower '<' = '<' := by decide
      rw [this]
      exact fun e => toLower_ne_lt x hx e.symm
    have e : "</NextMarker>".toList = '<' :: "/NextMarker>".toList := rfl
    rw [e]
    simp only [List.cons_append, matchLiteralI, hne, if_false]

theorem tagPattern_block (tag inner rest : Str)
    (hlazy : lazyDotUntil ('<' :: '/' :: (tag ++ ['>']))
        (inner ++ (('<' :: '/' :: (tag ++ ['>'])) ++ rest)) =
      some (inner, '<' :: '/' :: (tag ++ ['>']), rest)) :
    tagPattern tag (('<' :: (tag ++ ['>'])) ++ (inner ++ (('<' :: '/' :: (tag ++ ['>'])) ++ rest))) =
      some (('<' :: (tag ++ ['>'])) ++ inner ++ ('<' :: '/' :: (tag ++ ['>'])), inner, rest) := by
  have htake : ∀ Y : Str,
      (('<' :: (tag ++ ['>'])) ++ Y).take ('<' :: (tag ++ ['>'])).length
        = '<' :: (tag ++ ['>']) := fun Y => List.take_left _ _
  simp only [tagPattern, matchLiteralI_self, hlazy, htake]

theorem lazyDotUntil_length (close : Str) :
    ∀ (s inner closing rest : Str), lazyDotUntil close s = some (inner, closing, rest) →
      rest.length ≤ s.length := by
  intro s
  induction s with
  | nil =>
    intro inner closing rest h
    simp only [lazyDotUntil] at h
    cases hm : matchLiteralI close [] with
    | none => simp [hm] at h
    | some r =>
      simp only [hm, Option.some.injEq, Prod.mk.injEq] at h
      have := matchLiteralI_length _ _ _ hm
      rw [← h.2.2]
      omega
  | cons c s ih =>
    intro inner closing rest h
    simp only [lazyDotUntil] at h
    cases hm : matchLiteralI close (c :: s) with
    | some r =>
      simp only [hm, Option.some.injEq, Prod.mk.injEq] at h
      have := matchLiteralI_length _ _ _ hm
      rw [← h.2.2]
      omega
    | none =>
      simp only [hm] at h
      split_ifs at h
      cases hl : lazyDotUntil close s with
      | none => simp [hl] at h
      | some t =>
        obtain ⟨i, cl, r⟩ := t
        simp only [hl, Option.some.injEq, Prod.mk.injEq] at h
        have := ih i cl r hl
        rw [← h.2.2]
        simp only [List.length_cons]
        omega

theorem tagPattern_length (tag s full inner rest : Str)
    (h : tagPattern tag s = some (full, inner, rest)) : rest.length < s.length := by
  simp only [tagPattern] at h
  cases hm : matchLiteralI ('<' :: (tag ++ ['>'])) s with
  | none => simp [hm] at h
  | some afterOpen =>
    simp only [hm] at h
    cases hl : lazyDotUntil ('<' :: '/' :: (tag ++ ['>'])) afterOpen with
    | none => simp [hl] at h
    | some t =>
      obtain ⟨i, cl, r⟩ := t
      simp only [hl, Option.some.injEq, Prod.mk.injEq] at h
      have h1 := matchLiteralI_length _ _ _ hm
      have h2 := lazyDotUntil_length _ _ _ _ _ hl
      rw [← h.2.2]
      simp only [List.length_cons] at h1
      omega

theorem blobOrMarkerPattern_length (s : Str) (m : smatch) (rest : Str)
    (h : blobOrMarkerPattern s = some (m, rest)) : rest.length < s.length := by
  unfold blobOrMarkerPattern at h
  cases h1 : tagPattern "Blob".toList s with
  | some t =>
    obtain ⟨full, inner, r⟩ := t
    rw [h1] at h
    simp only [Option.some.injEq, Prod.mk.injEq] at h
    rw [← h.2]
    exact tagPattern_length _ _ _ _ _ h1
  | none =>
    rw [h1] at h
    cases h2 : tagPattern "NextMarker".toList s with
    | some t =>
      obtain ⟨full, inner, r⟩ := t
      rw [h2] at h
      simp only [Option.some.injEq, Prod.mk.injEq] at h
      rw [← h.2]
      exact tagPattern_length _ _ _ _ _ h2
    | none =>
      rw [h2] at h
      exact Option.noConfusion h

theorem go_fuel {μ : Type} (m : Str → Option (μ × Str))
    (hm : ∀ s r rest, m s = some (r, rest) → rest.length < s.length) :
    ∀ (f1 f2 : Nat) (s : Str), s.length < f1 → s.length < f2 →
      sregex_iterator.go m f1 s = sregex_iterator.go m f2 s := by
  intro f1
  induction f1 with
  | zero => intro f2 s h1 _; exact absurd h1 (Nat.not_lt_zero _)
  | succ f1 ih =>
    intro f2 s h1 h2
    cases f2 with
    | zero => exact absurd h2 (Nat.not_lt_zero _)
    | succ f2 =>
      simp only [sregex_iterator.go]
      cases hms : m s with
      | some t =>
        obtain ⟨r, rest⟩ := t
        have := hm s r rest hms
        simp only
        rw [ih f2 rest (by omega) (by omega)]
      | none =>
        cases s with
        | nil => rfl
        | cons c s' =>
          simp only [List.length_cons] at h1 h2
          simp only
          rw [ih f2 s' (by omega) (by omega)]

theorem iter_match {μ : Type} (m : Str → Option (μ × Str))
    (hm : ∀ s r rest, m s = some (r, rest) → rest.length < s.length)
    (s rest : Str) (r : μ) (h : m s = some (r, rest)) :
    sregex_iterator m s = r :: sregex_iterator m rest := by
  have hl := hm s r rest h
  show sregex_iterator.go m (s.length + 1) s = r :: sregex_iterator.go m (rest.length + 1) rest
  rw [go_fuel m hm (rest.length + 1) s.length rest (by omega) hl]
  simp only [sregex_iterator.go, h]

theorem iter_skip {μ : Type} (m : Str → Option (μ × Str))
    (c : Char) (s : Str) (h : m (c :: s) = none) :
    sregex_iterator m (c :: s) = sregex_iterator m s := by
  simp only [sregex_iterator, sregex_iterator.go, h, List.length_cons]

theorem iter_nil {μ : Type} (m : Str → Option (μ × Str)) (h : m [] = none) :
    sregex_iterator m [] = [] := by
  simp only [sregex_iterator, sregex_iterator.go, h, List.length_nil]

theorem pattern_nil : blobOrMarkerPattern [] = none := by decide

theorem pattern_blob (inner rest : Str) (hlt : ∀ c ∈ inner, isLineTerminator c = false)
    (hno : ¬ ("</blob>".toList <:+: inner.map toLower)) :
    blobOrMarkerPattern (blobBlock inner ++ rest) =
      some ({ str0 := blobBlock inner, str1 := blobBlock inner, str2 := inner, str3 := [] },
            rest) := by
  have hlazy := lazyDotUntil_spec "</Blob>".toList rest (by decide) inner hlt
    (no_close_in_blob inner rest hno)
  have ht := tagPattern_block "Blob".toList inner rest hlazy
  have e : blobBlock inner ++ rest =
      ('<' :: ("Blob".toList ++ ['>'])) ++
        (inner ++ (('<' :: '/' :: ("Blob".toList ++ ['>'])) ++ rest)) := by
    simp [blobBlock]
  have e' : ('<' :: ("Blob".toList ++ ['>'])) ++ inner ++ ('<' :: '/' :: ("Blob".toList ++ ['>']))
      = blobBlock inner := by
    simp [blobBlock]
  rw [e' ] at ht
  unfold blobOrMarkerPattern
  rw [e, ht]

theorem pattern_marker (token rest : Str) (hlt : ∀ c ∈ token, isLineTerminator c = false)
    (hno : '<' ∉ token) :
    blobOrMarkerPattern (markerBlock token ++ rest) =
      some ({ str0 := markerBlock token, str1 := markerBlock token, str2 := [], str3 := token },
            rest) := by
  have hlazy := lazyDotUntil_spec "</NextMarker>".toList rest (by decide) token hlt
    (no_close_in_token token rest hno)
  have ht := tagPattern_block "NextMarker".toList token rest hlazy
  have e : markerBlock token ++ rest =
      ('<' :: ("NextMarker".toList ++ ['>'])) ++
        (token ++ (('<' :: '/' :: ("NextMarker".toList ++ ['>'])) ++ rest)) := by
    simp [markerBlock]
  have e' : ('<' :: ("NextMarker".toList ++ ['>'])) ++ token ++
      ('<' :: '/' :: ("NextMarker".toList ++ ['>'])) = markerBlock token := by
    simp [markerBlock]
  rw [e'] at ht
  have hb : tagPattern "Blob".toList
      (('<' :: ("NextMarker".toList ++ ['>'])) ++
        (token ++ (('<' :: '/' :: ("NextMarker".toList ++ ['>'])) ++ rest))) = none := by
    have hne : ¬ toLower 'B' = toLower 'N' := by decide
    simp [tagPattern, matchLiteralI, hne]
  unfold blobOrMarkerPattern
  rw [e, hb, ht]

theorem matchLiteralI_none_of_not_prefix (lit s : Str)
    (h : ¬ (lit.map toLower <+: s.map toLower)) : matchLiteralI lit s = none := by
  cases hm : matchLiteralI lit s with
  | none => rfl
  | some r => exact absurd ⟨_, (matchLiteralI_map lit s r hm).symm⟩ h

theorem no_open_in_text (lit tagLower : Str) (hl : lit.map toLower = '<' :: tagLower)
    (hlt : '<' ∉ tagLower) (s rest : Str)
    (hs : ¬ (('<' :: tagLower) <:+: s.map toLower))
    (hrest : rest = [] ∨ ∃ r, rest = '<' :: r) :
    ∀ u : Str, u ≠ [] → u <:+ s → matchLiteralI lit (u ++ rest) = none := by
  intro u hu hsuf
  apply matchLiteralI_none_of_not_prefix
  rw [hl]
  intro hpre
  apply hs
  cases u with
  | nil => exact absurd rfl hu
  | cons x u' =>
    have hin : ('<' :: tagLower) <+: (x :: u').map toLower := by
      rcases hrest with rfl | ⟨r, rfl⟩
      · simpa using hpre
      · have e : (x :: u' ++ '<' :: r).map toLower =
            toLower x :: (u'.map toLower ++ '<' :: r.map toLower) := by
          have : toLower '<' = '<' := by decide
          simp [this]
        rw [e, List.cons_prefix_cons] at hpre
        rw [List.map_cons, List.cons_prefix_cons]
        exact ⟨hpre.1, prefix_of_prefix_append '<' _ _ _ hlt hpre.2⟩
    exact hin.isInfix.trans (hsuf.map toLower).isInfix

theorem pattern_none_of_open (x : Str)
    (h1 : matchLiteralI "<Blob>".toList x = none)
    (h2 : matchLiteralI "<NextMarker>".toList x = none) : blobOrMarkerPattern x = none := by
  have e1 : ('<' :: ("Blob".toList ++ ['>'])) = "<Blob>".toList := rfl
  have e2 : ('<' :: ("NextMarker".toList ++ ['>'])) = "<NextMarker>".toList := rfl
  simp only [blobOrMarkerPattern, tagPattern, e1, e2, h1, h2]

theorem iter_text (s rest : Str) (hs : betweenBlocks s)
    (hrest : rest = [] ∨ ∃ r, rest = '<' :: r) :
    sregex_iterator blobOrMarkerPattern (s ++ rest) = sregex_iterator blobOrMarkerPattern rest := by
  have hb := no_open_in_text "<Blob>".toList "blob>".toList (by decide) (by decide) s rest
    hs.1 hrest
  have hn := no_open_in_text "<NextMarker>".toList "nextmarker>".toList (by decide) (by decide)
    s rest hs.2 hrest
  have key : ∀ u : Str, u <:+ s →
      sregex_iterator blobOrMarkerPattern (u ++ rest) =
        sregex_iterator blobOrMarkerPattern rest := by
    intro u
    induction u with
    | nil => intro _; rfl
    | cons c u ih =>
      intro hsuf
      have hp : blobOrMarkerPattern (c :: (u ++ rest)) = none :=
        pattern_none_of_open _ (hb (c :: u) (by simp) hsuf) (hn (c :: u) (by simp) hsuf)
      rw [List.cons_append, iter_skip _ c _ hp]
      exact ih ((List.suffix_cons c u).trans hsuf)
  exact key s (List.suffix_refl s)

theorem strContains_of_isPrefixOf (n s : Str) (h : n.isPrefixOf s = true) :
    strContains n s = true := by
  cases s with
  | nil =>
    cases n with
    | nil => rfl
    | cons a n => simp [List.isPrefixOf] at h
  | cons c s => simp [strContains, h]

theorem strContains_append_left (n s : Str) (h : strContains n s = true) :
    ∀ pre : Str, strContains n (pre ++ s) = true := by
  intro pre
  induction pre with
  | nil => exact h
  | cons c pre ih => simp [strContains, ih]

theorem strContains_blobBlock (inner : Str) :
    strContains "/Blob".toList (blobBlock inner) = true := by
  have e : blobBlock inner = ("<Blob>".toList ++ inner ++ ['<']) ++ "/Blob>".toList := by
    simp [blobBlock]
  rw [e]
  exact strContains_append_left _ _ (strContains_of_isPrefixOf _ _ (by decide)) _

theorem strContains_token (token : Str) (hno : ¬ ("/Blob".toList <:+: token)) :
    strContains "/Blob".toList (token ++ "</NextMarker>".toList) = false := by
  induction token with
  | nil => decide
  | cons c token ih =>
    have ih' := ih (fun hin => hno (List.infix_cons hin))
    have hp : ("/Blob".toList).isPrefixOf (c :: (token ++ "</NextMarker>".toList)) = false := by
      cases hpre : ("/Blob".toList).isPrefixOf (c :: (token ++ "</NextMarker>".toList)) with
      | false => rfl
      | true =>
        exfalso
        apply hno
        rw [List.isPrefixOf_iff_prefix] at hpre
        have e : c :: (token ++ "</NextMarker>".toList) =
            (c :: token) ++ '<' :: "/NextMarker>".toList := by simp
        rw [e] at hpre
        exact (prefix_of_prefix_append '<' _ _ _ (by decide) hpre).isInfix
    show strContains "/Blob".toList (c :: (token ++ "</NextMarker>".toList)) = false
    rw [strContains, hp, ih']
    rfl

theorem strContains_cons_ne (a c : Char) (n s : Str) (h : a ≠ c) :
    strContains (a :: n) (c :: s) = strContains (a :: n) s := by
  have hb : (a == c) = false := by simpa using h
  simp [strContains, List.isPrefixOf, hb]

theorem strContains_markerBlock (token : Str) (hno : ¬ ("/Blob".toList <:+: token)) :
    strContains "/Blob".toList (markerBlock token) = false
      ∧ strContains "<NextMarker>".toList (markerBlock token) = true := by
  constructor
  · have e : markerBlock token =
        '<' :: 'N' :: 'e' :: 'x' :: 't' :: 'M' :: 'a' :: 'r' :: 'k' :: 'e' :: 'r' :: '>' ::
          (token ++ "</NextMarker>".toList) := by
      simp [markerBlock]
    have e2 : "/Blob".toList = '/' :: "Blob".toList := rfl
    rw [e, e2]
    iterate 12 rw [strContains_cons_ne _ _ _ _ (by decide)]
    rw [← e2]
    exact strContains_token token hno
  · apply strContains_of_isPrefixOf
    simp [markerBlock, List.isPrefixOf]

theorem step_blob (st : List BlobContainer × Str) (inner : Str) (d : year_month_day)
    (hd : GetDateFromUrl (urlOfBlock (blobBlock inner)) = some d) :
    ParseEAXML.step st
        { str0 := blobBlock inner, str1 := blobBlock inner, str2 := inner, str3 := [] } =
      some (st.1 ++ [recordOfBlock (blobBlock inner)], st.2) := by
  unfold urlOfBlock at hd
  simp only [ParseEAXML.step, strContains_blobBlock, if_true, recordOfBlock, urlOfBlock, hd]
  cases ParseDate (_ExtractValueFromXMLTag "Last-Modified".toList (blobBlock inner)) <;> rfl

theorem step_marker (st : List BlobContainer × Str) (token : Str)
    (hno : ¬ ("/Blob".toList <:+: token)) :
    ParseEAXML.step st
        { str0 := markerBlock token, str1 := markerBlock token, str2 := [], str3 := token } =
      some (st.1, token) := by
  obtain ⟨h1, h2⟩ := strContains_markerBlock token hno
  simp only [ParseEAXML.step, h1, h2, if_true]
  rfl

/-- C4 (code at the failing input): for the page `<NextMarker>a/Blob</NextMarker>`, whose
token `a/Blob` has no `<` and no line break, the pattern matches the block as a NextMarker
block with the token `a/Blob`, but the matched text contains `/Blob`, so the Blob branch of
`ParseEAXML` runs: the token is not assigned, and the branch calls `GetDateFromUrl` on the
empty URL, which ends without a return value, so that `ParseEAXML` has no result.  For the
token `m1` the token is set and no record is added. -/
theorem C4_marker_containing_blob_text :
    blobOrMarkerPattern "<NextMarker>a/Blob</NextMarker>".toList =
        some ({ str0 := "<NextMarker>a/Blob</NextMarker>".toList,
                str1 := "<NextMarker>a/Blob</NextMarker>".toList,
                str2 := [], str3 := "a/Blob".toList }, [])
    ∧ strContains "/Blob".toList "<NextMarker>a/Blob</NextMarker>".toList = true
    ∧ _ExtractValueFromXMLTag "Url".toList "<NextMarker>a/Blob</NextMarker>".toList = []
    ∧ GetDateFromUrl [] = none
    ∧ ParseEAXML [] "<NextMarker>a/Blob</NextMarker>".toList [] = none
    ∧ ParseEAXML [] "<NextMarker>m1</NextMarker>".toList [] = some ([], "m1".toList) := by
  refine ⟨?_, ?_, ?_, ?_, ?_, ?_⟩ <;> rfl

/-- C5 (code at the failing input): the same page in the casing of the source pattern
and in lower-case tag names.  The first gives one record and the token `m1`, the second
gives no record and no token, while `_ExtractValueFromXMLTag` itself returns the same inner
text for both casings. -/
theorem C5_lower_case_tags_give_nothing :
    ParseEAXML [] "<Blob><Url>a_20230112</Url></Blob><NextMarker>m1</NextMarker>".toList []
        = some ([{ URL := "a_20230112".toList, LastModified := DefaultDate,
                   FileNameDate := { year := 2023, month := 1, day := 12 } }], "m1".toList)
    ∧ ParseEAXML [] "<blob><url>a_20230112</url></blob><nextmarker>m1</nextmarker>".toList []
        = some ([], [])
    ∧ _ExtractValueFromXMLTag "Url".toList "<Blob><Url>a_20230112</Url></Blob>".toList
        = "a_20230112".toList
    ∧ _ExtractValueFromXMLTag "Url".toList "<blob><url>a_20230112</url></blob>".toList
        = "a_20230112".toList := by
  refine ⟨?_, ?_, ?_, ?_⟩ <;> rfl

/-! ## Date parsing: validity of the result -/

theorem leapYear_eq_is_leap (y : Int) : leapYear y = is_leap y := by
  unfold leapYear is_leap
  by_cases h4 : y % 4 = 0 <;> by_cases h100 : y % 100 = 0 <;> by_cases h400 : y % 400 = 0 <;>
    simp [h4, h100, h400] <;> omega

theorem trueMonthLength_eq (y : Int) (m : Nat) (h1 : 1 ≤ m) (h2 : m ≤ 12) :
    trueMonthLength y m = last_day y m := by
  interval_cases m <;> simp [trueMonthLength, last_day, leapYear_eq_is_leap]

theorem isRealDate_of_ok (d : year_month_day) (h : d.ok = true) : d.isRealDate := by
  simp only [year_month_day.ok, Bool.and_eq_true, decide_eq_true_eq] at h
  obtain ⟨⟨⟨⟨⟨_, _⟩, h1⟩, h2⟩, h3⟩, h4⟩ := h
  refine ⟨h1, h2, h3, ?_⟩
  rw [trueMonthLength_eq _ _ h1 h2]
  exact h4

theorem some_of_ok (ymd d : year_month_day)
    (h : (if ymd.ok = true then some ymd else none) = some d) : d.ok = true := by
  split_ifs at h with hok
  simp only [Option.some.injEq] at h
  rw [← h]
  exact hok

theorem StringToDateCLIArg_ok (s : Str) (d : year_month_day)
    (h : StringToDateCLIArg s = some d) : d.ok = true := by
  unfold StringToDateCLIArg at h
  by_cases hl : s.length ≠ 10
  · simp [hl] at h
  · simp only [hl, if_false] at h
    cases hy : from_chars (slice s 0 4) with
    | none => simp [hy] at h
    | some y =>
      cases hm : from_chars (slice s 5 7) with
      | none => simp [hy, hm] at h
      | some m =>
        cases hd : from_chars (slice s 8 10) with
        | none => simp [hy, hm, hd] at h
        | some dd =>
          simp only [hy, hm, hd] at h
          exact some_of_ok _ _ h

theorem StringToDateEAFileName_ok (s : Str) (d : year_month_day)
    (h : StringToDateEAFileName s = some d) : d.ok = true := by
  unfold StringToDateEAFileName at h
  by_cases hl : s.length < 6 ∨ s.length > 8
  · simp [hl] at h
  · simp only [hl, if_false] at h
    cases hy : from_chars (slice s 0 4) with
    | none => simp [hy] at h
    | some y =>
      cases hm : from_chars (slice s 4 6) with
      | none => simp [hy, hm] at h
      | some m =>
        simp only [hy, hm] at h
        by_cases h8 : s.length = 8
        · simp only [h8, if_true] at h
          cases hd : from_chars (slice s 6 8) with
          | none => simp [hd] at h
          | some dd =>
            simp only [hd] at h
            exact some_of_ok _ _ h
        · simp only [h8, if_false] at h
          exact some_of_ok _ _ h

theorem StringToDateEAXml_ok (s : Str) (d : year_month_day)
    (h : StringToDateEAXml s = some d) : d.ok = true := by
  unfold StringToDateEAXml at h
  simp only at h
  split at h
  · exact Option.noConfusion h
  · split at h
    · exact Option.noConfusion h
    · split at h
      · exact Option.noConfusion h
      · split_ifs at h with hc hok
        simp only [Option.some.injEq] at h
        rw [← h]
        exact hok

theorem ParseDate_ok (s : Str) (d : year_month_day) (h : ParseDate s = some d) :
    d.ok = true := by
  unfold ParseDate at h
  split_ifs at h
  cases h1 : StringToDateCLIArg s with
  | some d1 =>
    simp only [h1, Option.some.injEq] at h
    exact h ▸ StringToDateCLIArg_ok s d1 h1
  | none =>
    simp only [h1] at h
    cases h2 : StringToDateEAFileName s with
    | some d2 =>
      simp only [h2, Option.some.injEq] at h
      exact h ▸ StringToDateEAFileName_ok s d2 h2
    | none =>
      simp only [h2] at h
      cases h3 : StringToDateEAXml s with
      | some d3 =>
        simp only [h3, Option.some.injEq] at h
        exact h ▸ StringToDateEAXml_ok s d3 h3
      | none => simp [h3] at h

theorem not_ok_of_not_real (ymd : year_month_day) (h : ¬ ymd.isRealDate) :
    (if ymd.ok = true then some ymd else none) = none := by
  split_ifs with hok
  · exact absurd (isRealDate_of_ok ymd hok) h
  · rfl

/-- C11: for every input string, a date returned by `StringToDateCLIArg`,
`StringToDateEAFileName`, `StringToDateEAXml` or `ParseDate` is a real calendar date (month
1..12, day between 1 and the true length of that month in that year, leap years accounted
for); when the components read by the CLI form, or by the eight-char file-name form, do not
make a real date, that form returns no date; and `ParseDate` returns no date for
`2023-02-30` and `20231345`. -/
theorem C11_returned_dates_are_real (s : Str) (d : year_month_day) :
    (StringToDateCLIArg s = some d → d.isRealDate)
    ∧ (StringToDateEAFileName s = some d → d.isRealDate)
    ∧ (StringToDateEAXml s = some d → d.isRealDate)
    ∧ (ParseDate s = some d → d.isRealDate)
    ∧ (∀ y m dd : Int, s.length = 10 → from_chars (slice s 0 4) = some y →
        from_chars (slice s 5 7) = some m → from_chars (slice s 8 10) = some dd →
        ¬ (makeDate y m dd).isRealDate → StringToDateCLIArg s = none)
    ∧ (∀ y m dd : Int, s.length = 8 → from_chars (slice s 0 4) = some y →
        from_chars (slice s 4 6) = some m → from_chars (slice s 6 8) = some dd →
        ¬ (makeDate y m dd).isRealDate → StringToDateEAFileName s = none)
    ∧ ParseDate "2023-02-30".toList = none
    ∧ ParseDate "20231345".toList = none := by
  refine ⟨fun h => isRealDate_of_ok d (StringToDateCLIArg_ok s d h),
    fun h => isRealDate_of_ok d (StringToDateEAFileName_ok s d h),
    fun h => isRealDate_of_ok d (StringToDateEAXml_ok s d h),
    fun h => isRealDate_of_ok d (ParseDate_ok s d h), ?_, ?_, by decide, by decide⟩
  · intro y m dd hl hy hm hd hnot
    have hl' : ¬ s.length ≠ 10 := by simp [hl]
    simp only [StringToDateCLIArg, hl', if_false, hy, hm, hd]
    exact not_ok_of_not_real _ hnot
  · intro y m dd hl hy hm hd hnot
    have hl' : ¬ (s.length < 6 ∨ s.length > 8) := by omega
    simp only [StringToDateEAFileName, hl', if_false, hy, hm, hl, if_true, hd]
    exact not_ok_of_not_real _ hnot

/-- Witness of C11: `2024-02-29` is returned and is a leap day; `8 Mar 2023` is returned by
the long form; the components of `2023-02-30` and of `20231345` make no real date. -/
theorem C11_returned_dates_are_real_witness :
    year_month_day.isRealDate { year := 2024, month := 2, day := 29 }
    ∧ year_month_day.isRealDate { year := 2023, month := 3, day := 8 }
    ∧ StringToDateCLIArg "2023-02-30".toList = none
    ∧ StringToDateEAFileName "20231345".toList = none :=
  ⟨(C11_returned_dates_are_real "2024-02-29".toList { year := 2024, month := 2, day := 29 }).1
      (by decide),
   (C11_returned_dates_are_real "8 Mar 2023".toList
      { year := 2023, month := 3, day := 8 }).2.2.2.1 (by decide),
   (C11_returned_dates_are_real "2023-02-30".toList DefaultDate).2.2.2.2.1 2023 2 30
      (by decide) (by decide) (by decide) (by decide) (by decide),
   (C11_returned_dates_are_real "20231345".toList DefaultDate).2.2.2.2.2.1 2023 13 45
      (by decide) (by decide) (by decide) (by decide) (by decide)⟩

/-- C12 (code at the failing input): the ten-char string `2a23-01-12` has the letter `a`
in the year slot, and `StringToDateCLIArg` returns the date 0002-01-12 for it; a minus
sign in the slot is read as a sign. -/
theorem C12_non_digit_in_year_slot_accepted :
    StringToDateCLIArg "2a23-01-12".toList = some { year := 2, month := 1, day := 12 }
    ∧ StringToDateCLIArg "-123-01-12".toList = some { year := -123, month := 1, day := 12 }
    ∧ StringToDateCLIArg "2023-1x-12".toList = some { year := 2023, month := 1, day := 12 } := by
  decide

/-- C13 (code at the failing input): `StringToDateEAFileName` returns a date for the
seven-char string `2024029` and for the six-char string `2a2402`, which holds a letter. -/
theorem C13_length_seven_and_letters_accepted :
    StringToDateEAFileName "2024029".toList = some { year := 2024, month := 2, day := 28 }
    ∧ StringToDateEAFileName "2a2402".toList = some { year := 2, month := 2, day := 28 }
    ∧ ParseDate "2024029".toList = some { year := 2024, month := 2, day := 28 } := by
  decide

/-- C15 (code at the failing input): for the URL `Datasets/Foo/NoDateHere`, and for the
empty URL, no date token is found and `GetDateFromUrl` ends without returning a value. -/
theorem C15_no_token_no_return_value :
    _ExtractStrDateFromUrl "Datasets/Foo/NoDateHere".toList = none
    ∧ GetDateFromUrl "Datasets/Foo/NoDateHere".toList = none
    ∧ GetDateFromUrl [] = none := by
  decide

/-- C20 (code at the failing input): in `x -sd=2023-01-01` the char right after `-sd` is
`=`, not a space; `ExtractInputArguments` skips it unread and returns `2023-01-01`, and
`ExtractSearchDatesCLI` sets the start bound to that date.  The same holds for `-sdx`. -/
theorem C20_flag_followed_by_other_char_accepted :
    ExtractInputArguments StartDateStrArg "x -sd=2023-01-01".toList
        = some (some "2023-01-01".toList)
    ∧ ExtractInputArguments StartDateStrArg "x -sdx2023-01-01".toList
        = some (some "2023-01-01".toList)
    ∧ ExtractSearchDatesCLI "x -sd=2023-01-01".toList
        = some { StartDate := { year := 2023, month := 1, day := 1 }, EndDate := DefaultDate }
    ∧ ExtractSearchDatesCLI "x -ED=2023-12-31".toList
        = some { StartDate := DefaultDate, EndDate := { year := 2023, month := 12, day := 31 } } := by
  decide

/-! ## Markup tag extractor -/

theorem no_close_without_lt (cl x rest : Str) (h : '<' ∉ x) :
    ∀ u : Str, u ≠ [] → u <:+ x →
      matchLiteralI ('<' :: cl) (u ++ (('<' :: cl) ++ rest)) = none := by
  intro u hu hsuf
  cases u with
  | nil => exact absurd rfl hu
  | cons c u' =>
    have hx : c ≠ '<' := by
      rintro rfl
      exact h (hsuf.subset (by simp))
    have hne : ¬ toLower '<' = toLower c := by
      have : toLower '<' = '<' := by decide
      rw [this]
      exact fun e => toLower_ne_lt c hx e.symm
    simp only [List.cons_append, matchLiteralI, hne, if_false]

theorem tagPattern_nil (tag : Str) : tagPattern tag [] = none := by
  simp [tagPattern, matchLiteralI]

theorem tagPattern_text (tag : Str) (c : Char) (s : Str) (h : c ≠ '<') :
    tagPattern tag (c :: s) = none := by
  have hne : ¬ toLower '<' = toLower c := by
    have : toLower '<' = '<' := by decide
    rw [this]
    exact fun e => toLower_ne_lt c h e.symm
  simp [tagPattern, matchLiteralI, hne]

theorem tagMatcher_length (tag : Str) :
    ∀ (s : Str) (r : Str) (rest : Str),
      (match tagPattern tag s with
        | some (_, inner, rest) => some (inner, rest)
        | none => none) = some (r, rest) → rest.length < s.length := by
  intro s r rest h
  cases ht : tagPattern tag s with
  | none => simp [ht] at h
  | some t =>
    obtain ⟨full, inner, rest'⟩ := t
    simp only [ht, Option.some.injEq, Prod.mk.injEq] at h
    rw [← h.2]
    exact tagPattern_length _ _ _ _ _ ht

theorem extract_all_text (tag s rest : Str) (h : '<' ∉ s) :
    _ExtractValueFromXMLTag_all tag (s ++ rest) = _ExtractValueFromXMLTag_all tag rest := by
  unfold _ExtractValueFromXMLTag_all
  induction s with
  | nil => rfl
  | cons c s ih =>
    have hc : c ≠ '<' := by
      rintro rfl
      exact h (by simp)
    rw [List.cons_append, iter_skip _ c _ (by simp only [tagPattern_text tag c _ hc])]
    exact ih (fun hm => h (List.mem_cons_of_mem _ hm))

theorem extract_all_block (tag x rest : Str) (hx : plainText x) :
    _ExtractValueFromXMLTag_all tag (tagBlock tag x ++ rest) =
      x :: _ExtractValueFromXMLTag_all tag rest := by
  have hlazy := lazyDotUntil_spec ('<' :: '/' :: (tag ++ ['>'])) rest (by simp) x hx.2
    (no_close_without_lt _ x rest hx.1)
  have ht := tagPattern_block tag x rest hlazy
  have e : tagBlock tag x ++ rest =
      ('<' :: (tag ++ ['>'])) ++ (x ++ (('<' :: '/' :: (tag ++ ['>'])) ++ rest)) := by
    simp [tagBlock]
  unfold _ExtractValueFromXMLTag_all
  rw [e]
  exact iter_match _ (tagMatcher_length tag) _ rest x (by simp only [ht])

theorem extract_all_document (tag : Str) (blocks : List (Str × Str)) :
    ∀ s0 : Str, plainText s0 → (∀ b ∈ blocks, plainText b.1 ∧ plainText b.2) →
      _ExtractValueFromXMLTag_all tag (taggedDocument tag s0 blocks) = blocks.map Prod.fst := by
  induction blocks with
  | nil =>
    intro s0 h0 _
    have e : taggedDocument tag s0 [] = s0 ++ [] := by simp [taggedDocument]
    rw [e, extract_all_text tag s0 [] h0.1]
    unfold _ExtractValueFromXMLTag_all
    exact iter_nil _ (by simp only [tagPattern_nil])
  | cons b blocks ih =>
    intro s0 h0 hb
    have e : taggedDocument tag s0 (b :: blocks) =
        s0 ++ (tagBlock tag b.1 ++ taggedDocument tag b.2 blocks) := by
      simp [taggedDocument]
    have hb0 := hb b (List.mem_cons_self _ _)
    rw [e, extract_all_text tag s0 _ h0.1, extract_all_block tag b.1 _ hb0.1,
      ih b.2 hb0.2 (fun b' hb' => hb b' (List.mem_cons_of_mem _ hb'))]
    rfl

/-- C16: for every alphanumeric tag name and every document
`s0 <tag>x1</tag> s1 ... <tag>xn</tag> sn` in which the inner texts and the separators hold
no `<` and no line break, the vector overload of `_ExtractValueFromXMLTag` pushes exactly
`x1, ..., xn` in document order, and the overload that returns a string returns `x1`, or
the empty string when `n = 0`. -/
theorem C16_tag_extraction (tag s0 : Str) (blocks : List (Str × Str))
    (_htag : ∀ c ∈ tag, isAlpha c = true ∨ isDigit c = true)
    (h0 : plainText s0) (hb : ∀ b ∈ blocks, plainText b.1 ∧ plainText b.2) :
    _ExtractValueFromXMLTag_all tag (taggedDocument tag s0 blocks) = blocks.map Prod.fst
    ∧ _ExtractValueFromXMLTag tag (taggedDocument tag s0 blocks)
        = (blocks.map Prod.fst).headD [] := by
  have hall := extract_all_document tag blocks s0 h0 hb
  refine ⟨hall, ?_⟩
  unfold _ExtractValueFromXMLTag
  rw [hall]
  cases blocks.map Prod.fst <;> rfl

/-- Witness of C16: the document `<Blob>A</Blob>text<Blob>B</Blob>` for the tag `Blob`, and
a document without any block. -/
theorem C16_tag_extraction_witness :
    (∀ c ∈ "Blob".toList, isAlpha c = true ∨ isDigit c = true)
    ∧ _ExtractValueFromXMLTag_all "Blob".toList "<Blob>A</Blob>text<Blob>B</Blob>".toList
        = ["A".toList, "B".toList]
    ∧ _ExtractValueFromXMLTag "Blob".toList "<Blob>A</Blob>text<Blob>B</Blob>".toList
        = "A".toList
    ∧ _ExtractValueFromXMLTag "Blob".toList "no block here".toList = [] :=
  ⟨by decide,
   (C16_tag_extraction "Blob".toList [] [("A".toList, "text".toList), ("B".toList, [])]
      (by decide) (by decide) (by decide)).1,
   (C16_tag_extraction "Blob".toList [] [("A".toList, "text".toList), ("B".toList, [])]
      (by decide) (by decide) (by decide)).2,
   (C16_tag_extraction "Blob".toList "no block here".toList []
      (by decide) (by decide) (by decide)).2⟩

/-! ## Date extractor -/

theorem delimiter_not_digit (c : Char) (h : isDateDelimiter c = true) : isDigit c = false := by
  simp only [isDateDelimiter, Bool.or_eq_true, beq_iff_eq] at h
  rcases h with (rfl | rfl) | rfl <;> decide

theorem delimiterOrEnd_eq (s : Str) : delimiterOrEnd s = s.head?.all isDateDelimiter := by
  cases s <;> rfl

theorem dateTokenAt_some (s t : Str) (h : dateTokenAt s = some t) :
    ∃ post : Str, s = t ++ post ∧ (t.length = 6 ∨ t.length = 8) ∧
      (∀ c ∈ t, isDigit c = true) ∧ post.head?.all isDateDelimiter = true := by
  unfold dateTokenAt at h
  simp only at h
  split_ifs at h with h6 h8 hd
  · simp only [Option.some.injEq] at h
    refine ⟨s.drop 8, ?_, ?_, ?_, ?_⟩
    · rw [← h, List.append_assoc]
      have e1 : List.take 2 (List.drop 6 s) ++ List.drop 8 s = List.drop 6 s := by
        have := List.take_append_drop 2 (List.drop 6 s)
        rw [List.drop_drop] at this
        exact this
      rw [e1, List.take_append_drop]
    · right
      rw [← h, List.length_append, h6.1, h8.1]
    · intro c hc
      rw [← h, List.mem_append] at hc
      rcases hc with hc | hc
      · exact List.all_eq_true.mp h6.2 c hc
      · exact List.all_eq_true.mp h8.2.1 c hc
    · rw [← delimiterOrEnd_eq]
      exact h8.2.2
  · simp only [Option.some.injEq] at h
    refine ⟨s.drop 6, ?_, ?_, ?_, ?_⟩
    · rw [← h, List.take_append_drop]
    · left
      rw [← h]
      exact h6.1
    · intro c hc
      rw [← h] at hc
      exact List.all_eq_true.mp h6.2 c hc
    · rw [← delimiterOrEnd_eq]
      exact hd

theorem dateTokenAt_run (tok post : Str) (hlen : tok.length = 6 ∨ tok.length = 8)
    (hdig : ∀ c ∈ tok, isDigit c = true) (hpost : post.head?.all isDateDelimiter = true) :
    dateTokenAt (tok ++ post) = some tok := by
  rw [← delimiterOrEnd_eq] at hpost
  rcases hlen with hlen | hlen
  · match tok, hlen, hdig with
    | [a, b, c, d, e, f], _, hdig =>
      have ha := hdig a (by simp)
      have hb := hdig b (by simp)
      have hc := hdig c (by simp)
      have hd := hdig d (by simp)
      have he := hdig e (by simp)
      have hf := hdig f (by simp)
      cases post with
      | nil => simp [dateTokenAt, ha, hb, hc, hd, he, hf, delimiterOrEnd]
      | cons x post' =>
        have hxd : isDateDelimiter x = true := hpost
        have hx : isDigit x = false := delimiter_not_digit x hxd
        simp [dateTokenAt, ha, hb, hc, hd, he, hf, hx, hxd, delimiterOrEnd]
  · match tok, hlen, hdig with
    | [a, b, c, d, e, f, g, h], _, hdig =>
      have ha := hdig a (by simp)
      have hb := hdig b (by simp)
      have hc := hdig c (by simp)
      have hd := hdig d (by simp)
      have he := hdig e (by simp)
      have hf := hdig f (by simp)
      have hg := hdig g (by simp)
      have hh := hdig h (by simp)
      simp [dateTokenAt, ha, hb, hc, hd, he, hf, hg, hh, hpost]

theorem urlDatePattern_some (prev : Option Char) (s t : Str)
    (h : urlDatePattern prev s = some t) :
    (prev = none ∧ dateTokenAt s = some t) ∨
      (∃ c s', s = c :: s' ∧ isDateDelimiter c = true ∧ dateTokenAt s' = some t) := by
  unfold urlDatePattern at h
  simp only at h
  cases prev with
  | none =>
    simp only [Option.isNone_none, if_true] at h
    cases hd : dateTokenAt s with
    | some t' =>
      simp only [hd, Option.some.injEq] at h
      exact Or.inl ⟨rfl, h ▸ rfl⟩
    | none =>
      simp only [hd] at h
      cases s with
      | nil => exact Option.noConfusion h
      | cons c s' =>
        simp only at h
        split_ifs at h with hc
        exact Or.inr ⟨c, s', rfl, hc, h⟩
  | some p =>
    simp only [Option.isNone_some, Bool.false_eq_true, if_false] at h
    cases s with
    | nil => exact Option.noConfusion h
    | cons c s' =>
      simp only at h
      split_ifs at h with hc
      exact Or.inr ⟨c, s', rfl, hc, h⟩

theorem dateTokenAt_delimiter (c : Char) (s : Str) (h : isDateDelimiter c = true) :
    dateTokenAt (c :: s) = none := by
  have hx : isDigit c = false := delimiter_not_digit c h
  simp [dateTokenAt, hx]

theorem urlDatePattern_at_delimiter (prev : Option Char) (c : Char) (tok post : Str)
    (hc : isDateDelimiter c = true) (h : dateTokenAt (tok ++ post) = some tok) :
    urlDatePattern prev (c :: (tok ++ post)) = some tok := by
  unfold urlDatePattern
  simp only [dateTokenAt_delimiter c _ hc, hc, if_true, h]
  split_ifs <;> rfl

theorem getLast?_append_singleton (l : Str) (c : Char) : (l ++ [c]).getLast? = some c := by
  simp

theorem scan_to_first_run (tok post : Str) (hlen : tok.length = 6 ∨ tok.length = 8)
    (hdig : ∀ c ∈ tok, isDigit c = true) (hpost : post.head?.all isDateDelimiter = true) :
    ∀ (pre done : Str), pre ≠ [] →
      (done ++ pre).getLast?.all isDateDelimiter = true →
      (∀ pre' tok' post', pre' ++ tok' ++ post' = done ++ pre ++ tok ++ post →
        DelimitedRun pre' tok' post' → (done ++ pre).length ≤ pre'.length) →
      regex_search urlDatePattern done.getLast? (pre ++ (tok ++ post)) = some tok := by
  intro pre
  induction pre with
  | nil => intro done h; exact absurd rfl h
  | cons c pre ih =>
    intro done _ hdel hmin
    cases pre with
    | nil =>
      have hc : isDateDelimiter c = true := by
        rw [getLast?_append_singleton] at hdel
        exact hdel
      have hm := urlDatePattern_at_delimiter done.getLast? c tok post hc
        (dateTokenAt_run tok post hlen hdig hpost)
      show regex_search urlDatePattern done.getLast? (c :: (tok ++ post)) = some tok
      rw [regex_search, hm]
    | cons c2 pre =>
      have hnone : urlDatePattern done.getLast? (c :: c2 :: pre ++ (tok ++ post)) = none := by
        cases hm : urlDatePattern done.getLast? (c :: c2 :: pre ++ (tok ++ post)) with
        | none => rfl
        | some t =>
          exfalso
          rcases urlDatePattern_some _ _ _ hm with ⟨hprev, hd⟩ | ⟨c', s', hs, hc', hd⟩
          · obtain ⟨post', hs, hl, hdg, hp⟩ := dateTokenAt_some _ _ hd
            have hdone : done = [] := by
              cases done using List.reverseRecOn with
              | nil => rfl
              | append_singleton l a => simp at hprev
            have := hmin [] t post' (by rw [hdone]; simpa using hs.symm) ⟨hl, hdg, rfl, hp⟩
            simp at this
          · obtain ⟨post', hs', hl, hdg, hp⟩ := dateTokenAt_some _ _ hd
            simp only [List.cons_append, List.cons.injEq] at hs
            obtain ⟨rfl, rfl⟩ := hs
            have := hmin (done ++ [c]) t post'
              (by simpa using hs'.symm) ⟨hl, hdg, by simp [hc'], hp⟩
            simp at this
      have ih' := ih (done ++ [c]) (by simp)
        (by simpa using hdel)
        (by
          intro pre' tok' post' he hr
          have := hmin pre' tok' post' (by rw [he]; simp) hr
          simpa using this)
      rw [getLast?_append_singleton] at ih'
      show regex_search urlDatePattern done.getLast? (c :: (c2 :: pre ++ (tok ++ post))) = some tok
      have hnone' : urlDatePattern done.getLast? (c :: (c2 :: pre ++ (tok ++ post))) = none :=
        hnone
      rw [regex_search, hnone']
      exact ih'

theorem StringToDateEAXml_no_day (s : Str) (h : regex_search dayPattern none s = none) :
    StringToDateEAXml s = none := by
  unfold StringToDateEAXml
  simp only [h]
  split
  · rfl
  · split
    · rfl
    · simp

theorem search_day_six (a b c d e f : Char) (ha : isDigit a = true) (hb : isDigit b = true)
    (hc : isDigit c = true) (hd : isDigit d = true) (he : isDigit e = true)
    (hf : isDigit f = true) : regex_search dayPattern none [a, b, c, d, e, f] = none := by
  simp [regex_search, dayPattern, digitsThenBoundary, atWordBoundary, ha, hb, hc, hd, he, hf,
    isWordChar_of_isDigit a ha, isWordChar_of_isDigit b hb, isWordChar_of_isDigit c hc,
    isWordChar_of_isDigit d hd, isWordChar_of_isDigit e he, isWordChar_of_isDigit f hf]

theorem search_day_eight (a b c d e f g h : Char) (ha : isDigit a = true)
    (hb : isDigit b = true) (hc : isDigit c = true) (hd : isDigit d = true)
    (he : isDigit e = true) (hf : isDigit f = true) (hg : isDigit g = true)
    (hh : isDigit h = true) : regex_search dayPattern none [a, b, c, d, e, f, g, h] = none := by
  simp [regex_search, dayPattern, digitsThenBoundary, atWordBoundary, ha, hb, hc, hd, he, hf,
    hg, hh, isWordChar_of_isDigit a ha, isWordChar_of_isDigit b hb, isWordChar_of_isDigit c hc,
    isWordChar_of_isDigit d hd, isWordChar_of_isDigit e he, isWordChar_of_isDigit f hf,
    isWordChar_of_isDigit g hg, isWordChar_of_isDigit h hh]

theorem ParseDate_digit_run (tok : Str) (hlen : tok.length = 6 ∨ tok.length = 8)
    (hdig : ∀ c ∈ tok, isDigit c = true) :
    ParseDate tok = StringToDateEAFileName tok := by
  have hcli : StringToDateCLIArg tok = none :=
    StringToDateCLIArg_length tok (by omega)
  have hne : tok.isEmpty = false := by
    cases tok with
    | nil => simp at hlen
    | cons _ _ => rfl
  have hxml : StringToDateEAXml tok = none := by
    apply StringToDateEAXml_no_day
    rcases hlen with hlen | hlen
    · match tok, hlen, hdig with
      | [a, b, c, d, e, f], _, hdig =>
        exact search_day_six a b c d e f (hdig a (by simp)) (hdig b (by simp))
          (hdig c (by simp)) (hdig d (by simp)) (hdig e (by simp)) (hdig f (by simp))
    · match tok, hlen, hdig with
      | [a, b, c, d, e, f, g, h], _, hdig =>
        exact search_day_eight a b c d e f g h (hdig a (by simp)) (hdig b (by simp))
          (hdig c (by simp)) (hdig d (by simp)) (hdig e (by simp)) (hdig f (by simp))
          (hdig g (by simp)) (hdig h (by simp))
  simp only [ParseDate, hne, hcli, hxml]
  cases StringToDateEAFileName tok <;> rfl

theorem first_run_of_index (pre tok post : Str)
    (hfirst : ∀ j, j < pre.length → ¬ runStartsAt (pre ++ tok ++ post) j) :
    ∀ pre' tok' post', pre' ++ tok' ++ post' = pre ++ tok ++ post →
      DelimitedRun pre' tok' post' → pre.length ≤ pre'.length := by
  intro pre' tok' post' he hr
  by_contra hlt
  have hlt' : pre'.length < pre.length := by omega
  apply hfirst pre'.length hlt'
  rw [← he]
  have e1 : List.take pre'.length (pre' ++ tok' ++ post') = pre' := by
    rw [List.append_assoc, List.take_left]
  have e2 : List.drop pre'.length (pre' ++ tok' ++ post') = tok' ++ post' := by
    rw [List.append_assoc, List.drop_left]
  have e3 : List.drop (pre'.length + tok'.length) (pre' ++ tok' ++ post') = post' := by
    rw [← List.length_append, List.drop_left]
  unfold runStartsAt
  rcases hr.1 with h6 | h8
  · left
    rw [e1, e2, ← h6, List.take_left, e3]
    exact hr
  · right
    rw [e1, e2, ← h8, List.take_left, e3]
    exact hr

theorem ExtractStrDateFromUrl_first_run (pre tok post : Str) (hrun : DelimitedRun pre tok post)
    (hfirst : ∀ j, j < pre.length → ¬ runStartsAt (pre ++ tok ++ post) j) :
    _ExtractStrDateFromUrl (pre ++ tok ++ post) = some tok := by
  obtain ⟨hlen, hdig, hpre, hpost⟩ := hrun
  unfold _ExtractStrDateFromUrl
  rw [List.append_assoc]
  cases pre with
  | nil =>
    have hd := dateTokenAt_run tok post hlen hdig hpost
    have hm : urlDatePattern none (tok ++ post) = some tok := by
      simp [urlDatePattern, hd]
    cases htp : tok ++ post with
    | nil =>
      have : tok = [] := (List.append_eq_nil.mp htp).1
      rw [this] at hlen
      simp at hlen
    | cons x rest =>
      rw [htp] at hm
      simp only [List.nil_append, regex_search, hm]
  | cons c pre =>
    exact scan_to_first_run tok post hlen hdig hpost (c :: pre) [] (by simp) hpre
      (by
        intro pre' tok' post' he hr
        have := first_run_of_index (c :: pre) tok post hfirst pre' tok' post'
          (by simpa using he) hr
        simpa using this)

/-- C14: for every URL in which `tok` is the first run of exactly 6 or exactly 8 digits
bounded on each side by `/`, `-`, `_` or the string boundary (no such run starts at an earlier
index), `GetDateFromUrl` returns the file-name parse of `tok`, or the unset sentinel when
that parse fails; digit runs of other lengths and runs next to other chars, which are not
such runs, do not matter. -/
theorem C14_date_from_first_delimited_run (pre tok post : Str)
    (hrun : DelimitedRun pre tok post)
    (hfirst : ∀ j, j < pre.length → ¬ runStartsAt (pre ++ tok ++ post) j) :
    GetDateFromUrl (pre ++ tok ++ post) =
      some ((StringToDateEAFileName tok).getD DefaultDate) := by
  unfold GetDateFromUrl
  rw [ExtractStrDateFromUrl_first_run pre tok post hrun hfirst]
  simp only [ParseDate_digit_run tok hrun.1 hrun.2.1]
  cases StringToDateEAFileName tok <;> rfl

/-- Witness of C14: in `Datasets/Foo/2_Flows_20231231` the first delimited run is
`20231231` (the digit `2` before it is too short), and the date is 2023-12-31; in
`x/20231345/202302` the first run `20231345` is no date and the result is the unset
sentinel. -/
theorem C14_date_from_first_delimited_run_witness :
    DelimitedRun "Datasets/Foo/2_Flows_".toList "20231231".toList []
    ∧ (∀ j, j < "Datasets/Foo/2_Flows_".toList.length →
        ¬ runStartsAt ("Datasets/Foo/2_Flows_".toList ++ "20231231".toList ++ []) j)
    ∧ GetDateFromUrl "Datasets/Foo/2_Flows_20231231".toList
        = some { year := 2023, month := 12, day := 31 }
    ∧ GetDateFromUrl "x/20231345/202302".toList = some DefaultDate :=
  ⟨by decide, by decide,
   C14_date_from_first_delimited_run "Datasets/Foo/2_Flows_".toList "20231231".toList []
     (by decide) (by decide),
   C14_date_from_first_delimited_run "x/".toList "20231345".toList "/202302".toList
     (by decide) (by decide)⟩

/-! ## Query interpreter: the path term -/

theorem search_queryPath_later (s : Str) :
    ∀ p : Char, regex_search queryPathPattern (some p) s = none := by
  induction s with
  | nil => intro p; rfl
  | cons c s ih =>
    intro p
    have hm : queryPathPattern (some p) (c :: s) = none := rfl
    rw [regex_search, hm]
    exact ih c

theorem queryPath_eq (q : Str) :
    FuzzyFindContainers.queryPath q =
      if ((q.dropWhile isSpace).takeWhile isPathChar).isEmpty then []
      else q.takeWhile isSpace ++ (q.dropWhile isSpace).takeWhile isPathChar := by
  unfold FuzzyFindContainers.queryPath
  cases q with
  | nil => rfl
  | cons c s =>
    rw [regex_search]
    by_cases hrun : (((c :: s).dropWhile isSpace).takeWhile isPathChar).isEmpty = true
    · have hm : queryPathPattern none (c :: s) = none := by
        simp only [queryPathPattern, Option.isNone_none, if_true, hrun]
      rw [hm, search_queryPath_later s c, if_pos hrun]
    · have hm : queryPathPattern none (c :: s) =
          some ((c :: s).takeWhile isSpace ++ ((c :: s).dropWhile isSpace).takeWhile isPathChar) := by
        simp only [queryPathPattern, Option.isNone_none, if_true, hrun]
        rfl
      rw [hm, if_neg hrun]

theorem takeWhile_pathChar_eq (q : Str) (h : '-' ∉ q.takeWhile (fun c => !isSpace c)) :
    q.takeWhile isPathChar = q.takeWhile (fun c => !isSpace c) := by
  induction q with
  | nil => rfl
  | cons c s ih =>
    by_cases hs : isSpace c = true
    · simp [List.takeWhile_cons, isPathChar, hs]
    · have hs' : isSpace c = false := by simpa using hs
      simp only [List.takeWhile_cons, hs', Bool.not_false, if_true, List.mem_cons,
        not_or] at h
      have hc : (c == '-') = false := by
        rw [beq_eq_false_iff_ne]
        exact fun e => h.1 e.symm
      simp only [List.takeWhile_cons, isPathChar, hs', hc, Bool.or_self, Bool.not_false, if_true]
      rw [← ih h.2]

/-- C17 (as stated, refuted): the first token of `Datasets/Whole-sale -sd 2023-01-01` is
`Datasets/Whole-sale`, which does not begin with `-`, and the path computed is
`Datasets/Whole`. -/
theorem C17_path_cut_at_hyphen :
    FuzzyFindContainers.queryPath "Datasets/Whole-sale -sd 2023-01-01".toList
      = "Datasets/Whole".toList := by
  decide

/-- C17 (amended): for every query string that does not begin with whitespace, the path
computed in `FuzzyFindContainers` is the longest leading run of chars that are neither
whitespace nor `-`; it is the whole first token when that token holds no `-`, and it is
empty when the query is empty or begins with `-`. -/
theorem C17_query_path (q : Str) (hq : q.head?.all (fun c => !isSpace c) = true) :
    FuzzyFindContainers.queryPath q = q.takeWhile isPathChar
    ∧ ('-' ∉ q.takeWhile (fun c => !isSpace c) →
        FuzzyFindContainers.queryPath q = q.takeWhile (fun c => !isSpace c))
    ∧ (q = [] ∨ q.head? = some '-' → FuzzyFindContainers.queryPath q = []) := by
  have hmain : FuzzyFindContainers.queryPath q = q.takeWhile isPathChar := by
    rw [queryPath_eq]
    cases q with
    | nil => rfl
    | cons c s =>
      have hc : isSpace c = false := by simpa using hq
      have e1 : (c :: s).dropWhile isSpace = c :: s := by
        simp [List.dropWhile_cons, hc]
      have e2 : (c :: s).takeWhile isSpace = [] := by
        simp [List.takeWhile_cons, hc]
      rw [e1, e2]
      split_ifs with hrun
      · exact (List.isEmpty_iff.mp hrun).symm
      · rfl
  refine ⟨hmain, fun h => ?_, fun h => ?_⟩
  · rw [hmain, takeWhile_pathChar_eq q h]
  · rw [hmain]
    rcases h with rfl | h
    · rfl
    · cases q with
      | nil => rfl
      | cons c s =>
        simp only [List.head?_cons, Option.some.injEq] at h
        subst h
        rfl

/-- Witness of C17 (amended): the query of the specification, a query that begins with a
flag, and a query whose first token holds a hyphen. -/
theorem C17_query_path_witness :
    FuzzyFindContainers.queryPath "Datasets/Wholesale -sd 2023-01-01 -ed 2023-12-31".toList
        = "Datasets/Wholesale".toList
    ∧ FuzzyFindContainers.queryPath "-sd 2023-01-01".toList = []
    ∧ FuzzyFindContainers.queryPath "Whole-sale -sd 2023-01-01".toList = "Whole".toList :=
  ⟨(C17_query_path "Datasets/Wholesale -sd 2023-01-01 -ed 2023-12-31".toList (by decide)).2.1
      (by decide),
   (C17_query_path "-sd 2023-01-01".toList (by decide)).2.2 (Or.inr rfl),
   (C17_query_path "Whole-sale -sd 2023-01-01".toList (by decide)).1⟩

/-! ## Query interpreter: the date arguments -/

theorem infix_append_cons_split {α : Type} (a : α) (n Y : List α) (ha : a ∉ n) :
    ∀ X : List α, n <:+: X ++ a :: Y → n <:+: X ∨ n <:+: Y := by
  intro X
  induction X with
  | nil =>
    intro h
    rw [List.nil_append, List.infix_cons_iff] at h
    rcases h with h | h
    · left
      exact (prefix_of_prefix_append a Y n [] ha h).isInfix
    · exact Or.inr h
  | cons c X ih =>
    intro h
    rw [List.cons_append, List.infix_cons_iff] at h
    rcases h with h | h
    · left
      have h' : n <+: (c :: X) ++ a :: Y := h
      exact (prefix_of_prefix_append a Y n (c :: X) ha h').isInfix
    · rcases ih h with h1 | h2
      · exact Or.inl (List.infix_cons h1)
      · exact Or.inr h2

theorem indexOfSub_none (n : Str) (hn : n ≠ []) :
    ∀ L : Str, ¬ n <:+: L → indexOfSub n L = none := by
  intro L
  induction L with
  | nil =>
    intro _
    cases n with
    | nil => exact absurd rfl hn
    | cons _ _ => rfl
  | cons c L ih =>
    intro h
    have hp : n.isPrefixOf (c :: L) = false := by
      cases hpre : n.isPrefixOf (c :: L) with
      | false => rfl
      | true => exact absurd (List.isPrefixOf_iff_prefix.mp hpre).isInfix h
    have := ih (fun hin => h (List.infix_cons hin))
    have e : indexOfSub n (c :: L) =
        (if n.isPrefixOf (c :: L) then some 0
         else match indexOfSub n L with
           | some i => some (i + 1)
           | none => none) := rfl
    rw [e, hp, this]
    rfl

theorem indexOfSub_self (n rest : Str) (hn : n ≠ []) : indexOfSub n (n ++ rest) = some 0 := by
  cases n with
  | nil => exact absurd rfl hn
  | cons a n =>
    have hp : (a :: n).isPrefixOf (a :: n ++ rest) = true :=
      List.isPrefixOf_iff_prefix.mpr (List.prefix_append _ _)
    simp only [List.cons_append] at hp ⊢
    simp only [indexOfSub, hp, if_true]

theorem indexOfSub_skip (n Y : Str) (a : Char) (ha : a ∉ n) (hn : n ≠ []) (k : Nat)
    (hY : indexOfSub n Y = some k) :
    ∀ A : Str, ¬ n <:+: A → indexOfSub n (A ++ a :: Y) = some (A.length + 1 + k) := by
  intro A
  induction A with
  | nil =>
    intro _
    have hp : n.isPrefixOf (a :: Y) = false := by
      cases hpre : n.isPrefixOf (a :: Y) with
      | false => rfl
      | true =>
        have h1 : n <+: [] ++ a :: Y := List.isPrefixOf_iff_prefix.mp hpre
        have h2 := prefix_of_prefix_append a Y n [] ha h1
        exact absurd (List.prefix_nil.mp h2) hn
    have e : indexOfSub n (a :: Y) =
        (if n.isPrefixOf (a :: Y) then some 0
         else match indexOfSub n Y with
           | some i => some (i + 1)
           | none => none) := rfl
    rw [List.nil_append, e, hp, hY]
    simp [Nat.add_comm]
  | cons c A ih =>
    intro h
    have hp : n.isPrefixOf (c :: (A ++ a :: Y)) = false := by
      cases hpre : n.isPrefixOf (c :: (A ++ a :: Y)) with
      | false => rfl
      | true =>
        have h1 : n <+: (c :: A) ++ a :: Y := List.isPrefixOf_iff_prefix.mp hpre
        exact absurd (prefix_of_prefix_append a Y n (c :: A) ha h1).isInfix h
    have := ih (fun hin => h (List.infix_cons hin))
    have e : indexOfSub n (c :: (A ++ a :: Y)) =
        (if n.isPrefixOf (c :: (A ++ a :: Y)) then some 0
         else match indexOfSub n (A ++ a :: Y) with
           | some i => some (i + 1)
           | none => none) := rfl
    rw [List.cons_append, e, hp, this]
    simp only [Bool.false_eq_true, if_false, List.length_cons, Option.some.injEq]
    omega

theorem indexOfSub_space (val : Str) (hval : ' ' ∉ val) :
    indexOfSub [' '] val = none
    ∧ ∀ B : Str, indexOfSub [' '] (val ++ ' ' :: B) = some val.length := by
  induction val with
  | nil =>
    refine ⟨rfl, fun B => ?_⟩
    simp [indexOfSub, List.isPrefixOf]
  | cons c val ih =>
    have hc : (' ' == c) = false := by
      rw [beq_eq_false_iff_ne]
      exact fun e => hval (e ▸ List.mem_cons_self _ _)
    obtain ⟨ih1, ih2⟩ := ih (fun hm => hval (List.mem_cons_of_mem _ hm))
    refine ⟨?_, fun B => ?_⟩
    · simp [indexOfSub, List.isPrefixOf, hc, ih1]
    · simp [indexOfSub, List.isPrefixOf, hc, ih2 B]

theorem sizeSub_add (a b : Nat) (h : a + b < npos) : sizeSub (a + b) a = b := by
  unfold sizeSub
  unfold npos at h
  omega

theorem sizeAdd_small (a b : Nat) (h : a + b < npos) : sizeAdd a b = a + b := by
  unfold sizeAdd
  unfold npos at h
  omega

theorem extract_at (n pre val B : Str) (x : Char)
    (hidx : indexOfSub n (pre ++ (n ++ x :: (val ++ B))) = some pre.length)
    (hval : ' ' ∉ val) (hB : B = [] ∨ ∃ B', B = ' ' :: B')
    (hfit : (pre ++ (n ++ x :: (val ++ B))).length < npos) :
    ExtractInputArguments n (pre ++ (n ++ x :: (val ++ B))) =
      some (if val.length = 10 ∨ val.length = 11 then some val else none) := by
  have hlen : (pre ++ (n ++ x :: (val ++ B))).length
      = pre.length + n.length + 1 + val.length + B.length := by
    simp only [List.length_append, List.length_cons]
    omega
  rw [hlen] at hfit
  have hfind : find (pre ++ (n ++ x :: (val ++ B))) n 0 = pre.length := by
    simp [find, hidx]
  have hsp : sizeAdd (sizeAdd pre.length n.length) 1 = pre.length + n.length + 1 := by
    rw [sizeAdd_small pre.length n.length (by omega),
      sizeAdd_small (pre.length + n.length) 1 (by omega)]
  have hdrop : (pre ++ (n ++ x :: (val ++ B))).drop (pre.length + n.length + 1) = val ++ B := by
    have e : pre ++ (n ++ x :: (val ++ B)) = (pre ++ n ++ [x]) ++ (val ++ B) := by simp
    rw [e]
    exact List.drop_left' (by simp only [List.length_append, List.length_singleton])
  have hspace := indexOfSub_space val hval
  have hend : (if find (pre ++ (n ++ x :: (val ++ B))) [' '] (pre.length + n.length + 1) = npos
        ∧ pre.length + n.length + 1 ≠ npos
      then (pre ++ (n ++ x :: (val ++ B))).length
      else find (pre ++ (n ++ x :: (val ++ B))) [' '] (pre.length + n.length + 1))
      = (pre.length + n.length + 1) + val.length := by
    have hle : ¬ (pre.length + n.length + 1 > (pre ++ (n ++ x :: (val ++ B))).length) := by
      rw [hlen]
      omega
    rcases hB with rfl | ⟨B', rfl⟩
    · have hf : find (pre ++ (n ++ x :: (val ++ []))) [' '] (pre.length + n.length + 1)
          = npos := by
        have h1 : indexOfSub [' '] (val ++ []) = none := by
          rw [List.append_nil]
          exact hspace.1
        simp only [find, hle, if_false, hdrop, h1]
      rw [hf, hlen]
      have hne : pre.length + n.length + 1 ≠ npos := by omega
      simp [hne]
    · have hf : find (pre ++ (n ++ x :: (val ++ ' ' :: B'))) [' '] (pre.length + n.length + 1)
          = (pre.length + n.length + 1) + val.length := by
        simp only [find, hle, if_false, hdrop, hspace.2 B']
      rw [hf]
      have hne : ¬ (pre.length + n.length + 1 + val.length = npos) := by
        simp only [List.length_cons] at hfit
        omega
      simp [hne]
  have hsub : sizeSub ((pre.length + n.length + 1) + val.length) (pre.length + n.length + 1)
      = val.length := sizeSub_add _ _ (by omega)
  have hne2 : ¬ (pre.length + n.length + 1 + val.length = npos) := by omega
  have hne1 : pre.length ≠ npos := by omega
  have hsubstr : substr (pre ++ (n ++ x :: (val ++ B))) (pre.length + n.length + 1) val.length
      = some val := by
    have hle : ¬ (pre.length + n.length + 1 > (pre ++ (n ++ x :: (val ++ B))).length) := by
      rw [hlen]
      omega
    simp only [substr, hle, if_false, hdrop, List.take_left]
  unfold ExtractInputArguments
  simp only [hfind, hsp, hend, hsub, hne1, hne2, hsubstr, ne_eq, not_false_eq_true, if_true,
    if_false, ExpectedDateArgumentLengthShort, ExpectedDateArgumentLengthLong]
  split_ifs <;> simp_all

theorem spaced_cons (t : Str) (ts : List Str) :
    spaced (t :: ts) = t ++ ts.flatMap (fun u => ' ' :: u) := by
  induction ts generalizing t with
  | nil => simp [spaced]
  | cons t2 ts ih =>
    rw [spaced, ih t2]
    simp [List.flatMap_cons]

theorem not_infix_spaced (n : Str) (hn : n ≠ []) (hsp : ' ' ∉ n) :
    ∀ ts : List Str, (∀ t ∈ ts, ¬ n <:+: t) → ¬ n <:+: spaced ts := by
  intro ts
  induction ts with
  | nil =>
    intro _ h
    exact hn (List.infix_nil.mp h)
  | cons t ts ih =>
    intro hts h
    cases ts with
    | nil => exact hts t (by simp) h
    | cons t2 ts =>
      rw [spaced] at h
      rcases infix_append_cons_split ' ' n _ hsp t h with h1 | h2
      · exact hts t (by simp) h1
      · exact ih (fun u hu => hts u (List.mem_cons_of_mem _ hu)) h2

theorem spaced_split (n val : Str) (before after : List Str) :
    spaced (before ++ n :: val :: after) =
      (if before = [] then [] else spaced before ++ [' ']) ++
        (n ++ ' ' :: (val ++ after.flatMap (fun u => ' ' :: u))) := by
  cases before with
  | nil => simp [spaced_cons, List.flatMap_cons]
  | cons b bs => simp [spaced_cons, List.flatMap_cons, List.flatMap_append]

theorem flatMap_space_shape (after : List Str) :
    after.flatMap (fun u => ' ' :: u) = [] ∨
      ∃ B', after.flatMap (fun u => ' ' :: u) = ' ' :: B' := by
  cases after with
  | nil => exact Or.inl rfl
  | cons a rest => exact Or.inr ⟨a ++ rest.flatMap (fun u => ' ' :: u), by simp [List.flatMap_cons]⟩

theorem extract_spaced (n val : Str) (before after : List Str) (hn : n ≠ []) (hsp : ' ' ∉ n)
    (hbefore : ∀ t ∈ before, ¬ n <:+: t) (hval : ' ' ∉ val)
    (hfit : (spaced (before ++ n :: val :: after)).length < npos) :
    ExtractInputArguments n (spaced (before ++ n :: val :: after)) =
      some (if val.length = 10 ∨ val.length = 11 then some val else none) := by
  rw [spaced_split] at hfit ⊢
  apply extract_at n _ val _ ' ' _ hval (flatMap_space_shape after) hfit
  by_cases hb : before = []
  · simp only [hb, if_true, List.nil_append, List.length_nil]
    exact indexOfSub_self n _ hn
  · simp only [hb, if_false]
    have := indexOfSub_skip n (n ++ ' ' :: (val ++ after.flatMap (fun u => ' ' :: u))) ' ' hsp hn 0
      (indexOfSub_self n _ hn) (spaced before) (not_infix_spaced n hn hsp before hbefore)
    simpa using this

theorem extract_spaced_absent (n : Str) (ts : List Str) (hn : n ≠ []) (hsp : ' ' ∉ n)
    (h : ∀ t ∈ ts, ¬ n <:+: t) : ExtractInputArguments n (spaced ts) = some none := by
  have hidx := indexOfSub_none n hn (spaced ts) (not_infix_spaced n hn hsp ts h)
  have hfind : find (spaced ts) n 0 = npos := by
    simp [find, hidx]
  unfold ExtractInputArguments
  simp only [hfind, ne_eq, not_true_eq_false, if_false]

theorem toLower_space : toLower ' ' = ' ' := by decide

theorem toLowercase_spaced (ts : List Str) :
    toLowercase (spaced ts) = spaced (ts.map toLowercase) := by
  induction ts with
  | nil => rfl
  | cons t ts ih =>
    cases ts with
    | nil => rfl
    | cons t2 ts =>
      rw [spaced, List.map_cons, List.map_cons, spaced, ← List.map_cons, ← ih]
      simp [toLowercase, toLower_space]

theorem toLower_of_isDigit (c : Char) (h : isDigit c = true) : toLower c = c := by
  simp only [isDigit, Bool.and_eq_true, decide_eq_true_eq] at h
  unfold toLower
  have : ¬ ((decide (65 ≤ c.toNat) && decide (c.toNat ≤ 90)) = true) := by
    simp only [Bool.and_eq_true, decide_eq_true_eq]
    omega
  rw [if_neg this]

theorem isoDate_chars (y m d : Nat) : ∀ c ∈ isoDate y m d, isDigit c = true ∨ c = '-' := by
  intro c hc
  simp only [isoDate, pad4, pad2, List.cons_append, List.nil_append, List.mem_cons,
    List.mem_singleton, List.not_mem_nil, or_false] at hc
  rcases hc with rfl | rfl | rfl | rfl | rfl | rfl | rfl | rfl | rfl | rfl
  all_goals first
    | exact Or.inl (isDigit_digitChar _)
    | exact Or.inr rfl

theorem toLowercase_isoDate (y m d : Nat) : toLowercase (isoDate y m d) = isoDate y m d := by
  unfold toLowercase
  conv_rhs => rw [← List.map_id (isoDate y m d)]
  apply List.map_congr_left
  intro c hc
  rcases isoDate_chars y m d c hc with h | rfl
  · exact toLower_of_isDigit c h
  · decide

theorem isoDate_not_mem (y m d : Nat) (c : Char) (h1 : isDigit c = false) (h2 : c ≠ '-') :
    c ∉ isoDate y m d := by
  intro hc
  rcases isoDate_chars y m d c hc with h | h
  · rw [h1] at h
    exact Bool.noConfusion h
  · exact h2 h

theorem isoDate_length (y m d : Nat) : (isoDate y m d).length = 10 := rfl

theorem not_infix_of_not_mem (n s : Str) (c : Char) (hc : c ∈ n) (hs : c ∉ s) : ¬ n <:+: s :=
  fun h => hs (h.subset hc)

theorem bound_isoDate (y m d : Nat) (hy : y ≤ 9999) (hr : realDate y m d) :
    boundOfArgument (some (isoDate y m d)) = { year := y, month := m, day := d } := by
  have := StringToDateCLIArg_format y m d '-' '-' hy hr
  simp only [boundOfArgument, isoDate, this]

theorem searchDates_of_lookups (input : Str) (a b : Option Str)
    (ha : ExtractInputArguments "-sd".toList (toLowercase input) = some a)
    (hb : ExtractInputArguments "-ed".toList (toLowercase input) = some b) :
    ExtractSearchDatesCLI input =
      some { StartDate := boundOfArgument a, EndDate := boundOfArgument b } := by
  unfold ExtractSearchDatesCLI StartDateStrArg EndDateStrArg
  rw [ha, hb]

theorem sd_not_in_isoDate (y m d : Nat) : ¬ "-sd".toList <:+: isoDate y m d :=
  not_infix_of_not_mem _ _ 's' (by decide) (isoDate_not_mem y m d 's' (by decide) (by decide))

theorem ed_not_in_isoDate (y m d : Nat) : ¬ "-ed".toList <:+: isoDate y m d :=
  not_infix_of_not_mem _ _ 'e' (by decide) (isoDate_not_mem y m d 'e' (by decide) (by decide))

theorem space_not_in_isoDate (y m d : Nat) : ' ' ∉ isoDate y m d :=
  isoDate_not_mem y m d ' ' (by decide) (by decide)

set_option maxRecDepth 100000 in
/-- C18 (as stated, refuted): the token `Datasets/Limited-edition` is non-empty, has no
whitespace and does not begin with `-`; with it as path term the end bound of
`Datasets/Limited-edition -sd 2023-01-01 -ed 2023-12-31` stays unset. -/
theorem C18_flag_text_inside_path :
    ExtractSearchDatesCLI "Datasets/Limited-edition -sd 2023-01-01 -ed 2023-12-31".toList
      = some { StartDate := { year := 2023, month := 1, day := 1 }, EndDate := DefaultDate } := by
  decide

/-- C18 (amended): for every path token in which neither `-sd` nor `-ed` occurs in any
casing, every pair of real calendar dates `D1`, `D2` written `YYYY-MM-DD`, and any casing
of the two flag tokens, `ExtractSearchDatesCLI` returns `StartDate = D1` and `EndDate = D2`
for `<path> -sd D1 -ed D2` and for `<path> -ed D2 -sd D1`; with only one flag present the
other bound is unset. -/
theorem C18_both_bounds_found (pfx fs fe : Str) (y1 m1 d1 y2 m2 d2 : Nat)
    (hfs : toLowercase fs = "-sd".toList) (hfe : toLowercase fe = "-ed".toList)
    (hp1 : ¬ occursIgnoringCase "-sd".toList pfx) (hp2 : ¬ occursIgnoringCase "-ed".toList pfx)
    (hy1 : y1 ≤ 9999) (hr1 : realDate y1 m1 d1) (hy2 : y2 ≤ 9999) (hr2 : realDate y2 m2 d2)
    (hfit : pfx.length + 30 < npos) :
    ExtractSearchDatesCLI (spaced [pfx, fs, isoDate y1 m1 d1, fe, isoDate y2 m2 d2])
        = some { StartDate := { year := y1, month := m1, day := d1 },
                 EndDate := { year := y2, month := m2, day := d2 } }
    ∧ ExtractSearchDatesCLI (spaced [pfx, fe, isoDate y2 m2 d2, fs, isoDate y1 m1 d1])
        = some { StartDate := { year := y1, month := m1, day := d1 },
                 EndDate := { year := y2, month := m2, day := d2 } }
    ∧ ExtractSearchDatesCLI (spaced [pfx, fs, isoDate y1 m1 d1])
        = some { StartDate := { year := y1, month := m1, day := d1 }, EndDate := DefaultDate }
    ∧ ExtractSearchDatesCLI (spaced [pfx, fe, isoDate y2 m2 d2])
        = some { StartDate := DefaultDate, EndDate := { year := y2, month := m2, day := d2 } } := by
  have hsd : "-sd".toList ≠ [] := by decide
  have hed : "-ed".toList ≠ [] := by decide
  have hsd' : ' ' ∉ "-sd".toList := by decide
  have hed' : ' ' ∉ "-ed".toList := by decide
  have hse : ¬ "-sd".toList <:+: "-ed".toList := by decide
  have hes : ¬ "-ed".toList <:+: "-sd".toList := by decide
  have hP : (toLowercase pfx).length = pfx.length := by simp [toLowercase]
  have b1 := bound_isoDate y1 m1 d1 hy1 hr1
  have b2 := bound_isoDate y2 m2 d2 hy2 hr2
  have l1 := isoDate_length y1 m1 d1
  have l2 := isoDate_length y2 m2 d2
  refine ⟨?_, ?_, ?_, ?_⟩
  · have hL : toLowercase (spaced [pfx, fs, isoDate y1 m1 d1, fe, isoDate y2 m2 d2]) =
        spaced [toLowercase pfx, "-sd".toList, isoDate y1 m1 d1, "-ed".toList,
          isoDate y2 m2 d2] := by
      simp only [toLowercase_spaced, List.map_cons, List.map_nil, hfs, hfe, toLowercase_isoDate]
    have hlen : (spaced [toLowercase pfx, "-sd".toList, isoDate y1 m1 d1, "-ed".toList,
        isoDate y2 m2 d2]).length < npos := by
      simp only [spaced, List.length_append, List.length_cons, l1, l2, hP]
      simp only [String.toList, List.length_cons, List.length_nil]
      omega
    have e1 := extract_spaced "-sd".toList (isoDate y1 m1 d1) [toLowercase pfx]
      ["-ed".toList, isoDate y2 m2 d2] hsd hsd'
      (by simpa [occursIgnoringCase] using hp1) (space_not_in_isoDate _ _ _) hlen
    have e2 := extract_spaced "-ed".toList (isoDate y2 m2 d2)
      [toLowercase pfx, "-sd".toList, isoDate y1 m1 d1] [] hed hed'
      (by
        intro t ht
        simp only [List.mem_cons, List.mem_singleton, List.not_mem_nil, or_false] at ht
        rcases ht with rfl | rfl | rfl
        · exact hp2
        · exact hes
        · exact ed_not_in_isoDate _ _ _)
      (space_not_in_isoDate _ _ _) hlen
    simp only [l1, l2, true_or, if_true] at e1 e2
    rw [searchDates_of_lookups _ _ _ (hL ▸ e1) (hL ▸ e2), b1, b2]
  · have hL : toLowercase (spaced [pfx, fe, isoDate y2 m2 d2, fs, isoDate y1 m1 d1]) =
        spaced [toLowercase pfx, "-ed".toList, isoDate y2 m2 d2, "-sd".toList,
          isoDate y1 m1 d1] := by
      simp only [toLowercase_spaced, List.map_cons, List.map_nil, hfs, hfe, toLowercase_isoDate]
    have hlen : (spaced [toLowercase pfx, "-ed".toList, isoDate y2 m2 d2, "-sd".toList,
        isoDate y1 m1 d1]).length < npos := by
      simp only [spaced, List.length_append, List.length_cons, l1, l2, hP]
      simp only [String.toList, List.length_cons, List.length_nil]
      omega
    have e1 := extract_spaced "-sd".toList (isoDate y1 m1 d1)
      [toLowercase pfx, "-ed".toList, isoDate y2 m2 d2] [] hsd hsd'
      (by
        intro t ht
        simp only [List.mem_cons, List.mem_singleton, List.not_mem_nil, or_false] at ht
        rcases ht with rfl | rfl | rfl
        · exact hp1
        · exact hse
        · exact sd_not_in_isoDate _ _ _)
      (space_not_in_isoDate _ _ _) hlen
    have e2 := extract_spaced "-ed".toList (isoDate y2 m2 d2) [toLowercase pfx]
      ["-sd".toList, isoDate y1 m1 d1] hed hed'
      (by simpa [occursIgnoringCase] using hp2) (space_not_in_isoDate _ _ _) hlen
    simp only [l1, l2, true_or, if_true] at e1 e2
    rw [searchDates_of_lookups _ _ _ (hL ▸ e1) (hL ▸ e2), b1, b2]
  · have hL : toLowercase (spaced [pfx, fs, isoDate y1 m1 d1]) =
        spaced [toLowercase pfx, "-sd".toList, isoDate y1 m1 d1] := by
      simp only [toLowercase_spaced, List.map_cons, List.map_nil, hfs, toLowercase_isoDate]
    have hlen : (spaced [toLowercase pfx, "-sd".toList, isoDate y1 m1 d1]).length < npos := by
      simp only [spaced, List.length_append, List.length_cons, l1, hP]
      simp only [String.toList, List.length_cons, List.length_nil]
      omega
    have e1 := extract_spaced "-sd".toList (isoDate y1 m1 d1) [toLowercase pfx] [] hsd hsd'
      (by simpa [occursIgnoringCase] using hp1) (space_not_in_isoDate _ _ _) hlen
    have e2 := extract_spaced_absent "-ed".toList
      [toLowercase pfx, "-sd".toList, isoDate y1 m1 d1] hed hed'
      (by
        intro t ht
        simp only [List.mem_cons, List.mem_singleton, List.not_mem_nil, or_false] at ht
        rcases ht with rfl | rfl | rfl
        · exact hp2
        · exact hes
        · exact ed_not_in_isoDate _ _ _)
    simp only [l1, true_or, if_true] at e1
    rw [searchDates_of_lookups _ _ _ (hL ▸ e1) (hL ▸ e2), b1]
    rfl
  · have hL : toLowercase (spaced [pfx, fe, isoDate y2 m2 d2]) =
        spaced [toLowercase pfx, "-ed".toList, isoDate y2 m2 d2] := by
      simp only [toLowercase_spaced, List.map_cons, List.map_nil, hfe, toLowercase_isoDate]
    have hlen : (spaced [toLowercase pfx, "-ed".toList, isoDate y2 m2 d2]).length < npos := by
      simp only [spaced, List.length_append, List.length_cons, l2, hP]
      simp only [String.toList, List.length_cons, List.length_nil]
      omega
    have e2 := extract_spaced "-ed".toList (isoDate y2 m2 d2) [toLowercase pfx] [] hed hed'
      (by simpa [occursIgnoringCase] using hp2) (space_not_in_isoDate _ _ _) hlen
    have e1 := extract_spaced_absent "-sd".toList
      [toLowercase pfx, "-ed".toList, isoDate y2 m2 d2] hsd hsd'
      (by
        intro t ht
        simp only [List.mem_cons, List.mem_singleton, List.not_mem_nil, or_false] at ht
        rcases ht with rfl | rfl | rfl
        · exact hp1
        · exact hse
        · exact sd_not_in_isoDate _ _ _)
    simp only [l2, true_or, if_true] at e2
    rw [searchDates_of_lookups _ _ _ (hL ▸ e1) (hL ▸ e2), b2]
    rfl

/-- Witness of C18 (amended): the path `Datasets/Wholesale` with the flags written `-SD` and
`-ed`, in both orders and one at a time. -/
theorem C18_both_bounds_found_witness :
    ExtractSearchDatesCLI "Datasets/Wholesale -SD 2023-01-01 -ed 2023-12-31".toList
        = some { StartDate := { year := 2023, month := 1, day := 1 },
                 EndDate := { year := 2023, month := 12, day := 31 } }
    ∧ ExtractSearchDatesCLI "Datasets/Wholesale -ed 2023-12-31 -SD 2023-01-01".toList
        = some { StartDate := { year := 2023, month := 1, day := 1 },
                 EndDate := { year := 2023, month := 12, day := 31 } }
    ∧ ExtractSearchDatesCLI "Datasets/Wholesale -SD 2023-01-01".toList
        = some { StartDate := { year := 2023, month := 1, day := 1 }, EndDate := DefaultDate }
    ∧ ExtractSearchDatesCLI "Datasets/Wholesale -ed 2023-12-31".toList
        = some { StartDate := DefaultDate,
                 EndDate := { year := 2023, month := 12, day := 31 } } :=
  C18_both_bounds_found "Datasets/Wholesale".toList "-SD".toList "-ed".toList 2023 1 1 2023 12 31
    (by decide) (by decide) (by decide) (by decide) (by decide) (by decide) (by decide)
    (by decide) (by decide)

theorem isDigit_toLower (c : Char) : isDigit (toLower c) = isDigit c := by
  unfold toLower
  split_ifs with hu
  · simp only [Bool.and_eq_true, decide_eq_true_eq] at hu
    obtain ⟨h1, h2⟩ := hu
    have hc : isDigit c = false := by
      simp only [isDigit, Bool.and_eq_false_iff, decide_eq_false_iff_not]
      omega
    rw [hc]
    generalize c.toNat = n at h1 h2
    interval_cases n <;> decide
  · rfl

theorem toLower_eq_hyphen (c : Char) : toLower c = '-' ↔ c = '-' := by
  unfold toLower
  split_ifs with hu
  · simp only [Bool.and_eq_true, decide_eq_true_eq] at hu
    obtain ⟨h1, h2⟩ := hu
    have hc : c ≠ '-' := by
      intro e
      rw [e] at h1
      exact absurd h1 (by decide)
    constructor
    · intro h
      exfalso
      revert h
      generalize c.toNat = n at h1 h2
      interval_cases n <;> decide
    · intro h
      exact absurd h hc
  · exact Iff.rfl

theorem takeWhile_isDigit_toLower (s : Str) :
    (s.map toLower).takeWhile isDigit = s.takeWhile isDigit := by
  induction s with
  | nil => rfl
  | cons c s ih =>
    rw [List.map_cons, List.takeWhile_cons, List.takeWhile_cons, isDigit_toLower, ih]
    by_cases h : isDigit c = true
    · rw [toLower_of_isDigit c h]
    · simp only [h, Bool.false_eq_true, if_false]

theorem from_chars_toLower (s : Str) : from_chars (s.map toLower) = from_chars s := by
  cases s with
  | nil => rfl
  | cons c s =>
    by_cases hc : c = '-'
    · subst hc
      have e : ('-' :: s).map toLower = '-' :: s.map toLower := rfl
      rw [e]
      simp only [from_chars, List.head?_cons, List.drop_succ_cons, List.drop_zero, beq_self_eq_true,
        if_true, takeWhile_isDigit_toLower]
    · have hc' : toLower c ≠ '-' := fun h => hc ((toLower_eq_hyphen c).mp h)
      have h1 : (some (toLower c) == some '-') = false := by
        simpa using hc'
      have h2 : (some c == some '-') = false := by
        simpa using hc
      have e : (c :: s).map toLower = toLower c :: s.map toLower := rfl
      rw [e]
      have t := takeWhile_isDigit_toLower (c :: s)
      rw [e] at t
      simp only [from_chars, List.head?_cons, h1, h2, Bool.false_eq_true, if_false, t]

theorem slice_toLower (s : Str) (i j : Nat) : slice (s.map toLower) i j = (slice s i j).map toLower := by
  simp only [slice, List.map_take, List.map_drop]

theorem StringToDateCLIArg_toLowercase (s : Str) :
    StringToDateCLIArg (toLowercase s) = StringToDateCLIArg s := by
  simp only [StringToDateCLIArg, toLowercase, List.length_map, slice_toLower, from_chars_toLower]

theorem bound_bad_value (V : Str)
    (hbad : (V.length ≠ 10 ∧ V.length ≠ 11) ∨ StringToDateCLIArg V = none) :
    boundOfArgument (if (toLowercase V).length = 10 ∨ (toLowercase V).length = 11
      then some (toLowercase V) else none) = DefaultDate := by
  have hl : (toLowercase V).length = V.length := by simp [toLowercase]
  rw [hl]
  split_ifs with h
  · have hn : StringToDateCLIArg V = none := by
      rcases hbad with hb | hb
      · omega
      · exact hb
    simp only [boundOfArgument, StringToDateCLIArg_toLowercase, hn]
  · rfl

theorem takeWhile_pathChar_token (p rest : Str) :
    (p ++ ' ' :: rest).takeWhile isPathChar = p.takeWhile isPathChar := by
  induction p with
  | nil => rfl
  | cons c p ih =>
    rw [List.cons_append, List.takeWhile_cons, List.takeWhile_cons, ih]

theorem queryPath_first_token (pfx : Str) (rest : List Str) (hne : pfx ≠ [])
    (hws : ∀ c ∈ pfx, isSpace c = false) :
    FuzzyFindContainers.queryPath (spaced (pfx :: rest)) = pfx.takeWhile isPathChar := by
  rw [queryPath_eq, spaced_cons]
  cases pfx with
  | nil => exact absurd rfl hne
  | cons c p =>
    have hc : isSpace c = false := hws c (List.mem_cons_self _ _)
    have e1 : (c :: p ++ rest.flatMap (fun u => ' ' :: u)).dropWhile isSpace
        = c :: p ++ rest.flatMap (fun u => ' ' :: u) := by
      simp [List.dropWhile_cons, hc]
    have e2 : (c :: p ++ rest.flatMap (fun u => ' ' :: u)).takeWhile isSpace = [] := by
      simp [List.takeWhile_cons, hc]
    have e3 : (c :: p ++ rest.flatMap (fun u => ' ' :: u)).takeWhile isPathChar
        = (c :: p).takeWhile isPathChar := by
      rcases flatMap_space_shape rest with h | ⟨B, h⟩
      · rw [h, List.append_nil]
      · rw [h]
        exact takeWhile_pathChar_token (c :: p) B
    rw [e1, e2, e3]
    split_ifs with hrun
    · exact (List.isEmpty_iff.mp hrun).symm
    · rfl

/-- C19 (as stated, refuted): in `a -sd x-ed -ed 2023-12-31` the value `x-ed` of `-sd` is a
space-free token of length 4 and `2023-12-31` is a valid date, yet the end bound stays
unset. -/
theorem C19_bad_value_hides_other_bound :
    ExtractSearchDatesCLI "a -sd x-ed -ed 2023-12-31".toList
      = some { StartDate := DefaultDate, EndDate := DefaultDate } := by
  decide

/-- C19 (amended): for every query `<path> -sd V -ed D` (and with the roles of `-sd` and
`-ed` swapped) in which the path token is non-empty, whitespace-free and holds neither flag
text in any casing, `V` is a space-free token that has a length other than 10 or 11 or does
not parse as a date and does not hold the text of the other flag in any casing, and `D` is a
real calendar date written `YYYY-MM-DD`: the bound of the bad flag is unset, the other bound
equals `D`, and the path computed in `FuzzyFindContainers` is the one computed for the query
without the bad flag. -/
theorem C19_bad_value_is_local (pfx fs fe V : Str) (y m d : Nat)
    (hfs : toLowercase fs = "-sd".toList) (hfe : toLowercase fe = "-ed".toList)
    (hne : pfx ≠ []) (hws : ∀ c ∈ pfx, isSpace c = false)
    (hp1 : ¬ occursIgnoringCase "-sd".toList pfx) (hp2 : ¬ occursIgnoringCase "-ed".toList pfx)
    (hV : ' ' ∉ V)
    (hbad : (V.length ≠ 10 ∧ V.length ≠ 11) ∨ StringToDateCLIArg V = none)
    (hy : y ≤ 9999) (hr : realDate y m d)
    (hfit : pfx.length + V.length + 30 < npos) :
    (¬ occursIgnoringCase "-ed".toList V →
      ExtractSearchDatesCLI (spaced [pfx, fs, V, fe, isoDate y m d])
        = some { StartDate := DefaultDate, EndDate := { year := y, month := m, day := d } })
    ∧ (¬ occursIgnoringCase "-sd".toList V →
      ExtractSearchDatesCLI (spaced [pfx, fe, V, fs, isoDate y m d])
        = some { StartDate := { year := y, month := m, day := d }, EndDate := DefaultDate })
    ∧ FuzzyFindContainers.queryPath (spaced [pfx, fs, V, fe, isoDate y m d])
        = FuzzyFindContainers.queryPath (spaced [pfx, fe, isoDate y m d])
    ∧ FuzzyFindContainers.queryPath (spaced [pfx, fe, V, fs, isoDate y m d])
        = FuzzyFindContainers.queryPath (spaced [pfx, fs, isoDate y m d]) := by
  have hsd : "-sd".toList ≠ [] := by decide
  have hed : "-ed".toList ≠ [] := by decide
  have hsd' : ' ' ∉ "-sd".toList := by decide
  have hed' : ' ' ∉ "-ed".toList := by decide
  have hse : ¬ "-sd".toList <:+: "-ed".toList := by decide
  have hes : ¬ "-ed".toList <:+: "-sd".toList := by decide
  have hP : (toLowercase pfx).length = pfx.length := by simp [toLowercase]
  have hVl : (toLowercase V).length = V.length := by simp [toLowercase]
  have hV' : ' ' ∉ toLowercase V := by
    intro h
    simp only [toLowercase, List.mem_map] at h
    obtain ⟨c, hc, e⟩ := h
    have : c = ' ' := by
      by_contra hne'
      revert e
      unfold toLower
      split_ifs with hu
      · simp only [Bool.and_eq_true, decide_eq_true_eq] at hu
        obtain ⟨h1, h2⟩ := hu
        generalize c.toNat = n at h1 h2
        interval_cases n <;> decide
      · exact hne'
    exact hV (this ▸ hc)
  have b := bound_isoDate y m d hy hr
  have l := isoDate_length y m d
  have bb := bound_bad_value V hbad
  refine ⟨fun hv => ?_, fun hv => ?_, ?_, ?_⟩
  · have hL : toLowercase (spaced [pfx, fs, V, fe, isoDate y m d]) =
        spaced [toLowercase pfx, "-sd".toList, toLowercase V, "-ed".toList, isoDate y m d] := by
      simp only [toLowercase_spaced, List.map_cons, List.map_nil, hfs, hfe, toLowercase_isoDate]
    have hlen : (spaced [toLowercase pfx, "-sd".toList, toLowercase V, "-ed".toList,
        isoDate y m d]).length < npos := by
      simp only [spaced, List.length_append, List.length_cons, l, hP, hVl]
      simp only [String.toList, List.length_cons, List.length_nil]
      omega
    have e1 := extract_spaced "-sd".toList (toLowercase V) [toLowercase pfx]
      ["-ed".toList, isoDate y m d] hsd hsd'
      (by simpa [occursIgnoringCase] using hp1) hV' hlen
    have e2 := extract_spaced "-ed".toList (isoDate y m d)
      [toLowercase pfx, "-sd".toList, toLowercase V] [] hed hed'
      (by
        intro t ht
        simp only [List.mem_cons, List.mem_singleton, List.not_mem_nil, or_false] at ht
        rcases ht with rfl | rfl | rfl
        · exact hp2
        · exact hes
        · exact hv)
      (space_not_in_isoDate _ _ _) hlen
    simp only [l, true_or, if_true] at e2
    rw [searchDates_of_lookups _ _ _ (hL ▸ e1) (hL ▸ e2), b, bb]
  · have hL : toLowercase (spaced [pfx, fe, V, fs, isoDate y m d]) =
        spaced [toLowercase pfx, "-ed".toList, toLowercase V, "-sd".toList, isoDate y m d] := by
      simp only [toLowercase_spaced, List.map_cons, List.map_nil, hfs, hfe, toLowercase_isoDate]
    have hlen : (spaced [toLowercase pfx, "-ed".toList, toLowercase V, "-sd".toList,
        isoDate y m d]).length < npos := by
      simp only [spaced, List.length_append, List.length_cons, l, hP, hVl]
      simp only [String.toList, List.length_cons, List.length_nil]
      omega
    have e2 := extract_spaced "-ed".toList (toLowercase V) [toLowercase pfx]
      ["-sd".toList, isoDate y m d] hed hed'
      (by simpa [occursIgnoringCase] using hp2) hV' hlen
    have e1 := extract_spaced "-sd".toList (isoDate y m d)
      [toLowercase pfx, "-ed".toList, toLowercase V] [] hsd hsd'
      (by
        intro t ht
        simp only [List.mem_cons, List.mem_singleton, List.not_mem_nil, or_false] at ht
        rcases ht with rfl | rfl | rfl
        · exact hp1
        · exact hse
        · exact hv)
      (space_not_in_isoDate _ _ _) hlen
    simp only [l, true_or, if_true] at e1
    rw [searchDates_of_lookups _ _ _ (hL ▸ e1) (hL ▸ e2), b, bb]
  · rw [queryPath_first_token pfx _ hne hws, queryPath_first_token pfx _ hne hws]
  · rw [queryPath_first_token pfx _ hne hws, queryPath_first_token pfx _ hne hws]

/-- Witness of C19 (amended): the value `2023-1-1`, of length 8, after either flag. -/
theorem C19_bad_value_is_local_witness :
    ExtractSearchDatesCLI "a -sd 2023-1-1 -ed 2023-12-31".toList
        = some { StartDate := DefaultDate, EndDate := { year := 2023, month := 12, day := 31 } }
    ∧ ExtractSearchDatesCLI "a -ed 2023-1-1 -sd 2023-12-31".toList
        = some { StartDate := { year := 2023, month := 12, day := 31 }, EndDate := DefaultDate }
    ∧ FuzzyFindContainers.queryPath "a -sd 2023-1-1 -ed 2023-12-31".toList
        = FuzzyFindContainers.queryPath "a -ed 2023-12-31".toList
    ∧ FuzzyFindContainers.queryPath "a -ed 2023-1-1 -sd 2023-12-31".toList
        = FuzzyFindContainers.queryPath "a -sd 2023-12-31".toList :=
  have h := C19_bad_value_is_local "a".toList "-sd".toList "-ed".toList "2023-1-1".toList
    2023 12 31 (by decide) (by decide) (by decide) (by decide) (by decide) (by decide)
    (by decide) (Or.inl (by decide)) (by decide) (by decide) (by decide)
  ⟨h.1 (by decide), h.2.1 (by decide), h.2.2.1, h.2.2.2⟩

/-! ## File extension of a URL -/

theorem rfindChar_none (c : Char) : ∀ s : Str, c ∉ s → rfindChar c s = none := by
  intro s
  induction s with
  | nil => intro _; rfl
  | cons a s ih =>
    intro h
    simp only [List.mem_cons, not_or] at h
    have ha : (a == c) = false := by
      rw [beq_eq_false_iff_ne]
      exact fun e => h.1 e.symm
    simp only [rfindChar, ih h.2, ha, Bool.false_eq_true, if_false]

theorem rfindChar_last (c : Char) (post : Str) (hpost : c ∉ post) :
    ∀ pre : Str, rfindChar c (pre ++ c :: post) = some pre.length := by
  intro pre
  induction pre with
  | nil =>
    simp only [List.nil_append, rfindChar, rfindChar_none c post hpost, beq_self_eq_true,
      if_true, List.length_nil]
  | cons a pre ih =>
    have e : rfindChar c (a :: (pre ++ c :: post)) =
        (match rfindChar c (pre ++ c :: post) with
         | some i => some (i + 1)
         | none => if a == c then some 0 else none) := rfl
    rw [List.cons_append, e, ih]
    rfl

theorem rfindChar_lt (c : Char) :
    ∀ (s : Str) (i : Nat), rfindChar c s = some i → i < s.length := by
  intro s
  induction s with
  | nil => intro i h; cases h
  | cons a s ih =>
    intro i h
    simp only [rfindChar] at h
    cases hs : rfindChar c s with
    | some j =>
      rw [hs] at h
      cases h
      have := ih j hs
      simp only [List.length_cons]
      omega
    | none =>
      rw [hs] at h
      split_ifs at h
      cases h
      simp

theorem rfindChar_append_not_mem (c : Char) (post : Str) (hpost : c ∉ post) :
    ∀ pre : Str, rfindChar c (pre ++ post) = rfindChar c pre := by
  intro pre
  induction pre with
  | nil => simp only [List.nil_append, rfindChar_none c post hpost, rfindChar]
  | cons a pre ih =>
    have e : rfindChar c (a :: (pre ++ post)) =
        (match rfindChar c (pre ++ post) with
         | some i => some (i + 1)
         | none => if a == c then some 0 else none) := rfl
    rw [List.cons_append, e, ih]
    rfl

theorem getFileExtension_no_slash (Url : Str) (h : '/' ∉ Url) (hfit : Url.length < npos) :
    getFileExtension Url = some [] := by
  unfold getFileExtension
  have hs : rfind Url '/' = npos := by
    simp only [rfind, rfindChar_none '/' Url h]
  simp only [hs]
  cases hd : rfindChar '.' Url with
  | none =>
    have : rfind Url '.' = npos := by simp only [rfind, hd]
    rw [if_pos (Or.inl this)]
  | some i =>
    have hi := rfindChar_lt '.' Url i hd
    have : rfind Url '.' = i := by simp only [rfind, hd]
    rw [if_pos (Or.inr (by rw [this]; omega))]

theorem getFileExtension_in_name (dir stem ext : Str) (h1 : '/' ∉ stem) (h2 : '/' ∉ ext)
    (h3 : '.' ∉ ext) (hfit : (dir ++ '/' :: (stem ++ '.' :: ext)).length < npos) :
    getFileExtension (dir ++ '/' :: (stem ++ '.' :: ext)) = some ext := by
  have hs : rfind (dir ++ '/' :: (stem ++ '.' :: ext)) '/' = dir.length := by
    have hpost : '/' ∉ stem ++ '.' :: ext := by
      simp only [List.mem_append, List.mem_cons, not_or]
      exact ⟨h1, by decide, h2⟩
    simp only [rfind, rfindChar_last '/' _ hpost dir]
  have e : dir ++ '/' :: (stem ++ '.' :: ext) = (dir ++ '/' :: stem) ++ '.' :: ext := by simp
  have hd : rfind (dir ++ '/' :: (stem ++ '.' :: ext)) '.' = dir.length + 1 + stem.length := by
    rw [e]
    simp only [rfind, rfindChar_last '.' ext h3 (dir ++ '/' :: stem), List.length_append,
      List.length_cons]
    omega
  have hlen : (dir ++ '/' :: (stem ++ '.' :: ext)).length
      = dir.length + 1 + stem.length + 1 + ext.length := by
    simp only [List.length_append, List.length_cons]
    omega
  rw [hlen] at hfit
  unfold getFileExtension
  simp only [hs, hd]
  have hcond : ¬ (dir.length + 1 + stem.length = npos ∨
      dir.length > dir.length + 1 + stem.length) := by
    intro h
    rcases h with h | h <;> omega
  rw [if_neg hcond]
  have hadd : sizeAdd (dir.length + 1 + stem.length) 1 = dir.length + 1 + stem.length + 1 := by
    unfold sizeAdd
    unfold npos at hfit
    omega
  rw [hadd]
  unfold substr
  rw [if_neg (by rw [hlen]; omega)]
  have hdrop : (dir ++ '/' :: (stem ++ '.' :: ext)).drop (dir.length + 1 + stem.length + 1)
      = ext := by
    have e2 : dir ++ '/' :: (stem ++ '.' :: ext) = (dir ++ '/' :: stem ++ ['.']) ++ ext := by
      simp
    rw [e2]
    exact List.drop_left' (by
      simp only [List.length_append, List.length_cons, List.length_singleton, List.length_nil]
      omega)
  rw [hdrop, List.take_of_length_le (by omega)]

theorem getFileExtension_no_dot_in_name (dir name : Str) (h1 : '/' ∉ name) (h2 : '.' ∉ name) :
    getFileExtension (dir ++ '/' :: name) = some [] := by
  have hs : rfind (dir ++ '/' :: name) '/' = dir.length := by
    simp only [rfind, rfindChar_last '/' name h1 dir]
  have hpost : '.' ∉ '/' :: name := by
    simp only [List.mem_cons, not_or]
    exact ⟨by decide, h2⟩
  have hd : rfindChar '.' (dir ++ '/' :: name) = rfindChar '.' dir :=
    rfindChar_append_not_mem '.' _ hpost dir
  unfold getFileExtension
  simp only [hs]
  cases hdir : rfindChar '.' dir with
  | none =>
    have : rfind (dir ++ '/' :: name) '.' = npos := by simp only [rfind, hd, hdir]
    rw [if_pos (Or.inl this)]
  | some i =>
    have hi := rfindChar_lt '.' dir i hdir
    have : rfind (dir ++ '/' :: name) '.' = i := by simp only [rfind, hd, hdir]
    rw [if_pos (Or.inr (by rw [this]; omega))]

/-- C21 (code at the failing input): for the bare file path `example.txt`, which holds no
`/`, `getFileExtension` returns the empty string, not `txt`; the same for `archive.tar.gz`.
With a directory part, `Datasets/a.b/example.txt` gives `txt` and `Datasets/a.b/example`
gives the empty string. -/
theorem C21_bare_file_path_gives_no_extension :
    getFileExtension "example.txt".toList = some []
    ∧ getFileExtension "archive.tar.gz".toList = some []
    ∧ getFileExtension "Datasets/a.b/example.txt".toList = some "txt".toList
    ∧ getFileExtension "Datasets/a.b/example".toList = some [] := by
  decide

/-! ## Query interpreter: bounds of the substring call -/

theorem indexOfSub_bound (n : Str) :
    ∀ (L : Str) (i : Nat), indexOfSub n L = some i → i + n.length ≤ L.length := by
  intro L
  induction L with
  | nil =>
    intro i h
    cases n with
    | nil =>
      have e : indexOfSub [] ([] : Str) = some 0 := rfl
      rw [e] at h
      cases h
      simp
    | cons a n =>
      have e : indexOfSub (a :: n) ([] : Str) = none := rfl
      rw [e] at h
      cases h
  | cons c s ih =>
    intro i h
    have e : indexOfSub n (c :: s) =
        (if n.isPrefixOf (c :: s) then some 0
         else match indexOfSub n s with
           | some i => some (i + 1)
           | none => none) := rfl
    rw [e] at h
    by_cases hp : n.isPrefixOf (c :: s) = true
    · rw [if_pos hp] at h
      cases h
      have := (List.isPrefixOf_iff_prefix.mp hp).length_le
      omega
    · rw [if_neg hp] at h
      cases hs : indexOfSub n s with
      | none => rw [hs] at h; cases h
      | some j =>
        rw [hs] at h
        cases h
        have := ih j hs
        simp only [List.length_cons]
        omega

theorem find_zero_bound (input n : Str) :
    find input n 0 = npos ∨ find input n 0 + n.length ≤ input.length := by
  unfold find
  rw [if_neg (by omega), List.drop_zero]
  cases h : indexOfSub n input with
  | none => exact Or.inl rfl
  | some i =>
    right
    have := indexOfSub_bound n input i h
    simpa using this

theorem find_space_bound (input : Str) (pos : Nat) :
    find input [' '] pos = npos ∨
      (pos ≤ find input [' '] pos ∧ find input [' '] pos < input.length) := by
  unfold find
  by_cases hp : pos > input.length
  · rw [if_pos hp]
    exact Or.inl rfl
  · rw [if_neg hp]
    cases h : indexOfSub [' '] (input.drop pos) with
    | none => exact Or.inl rfl
    | some i =>
      right
      have := indexOfSub_bound [' '] (input.drop pos) i h
      simp only [List.length_singleton, List.length_drop] at this
      constructor
      · simp
      · show pos + i < input.length
        omega

theorem substrCall_spec (argument input : Str) (hfit : input.length < npos) (sp ep : Nat)
    (h : ExtractInputArguments.substrCall argument input = some (sp, ep)) :
    sp ≤ ep ∧ ep ≤ input.length ∧ (ep - sp = 10 ∨ ep - sp = 11) ∧ sizeSub ep sp = ep - sp := by
  have h0 := find_zero_bound input argument
  have h1 := find_space_bound input (sizeAdd (sizeAdd (find input argument 0) argument.length) 1)
  unfold ExtractInputArguments.substrCall at h
  simp only [ExpectedDateArgumentLengthShort, ExpectedDateArgumentLengthLong] at h
  generalize find input [' '] (sizeAdd (sizeAdd (find input argument 0) argument.length) 1)
    = E at h h1
  generalize find input argument 0 = A at h h0 h1
  generalize argument.length = L at h h0 h1
  generalize input.length = N at h h0 h1 hfit
  unfold sizeAdd at h h1
  unfold sizeSub at h
  unfold sizeSub
  unfold npos at h h0 h1 hfit
  split_ifs at h with c1 c2 c3 c4 c5 c6 <;>
    first
    | (simp only [Option.some.injEq, Prod.mk.injEq] at h
       obtain ⟨rfl, rfl⟩ := h
       omega)

theorem ExtractInputArguments_eq_substrCall (argument input : Str) :
    ExtractInputArguments argument input =
      match ExtractInputArguments.substrCall argument input with
      | none => some none
      | some call =>
        match substr input call.1 (sizeSub call.2 call.1) with
        | some value => some (some value)
        | none => none := by
  unfold ExtractInputArguments ExtractInputArguments.substrCall
  simp only
  split_ifs <;> rfl

theorem ExtractInputArguments_total (argument input : Str) (hfit : input.length < npos) :
    ∃ r, ExtractInputArguments argument input = some r ∧
      ∀ v, r = some v → v.length = 10 ∨ v.length = 11 := by
  rw [ExtractInputArguments_eq_substrCall]
  cases hc : ExtractInputArguments.substrCall argument input with
  | none => exact ⟨none, rfl, fun v hv => by cases hv⟩
  | some call =>
    obtain ⟨sp, ep⟩ := call
    obtain ⟨h1, h2, h3, h4⟩ := substrCall_spec argument input hfit sp ep hc
    have hs : substr input sp (sizeSub ep sp) = some ((input.drop sp).take (ep - sp)) := by
      unfold substr
      rw [if_neg (by omega), h4]
    refine ⟨some ((input.drop sp).take (ep - sp)), ?_, ?_⟩
    · simp only [hs]
    · intro v hv
      cases hv
      simp only [List.length_take, List.length_drop]
      omega


/-! ## Query interpreter: values of eleven chars -/

theorem space_not_mem_toLowercase (V : Str) (hV : ' ' ∉ V) : ' ' ∉ toLowercase V := by
  intro h
  simp only [toLowercase, List.mem_map] at h
  obtain ⟨c, hc, e⟩ := h
  have : c = ' ' := by
    by_contra hne
    revert e
    unfold toLower
    split_ifs with hu
    · simp only [Bool.and_eq_true, decide_eq_true_eq] at hu
      obtain ⟨h1, h2⟩ := hu
      generalize c.toNat = n at h1 h2
      interval_cases n <;> decide
    · exact hne
  exact hV (this ▸ hc)

theorem toLowercase_length (s : Str) : (toLowercase s).length = s.length := by
  simp [toLowercase]

theorem bound_of_other_length (v : Str) (h : v.length ≠ 10) :
    boundOfArgument (some v) = DefaultDate := by
  simp only [boundOfArgument, StringToDateCLIArg_length v h]

theorem bound_set_only_by_ten (a : Option Str) (h : boundOfArgument a ≠ DefaultDate) :
    ∃ v, a = some v ∧ v.length = 10 ∧ StringToDateCLIArg v = some (boundOfArgument a) := by
  cases a with
  | none => exact absurd rfl h
  | some v =>
    refine ⟨v, rfl, ?_, ?_⟩
    · by_contra hl
      exact h (bound_of_other_length v hl)
    · cases hp : StringToDateCLIArg v with
      | none =>
        exfalso
        apply h
        simp only [boundOfArgument, hp]
      | some d => simp only [boundOfArgument, hp]

theorem lookup_eleven (flag fs val : Str) (before after : List Str)
    (hne : flag ≠ []) (hsp : ' ' ∉ flag) (hfs : toLowercase fs = flag)
    (hbefore : ∀ t ∈ before, ¬ occursIgnoringCase flag t)
    (hval : ' ' ∉ val) (hlen : val.length = 11)
    (hfit : (spaced (before ++ fs :: val :: after)).length < npos) :
    ExtractInputArguments flag (toLowercase (spaced (before ++ fs :: val :: after)))
      = some (some (toLowercase val)) := by
  have hL : toLowercase (spaced (before ++ fs :: val :: after)) =
      spaced (before.map toLowercase ++ flag :: toLowercase val :: after.map toLowercase) := by
    rw [toLowercase_spaced, List.map_append, List.map_cons, List.map_cons, hfs]
  have hfit' : (spaced (before.map toLowercase ++ flag :: toLowercase val ::
      after.map toLowercase)).length < npos := by
    rw [← hL, toLowercase_length]
    exact hfit
  have e := extract_spaced flag (toLowercase val) (before.map toLowercase)
    (after.map toLowercase) hne hsp
    (by
      intro t ht
      obtain ⟨u, hu, rfl⟩ := List.mem_map.mp ht
      exact hbefore u hu)
    (space_not_mem_toLowercase val hval) hfit'
  rw [hL, e, toLowercase_length, hlen]
  simp

/-- C22: for every query made of tokens joined by single spaces in which the first
occurrence of the flag `-sd` (or `-ed`, any casing) is a token followed by a space-free
value token of exactly 11 chars, `ExtractInputArguments` returns that token (of the
lower-cased query) and `ExtractSearchDatesCLI` leaves the corresponding bound unset; and for
every query, a bound that is set was set by a returned value of exactly 10 chars. -/
theorem C22_eleven_char_value_leaves_bound_unset (flag fs val : Str) (before after : List Str)
    (hflag : flag = StartDateStrArg ∨ flag = EndDateStrArg)
    (hfs : toLowercase fs = flag)
    (hbefore : ∀ t ∈ before, ¬ occursIgnoringCase flag t)
    (hval : ' ' ∉ val) (hlen : val.length = 11)
    (hfit : (spaced (before ++ fs :: val :: after)).length < npos) :
    ExtractInputArguments flag (toLowercase (spaced (before ++ fs :: val :: after)))
        = some (some (toLowercase val))
    ∧ (∃ p, ExtractSearchDatesCLI (spaced (before ++ fs :: val :: after)) = some p ∧
        (flag = StartDateStrArg → p.StartDate = DefaultDate) ∧
        (flag = EndDateStrArg → p.EndDate = DefaultDate))
    ∧ (∀ input p, ExtractSearchDatesCLI input = some p →
        (p.StartDate ≠ DefaultDate →
          ∃ v, ExtractInputArguments StartDateStrArg (toLowercase input) = some (some v) ∧
            v.length = 10 ∧ StringToDateCLIArg v = some p.StartDate) ∧
        (p.EndDate ≠ DefaultDate →
          ∃ v, ExtractInputArguments EndDateStrArg (toLowercase input) = some (some v) ∧
            v.length = 10 ∧ StringToDateCLIArg v = some p.EndDate)) := by
  have hne : flag ≠ [] := by
    rcases hflag with rfl | rfl <;> decide
  have hsp : ' ' ∉ flag := by
    rcases hflag with rfl | rfl <;> decide
  have hdiff : StartDateStrArg ≠ EndDateStrArg := by decide
  have hmain := lookup_eleven flag fs val before after hne hsp hfs hbefore hval hlen hfit
  have hfit' : (toLowercase (spaced (before ++ fs :: val :: after))).length < npos := by
    rw [toLowercase_length]
    exact hfit
  have hb11 : boundOfArgument (some (toLowercase val)) = DefaultDate :=
    bound_of_other_length _ (by rw [toLowercase_length, hlen]; decide)
  refine ⟨hmain, ?_, ?_⟩
  · rcases hflag with rfl | rfl
    · obtain ⟨r, hr, -⟩ := ExtractInputArguments_total EndDateStrArg _ hfit'
      refine ⟨_, searchDates_of_lookups _ _ _ hmain hr, fun _ => hb11,
        fun h => absurd h hdiff⟩
    · obtain ⟨r, hr, -⟩ := ExtractInputArguments_total StartDateStrArg _ hfit'
      refine ⟨_, searchDates_of_lookups _ _ _ hr hmain, fun h => absurd h.symm hdiff,
        fun _ => hb11⟩
  · intro input p hp
    unfold ExtractSearchDatesCLI at hp
    cases ha : ExtractInputArguments StartDateStrArg (toLowercase input) with
    | none => rw [ha] at hp; cases hp
    | some a =>
      cases hb : ExtractInputArguments EndDateStrArg (toLowercase input) with
      | none => rw [ha, hb] at hp; cases hp
      | some b =>
        rw [ha, hb] at hp
        simp only [Option.some.injEq] at hp
        subst hp
        constructor
        · intro h
          obtain ⟨v, rfl, h1, h2⟩ := bound_set_only_by_ten a h
          exact ⟨v, rfl, h1, h2⟩
        · intro h
          obtain ⟨v, rfl, h1, h2⟩ := bound_set_only_by_ten b h
          exact ⟨v, rfl, h1, h2⟩

/-- Witness of C22: the value `2023-01-011` of 11 chars after `-SD`, with a good end
date. -/
theorem C22_eleven_char_value_leaves_bound_unset_witness :
    ExtractInputArguments StartDateStrArg
        (toLowercase "Datasets/W -SD 2023-01-011 -ed 2023-12-31".toList)
        = some (some "2023-01-011".toList)
    ∧ ∃ p, ExtractSearchDatesCLI "Datasets/W -SD 2023-01-011 -ed 2023-12-31".toList = some p ∧
        (StartDateStrArg = StartDateStrArg → p.StartDate = DefaultDate) ∧
        (StartDateStrArg = EndDateStrArg → p.EndDate = DefaultDate) :=
  have h := C22_eleven_char_value_leaves_bound_unset StartDateStrArg "-SD".toList
    "2023-01-011".toList ["Datasets/W".toList] ["-ed".toList, "2023-12-31".toList]
    (Or.inl rfl) (by decide) (by decide) (by decide) (by decide) (by decide)
  ⟨h.1, h.2.1⟩

/-! ## Query interpreter: safety of the substring call -/

/-- C23: for every flag string and every input string (a `std::string`, shorter than
`npos`), `ExtractInputArguments` reaches its call to `substr` only with
`startPos ≤ endPos ≤ input.length`, the call then returns a value of length exactly
`endPos - startPos`, which is 10 or 11; the function never ends by an exception, and a
value is returned only through that call.  Differences of `size_t` are taken modulo
`2^64`. -/
theorem C23_substr_call_in_bounds (argument input : Str) (hfit : input.length < npos) :
    (∀ startPos endPos,
        ExtractInputArguments.substrCall argument input = some (startPos, endPos) →
        startPos ≤ endPos ∧ endPos ≤ input.length ∧
        ∃ v, substr input startPos (sizeSub endPos startPos) = some v ∧
          ExtractInputArguments argument input = some (some v) ∧
          v.length = endPos - startPos ∧ (v.length = 10 ∨ v.length = 11))
    ∧ (∃ r, ExtractInputArguments argument input = some r ∧
        ∀ v, r = some v → v.length = 10 ∨ v.length = 11)
    ∧ (∀ v, ExtractInputArguments argument input = some (some v) →
        ∃ call, ExtractInputArguments.substrCall argument input = some call) := by
  refine ⟨?_, ExtractInputArguments_total argument input hfit, ?_⟩
  · intro sp ep hc
    obtain ⟨h1, h2, h3, h4⟩ := substrCall_spec argument input hfit sp ep hc
    have hs : substr input sp (sizeSub ep sp) = some ((input.drop sp).take (ep - sp)) := by
      unfold substr
      rw [if_neg (by omega), h4]
    have hl : ((input.drop sp).take (ep - sp)).length = ep - sp := by
      simp only [List.length_take, List.length_drop]
      omega
    refine ⟨h1, h2, _, hs, ?_, hl, ?_⟩
    · rw [ExtractInputArguments_eq_substrCall, hc]
      simp only [hs]
    · rw [hl]
      exact h3
  · intro v hv
    rw [ExtractInputArguments_eq_substrCall] at hv
    cases hc : ExtractInputArguments.substrCall argument input with
    | none =>
      rw [hc] at hv
      cases hv
    | some call => exact ⟨call, rfl⟩

/-- Witness of C23: in `x -sd 2023-01-011 y` the call is reached with `startPos = 6` and
`endPos = 17`; in `x -sd` the flag is the last thing in the input, `startPos = 6` exceeds
the length 5, the difference wraps and the function returns before the call. -/
theorem C23_substr_call_in_bounds_witness :
    (6 ≤ 17 ∧ 17 ≤ "x -sd 2023-01-011 y".toList.length ∧
      ∃ v, substr "x -sd 2023-01-011 y".toList 6 (sizeSub 17 6) = some v ∧
        ExtractInputArguments "-sd".toList "x -sd 2023-01-011 y".toList = some (some v) ∧
        v.length = 17 - 6 ∧ (v.length = 10 ∨ v.length = 11))
    ∧ ExtractInputArguments.substrCall "-sd".toList "x -sd".toList = none
    ∧ ∃ r, ExtractInputArguments "-sd".toList "x -sd".toList = some r ∧
        ∀ v, r = some v → v.length = 10 ∨ v.length = 11 :=
  ⟨(C23_substr_call_in_bounds "-sd".toList "x -sd 2023-01-011 y".toList (by decide)).1 6 17
      (by decide),
   by decide,
   (C23_substr_call_in_bounds "-sd".toList "x -sd".toList (by decide)).2.1⟩

/-! ## Listing page parser: pages made of blocks -/

theorem GetDateFromUrl_of_first_run (pre tok post : Str) (hrun : DelimitedRun pre tok post)
    (hfirst : ∀ j, j < pre.length → ¬ runStartsAt (pre ++ tok ++ post) j) :
    ∃ d, GetDateFromUrl (pre ++ tok ++ post) = some d := by
  unfold GetDateFromUrl
  rw [ExtractStrDateFromUrl_first_run pre tok post hrun hfirst]
  cases h : ParseDate tok with
  | none => exact ⟨DefaultDate, by simp only [h]⟩
  | some d => exact ⟨d, by simp only [h]⟩

theorem run_split (url : Str) (i k : Nat)
    (hlen : ((url.drop i).take k).length = k) (hk : 0 < k) :
    url = url.take i ++ (url.drop i).take k ++ url.drop (i + k) ∧ (url.take i).length = i := by
  have h1 : ((url.drop i).take k).length = min k (url.length - i) := by
    simp [List.length_take, List.length_drop]
  constructor
  · have e : url.drop (i + k) = (url.drop i).drop k := by
      rw [List.drop_drop, Nat.add_comm]
    rw [e, List.append_assoc, List.take_append_drop, List.take_append_drop]
  · rw [List.length_take]
    omega

theorem run_exact (url : Str) (i : Nat) (h : runStartsAt url i) :
    ∃ k, 0 < k ∧ ((url.drop i).take k).length = k ∧
      DelimitedRun (url.take i) ((url.drop i).take k) (url.drop (i + k)) := by
  rcases h with hr | hr
  · refine ⟨6, by decide, ?_, hr⟩
    rcases hr.1 with h6 | h8
    · exact h6
    · have := List.length_take_le 6 (url.drop i)
      omega
  · rcases hr.1 with h6 | h8
    · have hlen : (url.drop i).length = 6 := by
        have h1 : ((url.drop i).take 8).length = min 8 (url.drop i).length :=
          List.length_take 8 (url.drop i)
        omega
      have e1 : (url.drop i).take 8 = url.drop i := List.take_of_length_le (by omega)
      have e2 : (url.drop i).take 6 = url.drop i := List.take_of_length_le (by omega)
      have hl : url.length = i + 6 := by
        rw [List.length_drop] at hlen
        omega
      have e3 : url.drop (i + 8) = [] := List.drop_of_length_le (by omega)
      have e4 : url.drop (i + 6) = [] := List.drop_of_length_le (by omega)
      refine ⟨6, by decide, by rw [e2, hlen], ?_⟩
      rw [e2, e4]
      rw [e1, e3] at hr
      exact hr
    · exact ⟨8, by decide, h8, hr⟩

theorem GetDateFromUrl_of_hasDateToken (url : Str) (h : hasDateToken url) :
    ∃ d, GetDateFromUrl url = some d := by
  have hex : ∃ i, runStartsAt url i := by
    obtain ⟨i, _, hi⟩ := h
    exact ⟨i, hi⟩
  have hmin : ∀ j, j < Nat.find hex → ¬ runStartsAt url j := fun j hj => Nat.find_min hex hj
  have hrun := Nat.find_spec hex
  generalize Nat.find hex = i at hmin hrun
  obtain ⟨k, hk, hl, hr⟩ := run_exact url i hrun
  obtain ⟨e, hi⟩ := run_split url i k hl hk
  have := GetDateFromUrl_of_first_run (url.take i) ((url.drop i).take k) (url.drop (i + k)) hr
    (by
      intro j hj
      rw [← e]
      exact hmin j (by omega))
  rw [← e] at this
  exact this

theorem ParseEAXML_blocks (blocks : List (PageBlock × Str)) :
    (∀ b ∈ blocks, b.1.flat ∧ b.1.dated ∧ betweenBlocks b.2) →
    ∀ (s0 : Str) (st : List BlobContainer × Str), betweenBlocks s0 →
      ParseEAXML.loop (sregex_iterator blobOrMarkerPattern (renderPage s0 blocks)) st =
        some (st.1 ++ recordsOfBlocks blocks, markerOfBlocks st.2 blocks) := by
  induction blocks with
  | nil =>
    intro _ s0 st hs0
    have e : renderPage s0 [] = s0 ++ [] := by simp [renderPage]
    rw [e, iter_text s0 [] hs0 (Or.inl rfl), iter_nil _ pattern_nil]
    simp [ParseEAXML.loop, recordsOfBlocks, markerOfBlocks]
  | cons b blocks ih =>
    intro hall s0 st hs0
    obtain ⟨blk, s1⟩ := b
    have hb := hall (blk, s1) (List.mem_cons_self _ _)
    have ih' := ih (fun x hx => hall x (List.mem_cons_of_mem _ hx)) s1
    have er : renderPage s0 ((blk, s1) :: blocks) = s0 ++ (blk.render ++ renderPage s1 blocks) := by
      simp [renderPage]
    rw [er]
    cases blk with
    | blob inner =>
      have hflat : (∀ c ∈ inner, isLineTerminator c = false) ∧
          ¬ ("</blob>".toList <:+: inner.map toLower) := hb.1
      have hdated : hasDateToken (urlOfBlock (blobBlock inner)) := hb.2.1
      obtain ⟨d, hd⟩ := GetDateFromUrl_of_hasDateToken _ hdated
      have hstart : PageBlock.render (PageBlock.blob inner) ++ renderPage s1 blocks = [] ∨
          ∃ r, PageBlock.render (PageBlock.blob inner) ++ renderPage s1 blocks = '<' :: r :=
        Or.inr ⟨_, rfl⟩
      rw [iter_text s0 _ hs0 hstart]
      simp only [PageBlock.render]
      rw [iter_match _ blobOrMarkerPattern_length _ _ _
        (pattern_blob inner _ hflat.1 hflat.2)]
      simp only [ParseEAXML.loop, step_blob st inner d hd]
      rw [ih' _ hb.2.2]
      simp [recordsOfBlocks, markerOfBlocks]
    | marker token =>
      have hflat : (∀ c ∈ token, isLineTerminator c = false) ∧ '<' ∉ token ∧
          ¬ ("/Blob".toList <:+: token) := hb.1
      have hstart : PageBlock.render (PageBlock.marker token) ++ renderPage s1 blocks = [] ∨
          ∃ r, PageBlock.render (PageBlock.marker token) ++ renderPage s1 blocks = '<' :: r :=
        Or.inr ⟨_, rfl⟩
      rw [iter_text s0 _ hs0 hstart]
      simp only [PageBlock.render]
      rw [iter_match _ blobOrMarkerPattern_length _ _ _
        (pattern_marker token _ hflat.1 hflat.2.1)]
      simp only [ParseEAXML.loop, step_marker st token hflat.2.2]
      rw [ih' _ hb.2.2]
      simp [recordsOfBlocks, markerOfBlocks]

/-- C3 (as stated, refuted): a listing page whose only `Blob` block spans a line break yields
no record at all, although the block holds a `Url` tag with a dated URL; and for a page
whose only `Blob` block has no `Url` tag, `GetDateFromUrl` is called on the empty URL and
ends without a return value, so that `ParseEAXML` has no result: the missing field does
prevent the record. -/
theorem C3_block_with_line_break_gives_no_record :
    ParseEAXML [] "<Blob>\n<Url>Datasets/a_20230112</Url>\n</Blob>".toList []
      = some ([], [])
    ∧ ParseEAXML [] "<Blob><Name>x</Name></Blob>".toList [] = none := by
  decide

/-- C3 (amended): for every listing page `s0 B1 s1 ... Bn sn` in which each `Bi` is a
`Blob` block in the casing `<Blob>`, `</Blob>` (inner text without line break and without a
closing Blob tag in any casing, and with a date token in the URL of its first `Url` tag) or
a `NextMarker` block (token without line break, without `<` and not containing `/Blob`),
and the texts `si` hold no opening tag `<Blob>` or `<NextMarker>` in any casing, whatever
the initial output and token, `ParseEAXML` returns and appends exactly one `BlobContainer`
per `Blob` block, in document order, and nothing else; the record's URL is the inner text
of the first `Url` tag of the block, its `FileNameDate` is the date `GetDateFromUrl`
returns for that URL, its `LastModified` is `ParseDate` of the inner text of the first
`Last-Modified` tag or the unset sentinel; no condition is put on the presence or the
content of the `Last-Modified` tag, and the token left is the one of the last `NextMarker`
block, if any. -/
theorem C3_one_record_per_blob_block (s0 : Str) (blocks : List (PageBlock × Str))
    (out : List BlobContainer) (token : Str) (hs0 : betweenBlocks s0)
    (hblocks : ∀ b ∈ blocks, b.1.flat ∧ b.1.dated ∧ betweenBlocks b.2) :
    ParseEAXML out (renderPage s0 blocks) token =
        some (out ++ recordsOfBlocks blocks, markerOfBlocks token blocks)
    ∧ (recordsOfBlocks blocks).length =
        (blocks.filter (fun b => match b.1 with
          | PageBlock.blob _ => true
          | PageBlock.marker _ => false)).length
    ∧ ∀ r ∈ recordsOfBlocks blocks, ∃ inner s, (PageBlock.blob inner, s) ∈ blocks ∧
        r.URL = urlOfBlock (blobBlock inner) ∧
        GetDateFromUrl r.URL = some r.FileNameDate ∧
        r.LastModified = (ParseDate
          (_ExtractValueFromXMLTag "Last-Modified".toList (blobBlock inner))).getD DefaultDate := by
  refine ⟨?_, ?_, ?_⟩
  · unfold ParseEAXML
    exact ParseEAXML_blocks blocks hblocks s0 (out, token) hs0
  · clear hblocks
    induction blocks with
    | nil => rfl
    | cons b blocks ih =>
      obtain ⟨blk, s⟩ := b
      cases blk with
      | blob inner => simp [recordsOfBlocks, List.filter_cons, ih]
      | marker t => simp [recordsOfBlocks, List.filter_cons, ih]
  · induction blocks with
    | nil => intro r hr; cases hr
    | cons b blocks ih =>
      obtain ⟨blk, s⟩ := b
      have ih' := ih (fun x hx => hblocks x (List.mem_cons_of_mem _ hx))
      have hb := hblocks (blk, s) (List.mem_cons_self _ _)
      intro r hr
      cases blk with
      | blob inner =>
        simp only [recordsOfBlocks, List.mem_cons] at hr
        rcases hr with rfl | hr
        · have hdated : hasDateToken (urlOfBlock (blobBlock inner)) := hb.2.1
          obtain ⟨d, hd⟩ := GetDateFromUrl_of_hasDateToken _ hdated
          refine ⟨inner, s, List.mem_cons_self _ _, rfl, ?_, rfl⟩
          simp only [recordOfBlock, hd, Option.getD_some]
        · obtain ⟨inner', s', hm, h1, h2, h3⟩ := ih' r hr
          exact ⟨inner', s', List.mem_cons_of_mem _ hm, h1, h2, h3⟩
      | marker t =>
        simp only [recordsOfBlocks] at hr
        obtain ⟨inner', s', hm, h1, h2, h3⟩ := ih' r hr
        exact ⟨inner', s', List.mem_cons_of_mem _ hm, h1, h2, h3⟩

set_option maxRecDepth 100000 in
/-- Witness of C3 (amended): a page with markup around the blocks, a complete block, a block
without modification date, a block whose modification date does not parse and whose date
token names no real date, and a continuation token. -/
theorem C3_one_record_per_blob_block_witness :
    ParseEAXML []
        ("<EnumerationResults><Blobs>".toList ++
          "<Blob><Url>D/a_20230112</Url>".toList ++
          "<Last-Modified>17 Jan 2023</Last-Modified></Blob>".toList ++
          "<Blob><Name>x</Name><Url>D/202302_b.csv</Url></Blob>".toList ++
          "<Blob><Url>c_20231345/c</Url>".toList ++
          "<Last-Modified>today</Last-Modified></Blob>".toList ++
          "</Blobs>".toList ++
          "<NextMarker>m1</NextMarker>".toList ++
          "</EnumerationResults>".toList) []
      = some ([{ URL := "D/a_20230112".toList,
                 LastModified := { year := 2023, month := 1, day := 17 },
                 FileNameDate := { year := 2023, month := 1, day := 12 } },
               { URL := "D/202302_b.csv".toList, LastModified := DefaultDate,
                 FileNameDate := { year := 2023, month := 2, day := 28 } },
               { URL := "c_20231345/c".toList, LastModified := DefaultDate,
                 FileNameDate := DefaultDate }],
              "m1".toList) :=
  (C3_one_record_per_blob_block "<EnumerationResults><Blobs>".toList
     [(PageBlock.blob ("<Url>D/a_20230112</Url>".toList ++
         "<Last-Modified>17 Jan 2023</Last-Modified>".toList), []),
      (PageBlock.blob "<Name>x</Name><Url>D/202302_b.csv</Url>".toList, []),
      (PageBlock.blob ("<Url>c_20231345/c</Url>".toList ++
         "<Last-Modified>today</Last-Modified>".toList), "</Blobs>".toList),
      (PageBlock.marker "m1".toList, "</EnumerationResults>".toList)]
     [] [] (by decide) (by decide)).1

end EADataGrabber
